import Mathlib

/-!
# Integer polygons: a shallow embedding of `mgons.cpp`

The program counts, for a perimeter `n` and a number of sides `m`, the polygons with
integer sides up to rotation and reflection, by the East-Niles formula.

Conventions of the embedding.

* The C++ type `unsigned` is a 32-bit word.  Its values are natural numbers below
  `2 ^ 32`; every `unsigned` operation that can leave that range is written with an
  explicit reduction (`wrap`, `usub`).  Operations that cannot leave the range
  (`/`, `%`, a counter that is bounded by the loop test) are written on `Nat` directly.
* A loop `for (unsigned i = lo; i <= hi; ++i)` is `for_le`, whose counter wraps like the
  source's; a loop whose test is `i < hi` cannot wrap and is a fold over `List.range'`.
  Loops are run with a budget of steps (fuel); the budgets are shown to be enough.
* The type `multiprecision` is `boost::multiprecision::int256_t`, a fixed-width type: a
  sign and a magnitude of 256 bits.  Its values are integers; what the type keeps of the
  result of an operation is a function of its own, the store (`store256`).  Every function
  that computes with `multiprecision` is embedded twice: as `binom_with`, ...,
  `compute_mgon_with`, over a store given as a parameter (with `store256` this is the
  source's function), and as `binom`, ..., `compute_mgon`, with exact results, which is
  the function over unbounded integers.  The two agree as long as every result fits the
  256 bits (`compute_mgon_with_of_fits`), which is so for the perimeters up to 254 and
  fails at the perimeter 255.
* A failing run (an exception, or an integer remainder by zero) is a value of `Failure`.

The file has these parts: the embedding of the source, the specification of the count and
the program over a fixed-width multiprecision type (definitions); the elementary facts
about `compute_gcd`, `totient`, `binom` and the numerator of `compute_mgon`; the proof by
Burnside's lemma that the numerator is `4 * m` times the number of polygons; the loop of
`binom` iteration by iteration, the arguments of its calls, termination, and the bounds
that make 256 bits enough for the perimeters swept by `main`; the 256-bit type of the
source: the runs in which every result fits, runs that lose bits (from the perimeter 255
on), and the contract of `compute_mgon`, the loop of `binom` and the polygon with all
sides 1 over that type.
-/

namespace Mgons

/-- The ways a run of the program's functions can fail to return a value. -/
inductive Failure where
  /-- `throw std::runtime_error("bad_fraction")` in `compute_mgon`. -/
  | bad_fraction
  /-- A remainder or a quotient by zero. -/
  | zero_divisor
  /-- The embedding's loop budget was used up (the budgets are enough, see `compute_gcd`
  and `for_le_eq_foldlM`). -/
  | out_of_fuel
  /-- A multiprecision result does not fit the fixed-width type (raised only by `checked`,
  which the source's functions do not use). -/
  | overflow
  deriving DecidableEq, Repr

instance instDecidableEqExcept {ε α : Type} [DecidableEq ε] [DecidableEq α] :
    DecidableEq (Except ε α) := fun x y =>
  match x, y with
  | .ok a, .ok b => if h : a = b then isTrue (by rw [h]) else isFalse (by intro e; cases e; exact h rfl)
  | .error a, .error b =>
    if h : a = b then isTrue (by rw [h]) else isFalse (by intro e; cases e; exact h rfl)
  | .ok _, .error _ => isFalse (by intro e; cases e)
  | .error _, .ok _ => isFalse (by intro e; cases e)

/-- Reduction of a natural number to a 32-bit `unsigned`. -/
def wrap (x : Nat) : Nat := x % 4294967296

/-- Subtraction `a - b` of two 32-bit `unsigned` values. -/
def usub (a b : Nat) : Nat := (a + 4294967296 - b) % 4294967296

/-- The values of the C++ type `multiprecision`
(`typedef boost::multiprecision::int256_t multiprecision;`): integers.  The width of the
type is not part of this definition: a function below with this result type and no store
among its arguments computes with exact integers, and its variant `..._with` passes the
result of every multiprecision operation through the store of the type.  `/` and `%`
round toward zero as in C++. -/
abbrev multiprecision : Type := Int

/-- The loop of `compute_gcd`: `z = b % a; if (z == 0) break; b = a; a = z;`.
The first argument bounds the number of iterations. -/
def compute_gcd_loop : Nat → Nat → Nat → Except Failure Nat
  | 0, _, _ => .error .out_of_fuel
  | fuel + 1, a, b =>
    if a = 0 then .error .zero_divisor
    else if b % a = 0 then .ok a
    else compute_gcd_loop fuel (b % a) a

/-- Source function `compute_gcd(a, b)`.  The divisor strictly decreases, so `a + 1`
iterations are enough. -/
def compute_gcd (a b : Nat) : Except Failure Nat := compute_gcd_loop (a + 1) a b

/-- Source function `totient(z)`: `res = 1`, then one more for every `i` in `[2, z)` with
`compute_gcd(i, z) == 1`. -/
def totient (z : Nat) : Except Failure Nat :=
  (List.range' 2 (z - 2)).foldlM
    (fun res i => do
      let g ← compute_gcd i z
      pure (if g = 1 then res + 1 else res)) 1

/-- The loop `for (unsigned i = start; i <= hi; ++i) body`, run on a state.  The counter is
incremented in `unsigned` arithmetic, so after the largest word it is 0 again.  The first
numeric argument bounds the number of evaluations of the loop test. -/
def for_le {σ : Type} (body : Nat → σ → Except Failure σ) (hi : Nat) :
    Nat → Nat → σ → Except Failure σ
  | 0, _, _ => .error .out_of_fuel
  | fuel + 1, i, s =>
    if i ≤ hi then
      match body i s with
      | .ok s' => for_le body hi fuel (wrap (i + 1)) s'
      | .error e => .error e
    else .ok s

/-! ## The multiprecision functions over unbounded integers

The functions `binom` and `compute_mgon` and the loop of `main`, with every multiprecision
result exact.  The same functions over the store of a fixed-width type follow the
specification of the count. -/

/-- The body of the loop of `binom`, on the state `(bn, res)`: `res *= bn--; res /= i;`,
with exact results.  A quotient by `i = 0` is an exception of the multiprecision type. -/
def binom_step (i : Nat) (st : Nat × multiprecision) : Except Failure (Nat × multiprecision) :=
  if i = 0 then .error .zero_divisor
  else .ok (usub st.1 1, Int.tdiv (st.2 * (st.1 : Int)) (i : Int))

/-- Source function `binom(bn, bd)` over unbounded integers: `res = 1`, then the loop for
`i` from 1 to `bd`. -/
def binom (bn bd : Nat) : Except Failure multiprecision :=
  match for_le binom_step bd (bd + 1) 1 (bn, 1) with
  | .ok st => .ok st.2
  | .error e => .error e

/-- The body of the first loop of `compute_mgon`, over the divisors `d` of `gcd`:
`if (gcd % d != 0) continue; num += 2*totient(d)*binom(n / d - 1, m / d - 1);`. -/
def divisor_step (m n gcd d : Nat) (num : multiprecision) : Except Failure multiprecision :=
  if d = 0 then .error .zero_divisor
  else if gcd % d ≠ 0 then .ok num
  else do
    let t ← totient d
    let b ← binom (usub (n / d) 1) (usub (m / d) 1)
    pure (num + ((wrap (2 * t) : Nat) : Int) * b)

/-- First term of `compute_mgon`: the loop for `d` from 1 to `gcd`, started with `num = 0`. -/
def divisor_term (m n gcd : Nat) : Except Failure multiprecision :=
  for_le (divisor_step m n gcd) gcd (gcd + 1) 1 0

/-- The body of the loop of the odd case:
`if ((n+i)&1) continue; msum += binom((n-i)/2-1, m/2-1);`. -/
def odd_step (m n i : Nat) (msum : multiprecision) : Except Failure multiprecision :=
  if wrap (n + i) % 2 = 1 then .ok msum
  else do
    let b ← binom (usub (usub n i / 2) 1) (usub (m / 2) 1)
    pure (msum + b)

/-- The sum `msum` of the odd case of `compute_mgon`: the loop for `i` from 1 to
`(n-1)/2`, started with `msum = 0`. -/
def odd_msum (m n : Nat) : Except Failure multiprecision :=
  for_le (odd_step m n) (usub n 1 / 2) (usub n 1 / 2 + 1) 1 0

/-- The body of the inner loop of the even case:
`unsigned bn = n - i - j; if (bn&1) continue; msum += binom(bn/2-1, m/2-2);`. -/
def even_step (m n i j : Nat) (msum : multiprecision) : Except Failure multiprecision :=
  if usub (usub n i) j % 2 = 1 then .ok msum
  else do
    let b ← binom (usub (usub (usub n i) j / 2) 1) (usub (m / 2) 2)
    pure (msum + b)

/-- The first statement of the even case: `msum = 0`, then
`if ((n&1)==0) msum += binom(n/2-1, m/2-1);`. -/
def even_first (m n : Nat) : Except Failure multiprecision :=
  if n % 2 = 0 then
    (binom (usub (n / 2) 1) (usub (m / 2) 1)).bind (fun b => .ok (0 + b))
  else .ok 0

/-- The sum `msum` of the even case of `compute_mgon`: the term for an even `n`, then the
double loop for `i` and `j` from 1 to `(n-1)/2`. -/
def even_msum (m n : Nat) : Except Failure multiprecision :=
  (even_first m n).bind (fun msum =>
    for_le (fun i msum => for_le (even_step m n i) (usub n 1 / 2) (usub n 1 / 2 + 1) 1 msum)
      (usub n 1 / 2) (usub n 1 / 2 + 1) 1 msum)

/-- The value of `num` in `compute_mgon(m, n)` when the sanity check is reached, over
unbounded integers. -/
def numerator (m n : Nat) : Except Failure multiprecision := do
  let gcd ← compute_gcd m n
  let num ← divisor_term m n gcd
  let b ← binom (n / 2) (usub m 1)
  let num := num - ((wrap (2 * m) : Nat) : Int) * b
  if m % 2 = 1 then do
    let msum ← odd_msum m n
    pure (num + msum * (m : Int) * 2)
  else do
    let msum ← even_msum m n
    pure (num + msum * (m : Int))

/-- Source function `compute_mgon(m, n)` over unbounded integers.  The check `num % denom`
and the quotient `num / denom` are operations of the multiprecision type, which raises an
exception when `denom` is 0. -/
def compute_mgon (m n : Nat) : Except Failure multiprecision := do
  let denom := wrap (4 * m)
  let num ← numerator m n
  if denom = 0 then .error .zero_divisor
  else if Int.tmod num (denom : Int) ≠ 0 then .error .bad_fraction
  else pure (Int.tdiv num (denom : Int))

/-- The inner loop of `main` for the perimeter `i`, over unbounded integers: `sum = 0`,
then `sum += compute_mgon(j, i)` for `j` from 3 to `i`. -/
def main_sum (i : Nat) : Except Failure multiprecision :=
  for_le (fun j sum => do
      let r ← compute_mgon j i
      pure (sum + r)) i (i + 1) 3 0

/-! ## The sums of the formula

The values that the loops of `compute_mgon` accumulate, as sums of binomial
coefficients. -/

/-- The value of `msum` in the odd case. -/
def oddSum (m n : Nat) : Nat :=
  ∑ a in Finset.Icc 1 ((n - 1) / 2),
    if (n - a) % 2 = 0 then Nat.choose ((n - a) / 2 - 1) (m / 2 - 1) else 0

/-- The value of `msum` in the even case. -/
def evenSum (m n : Nat) : Nat :=
  (if n % 2 = 0 then Nat.choose (n / 2 - 1) (m / 2 - 1) else 0)
    + ∑ a in Finset.Icc 1 ((n - 1) / 2), ∑ b in Finset.Icc 1 ((n - 1) / 2),
      if (n - a - b) % 2 = 0 then Nat.choose ((n - a - b) / 2 - 1) (m / 2 - 2) else 0

/-- The value that the loop over the divisors `d` of `g` adds to `num`. -/
def divisorSum (m n g : Nat) : Int :=
  ∑ d in Finset.Icc 1 g, if g % d ≠ 0 then (0 : Int) else
    ((wrap (2 * Nat.totient d) : Nat) : Int)
      * ((Nat.choose (n / d - 1) (m / d - 1) : Nat) : Int)

/-! ## The specification of the count

An `m`-gon with perimeter `n` is an `m`-tuple of positive integers with sum `n` in which
every entry is smaller than the sum of the others; two tuples are the same polygon when
they differ by a cyclic rotation and possibly a reversal. -/

/-- The `m`-tuples of positive integers that sum to `n` and in which every entry is
strictly less than the sum of the other entries. -/
def polygons (m n : Nat) : Finset (Fin m → Nat) :=
  (Fintype.piFinset (fun _ : Fin m => Finset.Icc 1 n)).filter
    (fun t => ∑ i, t i = n ∧ ∀ i, t i < ∑ j in Finset.univ.erase i, t j)

/-- Cyclic rotation of a tuple by `k` places. -/
def rotate {m : Nat} (k : Nat) (t : Fin m → Nat) : Fin m → Nat :=
  fun i => t ⟨(i.val + k) % m, Nat.mod_lt _ (Fin.pos i)⟩

/-- Reversal of a tuple. -/
def reverse {m : Nat} (t : Fin m → Nat) : Fin m → Nat :=
  fun i => t (Fin.rev i)

/-- Two tuples describe the same polygon when one is a rotation of the other or a rotation
of its reversal. -/
def same_polygon {m : Nat} (t t' : Fin m → Nat) : Prop :=
  ∃ k ∈ Finset.range m, t' = rotate k t ∨ t' = rotate k (reverse t)

instance instDecidableSamePolygon {m : Nat} (t t' : Fin m → Nat) :
    Decidable (same_polygon t t') := by
  unfold same_polygon
  infer_instance

/-- The number of classes of `polygons m n` under `same_polygon`: each class is represented
by the set of its members. -/
def polygon_count (m n : Nat) : Nat :=
  ((polygons m n).image (fun t => (polygons m n).filter (fun t' => same_polygon t t'))).card

/-! ## Auxiliary notions for the orbit count -/

/-- The functions `ι → ℕ` with positive values and sum `s` (compositions of `s`). -/
def comps (ι : Type) [Fintype ι] [DecidableEq ι] (s : Nat) : Finset (ι → Nat) :=
  (Fintype.piFinset (fun _ : ι => Finset.Icc 1 s)).filter (fun v => ∑ i, v i = s)

/-- The positive functions on `J` with weighted sum `s` and all values below `n / 2`. -/
def weighted (J : Type) [Fintype J] [DecidableEq J] (w : J → Nat) (s n : Nat) :
    Finset (J → Nat) :=
  (Fintype.piFinset (fun _ : J => Finset.Icc 1 n)).filter
    (fun g => ∑ j, w j * g j = s ∧ ∀ j, 2 * g j < n)

/-- The permutation of the positions `0, ..., M` performed by a symmetry of the
`(M + 1)`-gon: a rotation shifts the positions, a reflection reverses them. -/
def dperm (M : Nat) : DihedralGroup (M + 1) → Equiv.Perm (Fin (M + 1))
  | DihedralGroup.r k => Equiv.addRight (k : Fin (M + 1))
  | DihedralGroup.sr k => Equiv.subLeft (k : Fin (M + 1))

/-- The symmetries of the `(M + 1)`-gon act on the tuples of `polygons (M + 1) n` by
permuting the positions. -/
instance polygonAction (M n : Nat) :
    MulAction (DihedralGroup (M + 1)) {t : Fin (M + 1) → Nat // t ∈ polygons (M + 1) n} where
  smul g t := ⟨t.1 ∘ dperm M g, by
    have ht := t.2
    unfold polygons at ht ⊢
    rw [Finset.mem_filter, Fintype.mem_piFinset] at ht ⊢
    have hsum : ∑ i, (t.1 ∘ dperm M g) i = ∑ i, t.1 i := Equiv.sum_comp (dperm M g) t.1
    have herase : ∀ (u : Fin (M + 1) → Nat) (i : Fin (M + 1)),
        ∑ j in Finset.univ.erase i, u j + u i = ∑ j, u j := fun u i =>
      Finset.sum_erase_add Finset.univ u (Finset.mem_univ i)
    refine ⟨fun i => ht.1 _, hsum.trans ht.2.1, fun i => ?_⟩
    have h1 := ht.2.2 (dperm M g i)
    have h2 := herase t.1 (dperm M g i)
    have h3 := herase (t.1 ∘ dperm M g) i
    have h4 : (t.1 ∘ dperm M g) i = t.1 (dperm M g i) := rfl
    omega⟩
  one_smul t := by
    apply Subtype.ext
    funext i
    show t.1 (i + (0 : Fin (M + 1))) = t.1 i
    rw [add_zero]
  mul_smul g h t := by
    apply Subtype.ext
    funext i
    show t.1 (dperm M (g * h) i) = t.1 (dperm M h (dperm M g i))
    refine congrArg t.1 ?_
    cases g with
    | r j =>
      cases h with
      | r k =>
        let j' : Fin (M + 1) := j
        let k' : Fin (M + 1) := k
        show i + (j' + k') = (i + j') + k'
        abel
      | sr k =>
        let j' : Fin (M + 1) := j
        let k' : Fin (M + 1) := k
        show (k' - j') - i = k' - (i + j')
        abel
    | sr j =>
      cases h with
      | r k =>
        let j' : Fin (M + 1) := j
        let k' : Fin (M + 1) := k
        show (j' + k') - i = (j' - i) + k'
        abel
      | sr k =>
        let j' : Fin (M + 1) := j
        let k' : Fin (M + 1) := k
        show i + (k' - j') = k' - (j' - i)
        abel

/-- Reduction of a position modulo a period `e`. -/
def modPos (M e : Nat) (he : 0 < e) : Fin (M + 1) → Fin e :=
  fun i => ⟨i.val % e, Nat.mod_lt _ he⟩

/-- The number of tuples fixed by a rotation whose period is `e`. -/
def periodCount (m n e : Nat) : Nat :=
  if e = m then (polygons m n).card
  else if (m / e) ∣ n then Nat.choose (n / (m / e) - 1) (e - 1) else 0

/-- The representative `min i (σ i)` of the orbit of `i` under an involution `σ`. -/
def orbitRep {m : Nat} (σ : Fin m → Fin m) (hσ : ∀ i, σ (σ i) = i) :
    Fin m → {i : Fin m // i ≤ σ i} :=
  fun i => ⟨min i (σ i), by
    rcases le_total i (σ i) with h | h
    · rw [min_eq_left h]; exact h
    · rw [min_eq_right h, hσ]; exact h⟩

/-- The size of the orbit of a representative: 1 for a fixed point, 2 otherwise. -/
def orbitWeight {m : Nat} (σ : Fin m → Fin m) : {i : Fin m // i ≤ σ i} → Nat :=
  fun j => if σ j.1 = j.1 then 1 else 2

/-! ## Triangles -/

/-- The integer-sided triangles of perimeter `n`: the triples `a ≤ b ≤ c` of positive
integers with `a + b + c = n` and `a + b > c`. -/
def triangles (n : Nat) : Finset (Nat × Nat × Nat) :=
  ((Finset.Icc 1 n) ×ˢ (Finset.Icc 1 n) ×ˢ (Finset.Icc 1 n)).filter
    (fun p => p.1 ≤ p.2.1 ∧ p.2.1 ≤ p.2.2 ∧ p.1 + p.2.1 + p.2.2 = n ∧ p.1 + p.2.1 > p.2.2)

/-! ## The program over a fixed-width multiprecision type

The functions that compute with `multiprecision`, once more, with the result of every
multiprecision operation (product, quotient, remainder, sum, difference) passed through a
parameter `op`: what the type holds after the operation.  With `op = store256` these are
the source's functions; with `op = Except.ok` they are the functions over unbounded
integers above (`compute_mgon_with_ok`).  The `unsigned` arithmetic and the control flow
are unchanged. -/

/-- The store of a type that raises `overflow` for a result of absolute value `2 ^ bits`
or more. -/
def checked (bits : Nat) (x : Int) : Except Failure Int :=
  if x.natAbs < 2 ^ bits then .ok x else .error .overflow

/-- Modelled from the spec: the store of `boost::multiprecision::int256_t`, the type behind
`multiprecision`, whose implementation is not part of the sources (section 9 of the spec:
a wide fixed-width integer type, 256 bits): a sign and a magnitude of 256 bits, with
unchecked arithmetic.  A result keeps its sign and the low 256 bits of its magnitude. -/
def store256 (x : Int) : Except Failure Int :=
  .ok (if x < 0 then -((x.natAbs % 2 ^ 256 : Nat) : Int) else ((x.natAbs % 2 ^ 256 : Nat) : Int))

/-- The body of the loop of `binom`: `res *= bn--; res /= i;`, storing the product and
the quotient with `op`. -/
def binom_step_with (op : Int → Except Failure Int) (i : Nat) (st : Nat × multiprecision) :
    Except Failure (Nat × multiprecision) :=
  if i = 0 then .error .zero_divisor
  else do
    let p ← op (st.2 * (st.1 : Int))
    let q ← op (Int.tdiv p (i : Int))
    pure (usub st.1 1, q)

/-- Source function `binom(bn, bd)` over the store `op`. -/
def binom_with (op : Int → Except Failure Int) (bn bd : Nat) :
    Except Failure multiprecision :=
  match for_le (binom_step_with op) bd (bd + 1) 1 (bn, 1) with
  | .ok st => .ok st.2
  | .error e => .error e

/-- The body of the first loop of `compute_mgon` over the store `op`:
`num += 2*totient(d)*binom(n / d - 1, m / d - 1);` stores a product and a sum. -/
def divisor_step_with (op : Int → Except Failure Int) (m n gcd d : Nat)
    (num : multiprecision) : Except Failure multiprecision :=
  if d = 0 then .error .zero_divisor
  else if gcd % d ≠ 0 then .ok num
  else do
    let t ← totient d
    let b ← binom_with op (usub (n / d) 1) (usub (m / d) 1)
    let p ← op (((wrap (2 * t) : Nat) : Int) * b)
    op (num + p)

/-- First term of `compute_mgon` over the store `op`. -/
def divisor_term_with (op : Int → Except Failure Int) (m n gcd : Nat) :
    Except Failure multiprecision :=
  for_le (divisor_step_with op m n gcd) gcd (gcd + 1) 1 0

/-- The body of the loop of the odd case over the store `op`. -/
def odd_step_with (op : Int → Except Failure Int) (m n i : Nat) (msum : multiprecision) :
    Except Failure multiprecision :=
  if wrap (n + i) % 2 = 1 then .ok msum
  else do
    let b ← binom_with op (usub (usub n i / 2) 1) (usub (m / 2) 1)
    op (msum + b)

/-- The sum `msum` of the odd case over the store `op`. -/
def odd_msum_with (op : Int → Except Failure Int) (m n : Nat) :
    Except Failure multiprecision :=
  for_le (odd_step_with op m n) (usub n 1 / 2) (usub n 1 / 2 + 1) 1 0

/-- The body of the inner loop of the even case over the store `op`. -/
def even_step_with (op : Int → Except Failure Int) (m n i j : Nat) (msum : multiprecision) :
    Except Failure multiprecision :=
  if usub (usub n i) j % 2 = 1 then .ok msum
  else do
    let b ← binom_with op (usub (usub (usub n i) j / 2) 1) (usub (m / 2) 2)
    op (msum + b)

/-- The first statement of the even case over the store `op`. -/
def even_first_with (op : Int → Except Failure Int) (m n : Nat) :
    Except Failure multiprecision :=
  if n % 2 = 0 then
    (binom_with op (usub (n / 2) 1) (usub (m / 2) 1)).bind (fun b => op (0 + b))
  else .ok 0

/-- The sum `msum` of the even case over the store `op`. -/
def even_msum_with (op : Int → Except Failure Int) (m n : Nat) :
    Except Failure multiprecision :=
  (even_first_with op m n).bind (fun msum =>
    for_le (fun i msum =>
        for_le (even_step_with op m n i) (usub n 1 / 2) (usub n 1 / 2 + 1) 1 msum)
      (usub n 1 / 2) (usub n 1 / 2 + 1) 1 msum)

/-- The value of `num` when the sanity check is reached, over the store `op`:
`num -= 2*m*binom(n/2, m-1)` stores a product and a difference, `num += msum * m * 2` two
products and a sum, `num += msum * m` a product and a sum. -/
def numerator_with (op : Int → Except Failure Int) (m n : Nat) :
    Except Failure multiprecision := do
  let gcd ← compute_gcd m n
  let num ← divisor_term_with op m n gcd
  let b ← binom_with op (n / 2) (usub m 1)
  let p ← op (((wrap (2 * m) : Nat) : Int) * b)
  let num ← op (num - p)
  if m % 2 = 1 then do
    let msum ← odd_msum_with op m n
    let p1 ← op (msum * (m : Int))
    let p2 ← op (p1 * 2)
    op (num + p2)
  else do
    let msum ← even_msum_with op m n
    let p1 ← op (msum * (m : Int))
    op (num + p1)

/-- The sanity check and the result of `compute_mgon` over the store `op`: the remainder
`num % denom` and the quotient `num / denom` are stored. -/
def sanity_check_with (op : Int → Except Failure Int) (denom : Nat) (num : multiprecision) :
    Except Failure multiprecision :=
  if denom = 0 then .error .zero_divisor
  else (op (Int.tmod num (denom : Int))).bind (fun r =>
    if r ≠ 0 then .error .bad_fraction else op (Int.tdiv num (denom : Int)))

/-- Source function `compute_mgon(m, n)` over the store `op`. -/
def compute_mgon_with (op : Int → Except Failure Int) (m n : Nat) :
    Except Failure multiprecision :=
  (numerator_with op m n).bind (sanity_check_with op (wrap (4 * m)))

/-! ## The primitives -/

theorem compute_gcd_loop_eq (fuel : Nat) : ∀ a b : Nat, 0 < a → a ≤ fuel →
    compute_gcd_loop fuel a b = .ok (Nat.gcd a b) := by
  induction fuel with
  | zero => intro a b ha hf; omega
  | succ fuel ih =>
    intro a b ha hf
    have h0 : a ≠ 0 := by omega
    by_cases hz : b % a = 0
    · have hdvd : a ∣ b := Nat.dvd_of_mod_eq_zero hz
      simp [compute_gcd_loop, h0, hz, Nat.gcd_eq_left hdvd]
    · have hlt : b % a < a := Nat.mod_lt b ha
      have hrec := ih (b % a) a (Nat.pos_of_ne_zero hz) (by omega)
      simp only [compute_gcd_loop, h0, hz, if_false, hrec]
      rw [Nat.gcd_rec a b]

theorem compute_gcd_eq (a b : Nat) (ha : 0 < a) : compute_gcd a b = .ok (Nat.gcd a b) :=
  compute_gcd_loop_eq (a + 1) a b ha (Nat.le_succ a)

theorem totient_fold (z : Nat) : ∀ (l : List Nat) (init : Nat), (∀ i ∈ l, 0 < i) →
    l.foldlM (fun res i => do
      let g ← compute_gcd i z
      pure (if g = 1 then res + 1 else res)) init
      = (.ok (init + l.countP (fun i => Nat.gcd i z = 1)) : Except Failure Nat) := by
  intro l
  induction l with
  | nil => intro init _; simp [pure, Except.pure]
  | cons x xs ih =>
    intro init hpos
    have hx : 0 < x := hpos x (List.mem_cons_self _ _)
    have hxs : ∀ i ∈ xs, 0 < i := fun i hi => hpos i (List.mem_cons_of_mem _ hi)
    rw [List.foldlM_cons, compute_gcd_eq x z hx]
    change List.foldlM _ (if Nat.gcd x z = 1 then init + 1 else init) xs = _
    rw [ih _ hxs]
    by_cases hg : Nat.gcd x z = 1
    · simp [hg, List.countP_cons]; omega
    · simp [hg, List.countP_cons]

theorem totient_eq_count (z : Nat) :
    totient z = .ok (((Finset.Ico 2 z).filter (fun i => Nat.gcd i z = 1)).card + 1) := by
  unfold totient
  rw [totient_fold z _ 1 (by intro i hi; rw [List.mem_range'_1] at hi; omega)]
  congr 1
  rw [Nat.add_comm]
  congr 1
  rw [List.countP_eq_length_filter, ← List.toFinset_card_of_nodup]
  · congr 1
    ext i
    simp [List.mem_range'_1]
    omega
  · exact (List.nodup_range' 2 (z - 2)).filter _

theorem coprime_count_shift (z : Nat) (hz : 2 ≤ z) :
    ((Finset.Ico 1 z).filter (fun i => Nat.gcd i z = 1)).card
      = ((Finset.Ico 2 z).filter (fun i => Nat.gcd i z = 1)).card + 1 := by
  have hsplit : (Finset.Ico 1 z).filter (fun i => Nat.gcd i z = 1)
      = insert 1 ((Finset.Ico 2 z).filter (fun i => Nat.gcd i z = 1)) := by
    ext i
    simp only [Finset.mem_filter, Finset.mem_Ico, Finset.mem_insert]
    constructor
    · rintro ⟨⟨h1, h2⟩, h3⟩
      by_cases hi : i = 1
      · exact Or.inl hi
      · exact Or.inr ⟨⟨by omega, h2⟩, h3⟩
    · rintro (rfl | ⟨⟨h1, h2⟩, h3⟩)
      · exact ⟨⟨le_refl _, by omega⟩, Nat.gcd_one_left z⟩
      · exact ⟨⟨by omega, h2⟩, h3⟩
  rw [hsplit, Finset.card_insert_of_not_mem]
  simp

theorem coprime_count_totient (z : Nat) (hz : 2 ≤ z) :
    ((Finset.Ico 1 z).filter (fun i => Nat.gcd i z = 1)).card = Nat.totient z := by
  rw [Nat.totient_eq_card_coprime]
  apply congrArg
  ext i
  simp only [Finset.mem_filter, Finset.mem_Ico, Finset.mem_range]
  constructor
  · rintro ⟨⟨_, h2⟩, h3⟩
    exact ⟨h2, (Nat.coprime_comm).1 h3⟩
  · rintro ⟨h2, h3⟩
    refine ⟨⟨?_, h2⟩, (Nat.coprime_comm).1 h3⟩
    rcases Nat.eq_zero_or_pos i with h0 | h0
    · subst h0
      have : z = 1 := by simpa [Nat.Coprime] using h3
      omega
    · exact h0

theorem totient_eq (z : Nat) (hz : 1 ≤ z) : totient z = .ok (Nat.totient z) := by
  rw [totient_eq_count]
  rcases Nat.lt_or_ge z 2 with h | h
  · have h1 : z = 1 := by omega
    subst h1
    simp
  · rw [← coprime_count_shift z h, coprime_count_totient z h]

theorem usub_one (b : Nat) (h0 : 0 < b) (hb : b < 4294967296) : usub b 1 = b - 1 := by
  unfold usub
  omega

theorem usub_of_le (a b : Nat) (hab : b ≤ a) (ha : a < 4294967296) : usub a b = a - b := by
  unfold usub
  omega

theorem usub_lt (a b : Nat) : usub a b < 4294967296 := Nat.mod_lt _ (by decide)

theorem wrap_lt (a : Nat) : wrap a < 4294967296 := Nat.mod_lt _ (by decide)

theorem wrap_le (a : Nat) : wrap a ≤ a := Nat.mod_le _ _

theorem wrap_of_lt (a : Nat) (h : a < 4294967296) : wrap a = a := Nat.mod_eq_of_lt h

theorem wrap_mod_two (x : Nat) : wrap x % 2 = x % 2 := by
  unfold wrap
  omega

/-! ## Loops -/

theorem for_le_eq_foldlM {σ : Type} (body : Nat → σ → Except Failure σ) (hi : Nat)
    (hhi : hi < 4294967295) : ∀ (k i : Nat) (s : σ), i + k = hi + 1 → ∀ fuel, k < fuel →
    for_le body hi fuel i s = (List.range' i k).foldlM (fun s i => body i s) s := by
  intro k
  induction k with
  | zero =>
    intro i s hik fuel hfuel
    obtain ⟨f, rfl⟩ : ∃ f, fuel = f + 1 := ⟨fuel - 1, by omega⟩
    have hnot : ¬ i ≤ hi := by omega
    simp only [for_le, if_neg hnot]
    rfl
  | succ k ih =>
    intro i s hik fuel hfuel
    obtain ⟨f, rfl⟩ : ∃ f, fuel = f + 1 := ⟨fuel - 1, by omega⟩
    have hle : i ≤ hi := by omega
    have hw : wrap (i + 1) = i + 1 := wrap_of_lt _ (by omega)
    rw [List.range'_succ, List.foldlM_cons]
    simp only [for_le, if_pos hle, hw]
    cases hb : body i s with
    | error e => rfl
    | ok s' => exact ih (i + 1) s' (by omega) f (by omega)

theorem for_le_top_not_ok {σ : Type} (body : Nat → σ → Except Failure σ) (hi : Nat)
    (hhi : 4294967295 ≤ hi) : ∀ (fuel i : Nat) (s r : σ), i < 4294967296 →
      for_le body hi fuel i s ≠ .ok r := by
  intro fuel
  induction fuel with
  | zero =>
    intro i s r _ h
    simp [for_le] at h
  | succ f ih =>
    intro i s r hi' h
    have hle : i ≤ hi := by omega
    simp only [for_le, if_pos hle] at h
    cases hb : body i s with
    | error e => rw [hb] at h; cases h
    | ok s' =>
      rw [hb] at h
      exact ih (wrap (i + 1)) s' r (wrap_lt _) h

theorem foldlM_add (body : Nat → Int → Except Failure Int) (g : Nat → Int) :
    ∀ (l : List Nat) (init : Int), (∀ i ∈ l, ∀ s, body i s = .ok (s + g i)) →
      l.foldlM (fun s i => body i s) init = .ok (init + (l.map g).sum) := by
  intro l
  induction l with
  | nil => intro init _; simp [pure, Except.pure]
  | cons x xs ih =>
    intro init h
    rw [List.foldlM_cons, h x (List.mem_cons_self _ _) init]
    change List.foldlM _ (init + g x) xs = _
    rw [ih _ (fun i hi s => h i (List.mem_cons_of_mem _ hi) s), List.map_cons, List.sum_cons,
      add_assoc]

theorem sum_map_range' (g : Nat → Int) (s k : Nat) :
    ((List.range' s k).map g).sum = ∑ i in Finset.range k, g (s + i) := by
  induction k with
  | zero => simp
  | succ k ih =>
    rw [List.range'_1_concat, List.map_append, List.sum_append, ih, Finset.sum_range_succ]
    simp

theorem sum_map_range'_Icc (g : Nat → Int) (k : Nat) :
    ((List.range' 1 k).map g).sum = ∑ i in Finset.Icc 1 k, g i := by
  rw [sum_map_range', ← Nat.Ico_succ_right, Finset.sum_Ico_eq_sum_range]
  simp

theorem for_le_add (body : Nat → Int → Except Failure Int) (g : Nat → Int) (hi : Nat)
    (hhi : hi < 4294967295) (h : ∀ i, 1 ≤ i → i ≤ hi → ∀ s, body i s = .ok (s + g i))
    (init : Int) :
    for_le body hi (hi + 1) 1 init = .ok (init + ∑ i in Finset.Icc 1 hi, g i) := by
  rw [for_le_eq_foldlM body hi hhi hi 1 init (by omega) (hi + 1) (by omega),
    foldlM_add body g _ init, sum_map_range'_Icc]
  intro i hi' s
  rw [List.mem_range'_1] at hi'
  exact h i hi'.1 (by omega) s

/-! ## The binomial coefficient -/

theorem tdiv_natCast (a b : Nat) : Int.tdiv (a : Int) (b : Int) = ((a / b : Nat) : Int) := by
  rw [Int.tdiv_eq_ediv (Int.natCast_nonneg a) (Int.natCast_nonneg b)]
  exact (Int.natCast_div a b).symm

theorem binom_fold_choose (N : Nat) (hN : N < 4294967296) : ∀ (k j bn : Nat),
    (j ≤ N → bn = N - j) →
    ∃ b, (List.range' (j + 1) k).foldlM (fun st i => binom_step i st)
        (bn, ((Nat.choose N j : Nat) : Int))
      = .ok (b, ((Nat.choose N (j + k) : Nat) : Int)) := by
  intro k
  induction k with
  | zero => intro j bn _; exact ⟨bn, rfl⟩
  | succ k ih =>
    intro j bn hbn
    have hstep : Int.tdiv (((Nat.choose N j : Nat) : Int) * (bn : Int)) ((j + 1 : Nat) : Int)
        = ((Nat.choose N (j + 1) : Nat) : Int) := by
      rw [← Nat.cast_mul, tdiv_natCast]
      congr 1
      rcases Nat.lt_or_ge N j with hlt | hle
      · rw [Nat.choose_eq_zero_of_lt hlt, Nat.choose_eq_zero_of_lt (by omega : N < j + 1)]
        simp
      · rw [hbn hle, ← Nat.choose_succ_right_eq]
        exact Nat.mul_div_cancel _ (Nat.succ_pos j)
    have hnext : j + 1 ≤ N → usub bn 1 = N - (j + 1) := by
      intro h
      rw [hbn (by omega), usub_one _ (by omega) (by omega)]
      omega
    obtain ⟨b, hb⟩ := ih (j + 1) (usub bn 1) hnext
    refine ⟨b, ?_⟩
    rw [List.range'_succ, List.foldlM_cons]
    have hbody : binom_step (j + 1) (bn, ((Nat.choose N j : Nat) : Int))
        = .ok (usub bn 1, ((Nat.choose N (j + 1) : Nat) : Int)) := by
      unfold binom_step
      rw [if_neg (Nat.succ_ne_zero j)]
      exact congrArg (fun z => Except.ok (usub bn 1, z)) hstep
    rw [hbody]
    change List.foldlM _ (usub bn 1, ((Nat.choose N (j + 1) : Nat) : Int)) _ = _
    rw [hb, show j + 1 + k = j + (k + 1) by omega]

theorem binom_eq_choose (bn bd : Nat) (hbn : bn < 4294967296) (hbd : bd < 4294967295) :
    binom bn bd = .ok ((Nat.choose bn bd : Nat) : Int) := by
  obtain ⟨b, hb⟩ := binom_fold_choose bn hbn bd 0 bn (fun _ => rfl)
  unfold binom
  rw [for_le_eq_foldlM binom_step bd hbd bd 1 _ (by omega) (bd + 1) (by omega)]
  simp only [Nat.choose_zero_right, Nat.cast_one, Nat.zero_add] at hb
  rw [hb]

/-! ## Claims about `compute_gcd` and `totient` -/

/-- C7: for positive `a` and `b`, in either order, `compute_gcd a b` returns a value that
divides both `a` and `b` and that every common divisor of `a` and `b` divides. -/
theorem compute_gcd_greatest_common_divisor (a b : Nat) (ha : 0 < a) (hb : 0 < b) :
    ∃ g, compute_gcd a b = .ok g ∧ g ∣ a ∧ g ∣ b ∧ ∀ c, c ∣ a → c ∣ b → c ∣ g :=
  ⟨Nat.gcd a b, compute_gcd_eq a b ha, Nat.gcd_dvd_left a b, Nat.gcd_dvd_right a b,
    fun _ hca hcb => Nat.dvd_gcd hca hcb⟩

theorem compute_gcd_greatest_common_divisor_witness :
    0 < 18 ∧ 0 < 12 ∧
      ∃ g, compute_gcd 18 12 = .ok g ∧ g ∣ 18 ∧ g ∣ 12 ∧ ∀ c, c ∣ 18 → c ∣ 12 → c ∣ g :=
  ⟨by decide, by decide, compute_gcd_greatest_common_divisor 18 12 (by decide) (by decide)⟩

/-- C8: for positive `a` and `b`, `compute_gcd a b = compute_gcd b a`, and
`compute_gcd a a` returns `a`. -/
theorem compute_gcd_comm_and_self (a b : Nat) (ha : 0 < a) (hb : 0 < b) :
    compute_gcd a b = compute_gcd b a ∧ compute_gcd a a = .ok a := by
  refine ⟨?_, ?_⟩
  · rw [compute_gcd_eq a b ha, compute_gcd_eq b a hb, Nat.gcd_comm]
  · rw [compute_gcd_eq a a ha, Nat.gcd_self]

theorem compute_gcd_comm_and_self_witness :
    0 < 35 ∧ 0 < 21 ∧ compute_gcd 35 21 = compute_gcd 21 35 ∧ compute_gcd 35 35 = .ok 35 :=
  ⟨by decide, by decide, compute_gcd_comm_and_self 35 21 (by decide) (by decide)⟩

/-- C9, as stated, fails at `z = 2`: the only integer in `[1, 2)` is 1, it is coprime to 2,
so the claim's value is `1 + 1 = 2`, while `totient 2` returns 1. -/
theorem totient_two_is_not_count_plus_one :
    totient 2 ≠ .ok (((Finset.Ico 1 2).filter (fun k => Nat.Coprime k 2)).card + 1) := by
  decide

/-- C9, amended: for every `z`, `totient z` returns the count of integers in `[2, z)` that
are coprime to `z`, plus 1. -/
theorem totient_counts_from_two (z : Nat) :
    totient z = .ok (((Finset.Ico 2 z).filter (fun k => Nat.Coprime k z)).card + 1) :=
  totient_eq_count z

/-- C10: `totient` is Euler's function: for `z ≥ 1` it returns `Nat.totient z`; for `z ≥ 2`
that is the number of `k` with `1 ≤ k < z` coprime to `z`; and `totient 1` returns 1. -/
theorem totient_is_euler_phi (z : Nat) (hz : 1 ≤ z) :
    totient z = .ok (Nat.totient z) ∧
      (2 ≤ z → totient z = .ok ((Finset.Ico 1 z).filter (fun k => Nat.Coprime k z)).card) ∧
      totient 1 = .ok 1 := by
  refine ⟨totient_eq z hz, ?_, by decide⟩
  intro h2
  rw [totient_eq z hz]
  exact congrArg _ (coprime_count_totient z h2).symm

theorem totient_is_euler_phi_witness :
    1 ≤ 10 ∧ totient 10 = .ok (Nat.totient 10) ∧
      (2 ≤ 10 → totient 10 = .ok ((Finset.Ico 1 10).filter (fun k => Nat.Coprime k 10)).card) ∧
      totient 1 = .ok 1 :=
  ⟨by decide, totient_is_euler_phi 10 (by decide)⟩

/-! ## The numerator as a sum -/

theorem divisor_step_eq (m n d : Nat) (hm : 1 ≤ m) (hmn : m ≤ n) (hn : n < 4294967296)
    (hmax : m < 4294967295) (hd : 1 ≤ d) (num : Int) :
    divisor_step m n (Nat.gcd m n) d num
      = .ok (num + if Nat.gcd m n % d ≠ 0 then (0 : Int) else
          ((wrap (2 * Nat.totient d) : Nat) : Int)
            * ((Nat.choose (n / d - 1) (m / d - 1) : Nat) : Int)) := by
  unfold divisor_step
  rw [if_neg (by omega : ¬ d = 0)]
  by_cases hdvd : Nat.gcd m n % d ≠ 0
  · rw [if_pos hdvd, if_pos hdvd, add_zero]
  · have h0 : Nat.gcd m n % d = 0 := not_not.mp hdvd
    have hdg : d ∣ Nat.gcd m n := Nat.dvd_of_mod_eq_zero h0
    have hdm : d ∣ m := dvd_trans hdg (Nat.gcd_dvd_left m n)
    have hdle : d ≤ m := Nat.le_of_dvd (by omega) hdm
    have hmd : 0 < m / d := Nat.div_pos hdle (by omega)
    have hnd : 0 < n / d := Nat.div_pos (by omega) (by omega)
    have hmd' : m / d ≤ m := Nat.div_le_self m d
    have hnd' : n / d ≤ n := Nat.div_le_self n d
    rw [if_neg hdvd, if_neg hdvd, totient_eq d hd, usub_one _ hnd (by omega),
      usub_one _ hmd (by omega), binom_eq_choose _ _ (by omega) (by omega)]
    rfl

theorem divisor_term_eq (m n : Nat) (hm : 1 ≤ m) (hmn : m ≤ n) (hn : n < 4294967296)
    (hmax : m < 4294967295) :
    divisor_term m n (Nat.gcd m n) = .ok (divisorSum m n (Nat.gcd m n)) := by
  have hg : Nat.gcd m n ≤ m := Nat.le_of_dvd (by omega) (Nat.gcd_dvd_left m n)
  unfold divisor_term divisorSum
  rw [for_le_add (divisor_step m n (Nat.gcd m n)) _ (Nat.gcd m n) (by omega)
    (fun d hd _ s => divisor_step_eq m n d hm hmn hn hmax hd s), zero_add]

theorem odd_step_eq (m n i : Nat) (hm : 3 ≤ m) (hmn : m ≤ n) (hn : n < 4294967296)
    (h1 : 1 ≤ i) (h2 : i ≤ (n - 1) / 2) (msum : Int) :
    odd_step m n i msum
      = .ok (msum + (((if (n - i) % 2 = 0 then Nat.choose ((n - i) / 2 - 1) (m / 2 - 1) else 0
          : Nat) : Nat) : Int)) := by
  unfold odd_step
  rw [wrap_mod_two]
  by_cases hpar : (n + i) % 2 = 1
  · rw [if_pos hpar, if_neg (by omega)]
    simp
  · have e1 : usub (usub n i / 2) 1 = (n - i) / 2 - 1 := by
      unfold usub
      omega
    have e2 : usub (m / 2) 1 = m / 2 - 1 := by
      unfold usub
      omega
    rw [if_neg hpar, if_pos (by omega), e1, e2, binom_eq_choose _ _ (by omega) (by omega)]
    rfl

theorem odd_msum_eq (m n : Nat) (hm : 3 ≤ m) (hmn : m ≤ n) (hn : n < 4294967296) :
    odd_msum m n = .ok ((oddSum m n : Nat) : Int) := by
  unfold odd_msum oddSum
  rw [usub_one n (by omega) hn,
    for_le_add (odd_step m n) _ ((n - 1) / 2) (by omega)
      (fun i h1 h2 s => odd_step_eq m n i hm hmn hn h1 h2 s), zero_add, Nat.cast_sum]

theorem even_step_eq (m n i j : Nat) (hm : 4 ≤ m) (hmn : m ≤ n) (hn : n < 4294967296)
    (hi1 : 1 ≤ i) (hi2 : i ≤ (n - 1) / 2) (hj1 : 1 ≤ j) (hj2 : j ≤ (n - 1) / 2) (msum : Int) :
    even_step m n i j msum
      = .ok (msum + (((if (n - i - j) % 2 = 0 then
          Nat.choose ((n - i - j) / 2 - 1) (m / 2 - 2) else 0 : Nat) : Nat) : Int)) := by
  unfold even_step
  have hbn : usub (usub n i) j = n - i - j := by
    unfold usub
    omega
  rw [hbn]
  by_cases hpar : (n - i - j) % 2 = 1
  · rw [if_pos hpar, if_neg (by omega)]
    simp
  · have e1 : usub ((n - i - j) / 2) 1 = (n - i - j) / 2 - 1 := by
      unfold usub
      omega
    have e2 : usub (m / 2) 2 = m / 2 - 2 := by
      unfold usub
      omega
    rw [if_neg hpar, if_pos (by omega), e1, e2, binom_eq_choose _ _ (by omega) (by omega)]
    rfl

theorem even_first_eq (m n : Nat) (hm : 4 ≤ m) (hmn : m ≤ n) (hn : n < 4294967296) :
    even_first m n
      = .ok (((if n % 2 = 0 then Nat.choose (n / 2 - 1) (m / 2 - 1) else 0 : Nat) : Nat) : Int) := by
  unfold even_first
  have e1 : usub (n / 2) 1 = n / 2 - 1 := by
    unfold usub
    omega
  have e2 : usub (m / 2) 1 = m / 2 - 1 := by
    unfold usub
    omega
  by_cases hpar : n % 2 = 0
  · rw [if_pos hpar, if_pos hpar, e1, e2, binom_eq_choose _ _ (by omega) (by omega)]
    show Except.ok (0 + _) = _
    rw [zero_add]
  · rw [if_neg hpar, if_neg hpar]
    rfl

theorem even_msum_eq (m n : Nat) (hm : 4 ≤ m) (hmn : m ≤ n) (hn : n < 4294967296) :
    even_msum m n = .ok ((evenSum m n : Nat) : Int) := by
  have hinner : ∀ i, 1 ≤ i → i ≤ (n - 1) / 2 → ∀ s : Int,
      for_le (even_step m n i) ((n - 1) / 2) ((n - 1) / 2 + 1) 1 s
        = .ok (s + ((∑ b in Finset.Icc 1 ((n - 1) / 2),
            if (n - i - b) % 2 = 0 then Nat.choose ((n - i - b) / 2 - 1) (m / 2 - 2) else 0
            : Nat) : Int)) := by
    intro i hi1 hi2 s
    rw [for_le_add (even_step m n i) _ ((n - 1) / 2) (by omega)
      (fun j hj1 hj2 s => even_step_eq m n i j hm hmn hn hi1 hi2 hj1 hj2 s), Nat.cast_sum]
  have houter := for_le_add _ _ ((n - 1) / 2) (by omega) hinner
    (((if n % 2 = 0 then Nat.choose (n / 2 - 1) (m / 2 - 1) else 0 : Nat) : Nat) : Int)
  unfold even_msum evenSum
  rw [even_first_eq m n hm hmn hn, usub_one n (by omega) hn]
  refine Eq.trans houter ?_
  rw [Nat.cast_add, Nat.cast_sum]

theorem ok_bind {α β : Type} (a : α) (f : α → Except Failure β) :
    (Except.ok a >>= f) = f a := rfl

theorem numerator_eq (m n : Nat) (hm : 3 ≤ m) (hmn : m ≤ n) (hn : n < 4294967296)
    (hmax : m < 4294967295) :
    numerator m n = .ok (divisorSum m n (Nat.gcd m n)
      - ((wrap (2 * m) : Nat) : Int) * ((Nat.choose (n / 2) (m - 1) : Nat) : Int)
      + (if m % 2 = 1 then ((oddSum m n : Nat) : Int) * (m : Int) * 2
          else ((evenSum m n : Nat) : Int) * (m : Int))) := by
  have hgcd := compute_gcd_eq m n (by omega)
  have hdiv := divisor_term_eq m n (by omega) hmn hn hmax
  have hsub : usub m 1 = m - 1 := usub_one m (by omega) (by omega)
  have hbin : binom (n / 2) (usub m 1) = .ok ((Nat.choose (n / 2) (m - 1) : Nat) : Int) := by
    rewrite [hsub]
    exact binom_eq_choose (n / 2) (m - 1) (by omega) (by omega)
  unfold numerator
  by_cases hodd : m % 2 = 1
  · have hmsum := odd_msum_eq m n hm hmn hn
    simp only [hgcd, hdiv, hbin, hmsum, ok_bind, if_pos hodd]
    rfl
  · have hmsum := even_msum_eq m n (by omega) hmn hn
    simp only [hgcd, hdiv, hbin, hmsum, ok_bind, if_neg hodd]
    rfl

theorem numerator_ok (m n : Nat) (hm : 3 ≤ m) (hmn : m ≤ n) (hn : n < 4294967296)
    (hmax : m < 4294967295) : ∃ num, numerator m n = .ok num :=
  ⟨_, numerator_eq m n hm hmn hn hmax⟩

theorem numerator_top_not_ok (m n : Nat) (num : Int) (hm : 0 < m)
    (hg : 4294967295 ≤ Nat.gcd m n) : numerator m n ≠ .ok num := by
  have hgcd := compute_gcd_eq m n hm
  have hdiv : ∀ v, divisor_term m n (Nat.gcd m n) ≠ .ok v := by
    intro v
    unfold divisor_term
    exact for_le_top_not_ok (divisor_step m n (Nat.gcd m n)) (Nat.gcd m n) hg (Nat.gcd m n + 1) 1 0 v (by omega)
  intro h
  unfold numerator at h
  rw [hgcd] at h
  cases hd : divisor_term m n (Nat.gcd m n) with
  | error e =>
    change (divisor_term m n (Nat.gcd m n) >>= _) = _ at h
    rw [hd] at h
    cases h
  | ok v => exact hdiv v hd

theorem compute_mgon_eq (m n : Nat) (num : Int) (hnum : numerator m n = .ok num) :
    compute_mgon m n =
      if wrap (4 * m) = 0 then .error .zero_divisor
      else if Int.tmod num ((wrap (4 * m) : Nat) : Int) ≠ 0 then .error .bad_fraction
      else .ok (Int.tdiv num ((wrap (4 * m) : Nat) : Int)) := by
  unfold compute_mgon
  rw [hnum]
  rfl

theorem compute_mgon_ok_numerator (m n : Nat) (r : Int) (h : compute_mgon m n = .ok r) :
    ∃ num, numerator m n = .ok num := by
  cases hnum : numerator m n with
  | ok num => exact ⟨num, rfl⟩
  | error e =>
    unfold compute_mgon at h
    rw [hnum] at h
    cases h

/-! ## The numerator is not negative -/

theorem choose_half_bound : ∀ (h k : Nat), 2 ≤ k →
    (k + 1) * Nat.choose h k ≤ Nat.choose (2 * h - 1) k := by
  intro h
  induction h with
  | zero => intro k hk; simp [Nat.choose_eq_zero_of_lt (by omega : 0 < k)]
  | succ h ih =>
    intro k hk
    rcases Nat.eq_zero_or_pos h with h0 | hpos
    · subst h0
      simp [Nat.choose_eq_zero_of_lt (by omega : 1 < k)]
    · obtain ⟨j, rfl⟩ : ∃ j, k = j + 2 := ⟨k - 2, by omega⟩
      obtain ⟨t, ht⟩ : ∃ t, 2 * h - 1 = t := ⟨_, rfl⟩
      have e1 : 2 * (h + 1) - 1 = t + 1 + 1 := by omega
      rw [e1]
      have c1 : Nat.choose (h + 1) (j + 2) = Nat.choose h (j + 1) + Nat.choose h (j + 2) :=
        Nat.choose_succ_succ h (j + 1)
      have c2 : Nat.choose (t + 1 + 1) (j + 2)
          = Nat.choose t j + 2 * Nat.choose t (j + 1) + Nat.choose t (j + 2) := by
        rw [Nat.choose_succ_succ (t + 1) (j + 1), Nat.choose_succ_succ t j,
          Nat.choose_succ_succ t (j + 1)]
        ring
      have hmain := ih (j + 2) (by omega)
      rw [ht] at hmain
      have hside : (j + 2 + 1) * Nat.choose h (j + 1)
          ≤ Nat.choose t j + 2 * Nat.choose t (j + 1) := by
        rcases Nat.eq_zero_or_pos j with j0 | jpos
        · subst j0
          simp only [Nat.zero_add, Nat.choose_one_right, Nat.choose_zero_right]
          omega
        · have h1 := ih (j + 1) (by omega)
          rw [ht] at h1
          have h2 : Nat.choose h (j + 1) ≤ Nat.choose t (j + 1) :=
            Nat.choose_le_choose (j + 1) (by omega)
          nlinarith
      rw [c1, c2]
      nlinarith

theorem choose_violating_bound (m n : Nat) (hm : 3 ≤ m) :
    m * Nat.choose (n / 2) (m - 1) ≤ Nat.choose (n - 1) (m - 1) := by
  have h1 := choose_half_bound (n / 2) (m - 1) (by omega)
  have h2 : Nat.choose (2 * (n / 2) - 1) (m - 1) ≤ Nat.choose (n - 1) (m - 1) :=
    Nat.choose_le_choose (m - 1) (by omega)
  have h3 : m - 1 + 1 = m := by omega
  rw [h3] at h1
  exact le_trans h1 h2

theorem divisorSum_term_nonneg (m n g d : Nat) :
    (0 : Int) ≤ if g % d ≠ 0 then (0 : Int) else
      ((wrap (2 * Nat.totient d) : Nat) : Int)
        * ((Nat.choose (n / d - 1) (m / d - 1) : Nat) : Int) := by
  split
  · exact le_refl _
  · exact mul_nonneg (Int.natCast_nonneg _) (Int.natCast_nonneg _)

theorem divisorSum_lower (m n g : Nat) (hg : 1 ≤ g) :
    (2 : Int) * ((Nat.choose (n - 1) (m - 1) : Nat) : Int) ≤ divisorSum m n g := by
  unfold divisorSum
  have hsingle := Finset.single_le_sum
    (f := fun d => if g % d ≠ 0 then (0 : Int) else
      ((wrap (2 * Nat.totient d) : Nat) : Int)
        * ((Nat.choose (n / d - 1) (m / d - 1) : Nat) : Int))
    (s := Finset.Icc 1 g) (a := 1)
    (fun d _ => divisorSum_term_nonneg m n g d)
    (Finset.mem_Icc.2 ⟨le_refl 1, hg⟩)
  refine le_trans (le_of_eq ?_) hsingle
  simp only [Nat.mod_one, ne_eq, not_true_eq_false, if_false, Nat.totient_one, Nat.div_one]
  rfl

theorem numerator_value_nonneg (m n : Nat) (hm : 3 ≤ m) :
    (0 : Int) ≤ divisorSum m n (Nat.gcd m n)
      - ((wrap (2 * m) : Nat) : Int) * ((Nat.choose (n / 2) (m - 1) : Nat) : Int)
      + (if m % 2 = 1 then ((oddSum m n : Nat) : Int) * (m : Int) * 2
          else ((evenSum m n : Nat) : Int) * (m : Int)) := by
  have hg : 1 ≤ Nat.gcd m n := Nat.gcd_pos_of_pos_left n (by omega)
  have hT1 := divisorSum_lower m n (Nat.gcd m n) hg
  have hT2 : ((wrap (2 * m) : Nat) : Int) * ((Nat.choose (n / 2) (m - 1) : Nat) : Int)
      ≤ (2 : Int) * ((Nat.choose (n - 1) (m - 1) : Nat) : Int) := by
    have h1 := choose_violating_bound m n hm
    have h2 : wrap (2 * m) ≤ 2 * m := wrap_le _
    have h3 : wrap (2 * m) * Nat.choose (n / 2) (m - 1) ≤ 2 * Nat.choose (n - 1) (m - 1) := by
      calc wrap (2 * m) * Nat.choose (n / 2) (m - 1)
          ≤ 2 * m * Nat.choose (n / 2) (m - 1) := Nat.mul_le_mul_right _ h2
        _ = 2 * (m * Nat.choose (n / 2) (m - 1)) := by ring
        _ ≤ 2 * Nat.choose (n - 1) (m - 1) := Nat.mul_le_mul_left _ h1
    exact_mod_cast h3
  have hT3 : (0 : Int) ≤ if m % 2 = 1 then ((oddSum m n : Nat) : Int) * (m : Int) * 2
      else ((evenSum m n : Nat) : Int) * (m : Int) := by
    split
    · exact mul_nonneg (mul_nonneg (Int.natCast_nonneg _) (Int.natCast_nonneg _)) (by norm_num)
    · exact mul_nonneg (Int.natCast_nonneg _) (Int.natCast_nonneg _)
  linarith

theorem numerator_nonneg (m n : Nat) (num : Int) (hm : 3 ≤ m) (hmn : m ≤ n)
    (hn : n < 4294967296) (h : numerator m n = .ok num) : 0 ≤ num := by
  rcases Nat.lt_or_ge m 4294967295 with hmax | hmax
  · rw [numerator_eq m n hm hmn hn hmax] at h
    cases h
    exact numerator_value_nonneg m n hm
  · have hnm : n = m := by omega
    have hg : 4294967295 ≤ Nat.gcd m n := by
      rw [hnm, Nat.gcd_self]
      exact hmax
    exact absurd h (numerator_top_not_ok m n num (by omega) hg)

/-! ## The polygon with all sides equal to 1 -/

theorem divisorSum_self (n : Nat) (hn : 1 ≤ n) (hlt : n < 2147483648) :
    divisorSum n n n = 2 * (n : Int) := by
  unfold divisorSum
  have hterm : ∀ d ∈ Finset.Icc 1 n, (if n % d ≠ 0 then (0 : Int) else
      ((wrap (2 * Nat.totient d) : Nat) : Int)
        * ((Nat.choose (n / d - 1) (n / d - 1) : Nat) : Int))
      = if d ∣ n then ((2 * Nat.totient d : Nat) : Int) else 0 := by
    intro d hd
    rw [Finset.mem_Icc] at hd
    by_cases hdvd : d ∣ n
    · have h0 : n % d = 0 := Nat.mod_eq_zero_of_dvd hdvd
      have hphi : Nat.totient d ≤ d := Nat.totient_le d
      rw [if_neg (by simp [h0]), if_pos hdvd, wrap_of_lt _ (by omega), Nat.choose_self]
      simp
    · have h0 : n % d ≠ 0 := fun h => hdvd (Nat.dvd_of_mod_eq_zero h)
      rw [if_pos h0, if_neg hdvd]
  rw [Finset.sum_congr rfl hterm, ← Finset.sum_filter]
  have hdiv : Finset.filter (fun d => d ∣ n) (Finset.Icc 1 n) = Nat.divisors n := by
    ext d
    simp only [Finset.mem_filter, Finset.mem_Icc, Nat.mem_divisors]
    constructor
    · rintro ⟨_, h⟩
      exact ⟨h, by omega⟩
    · rintro ⟨h, h0⟩
      exact ⟨⟨Nat.pos_of_dvd_of_pos h (by omega), Nat.le_of_dvd (by omega) h⟩, h⟩
  rw [hdiv, ← Nat.cast_sum, ← Finset.mul_sum, Nat.sum_totient]
  push_cast
  ring

theorem oddSum_self (n : Nat) (hn : 3 ≤ n) (hodd : n % 2 = 1) : oddSum n n = 1 := by
  unfold oddSum
  rw [Finset.sum_eq_single 1]
  · have : (n - 1) / 2 - 1 = n / 2 - 1 := by omega
    rw [if_pos (by omega), this, Nat.choose_self]
  · intro i hi hne
    rw [Finset.mem_Icc] at hi
    split
    · exact Nat.choose_eq_zero_of_lt (by omega)
    · rfl
  · intro h
    exact absurd (Finset.mem_Icc.2 ⟨le_refl 1, by omega⟩) h

theorem evenSum_self (n : Nat) (hn : 4 ≤ n) (heven : n % 2 = 0) : evenSum n n = 2 := by
  unfold evenSum
  have hmem : (1 : Nat) ∈ Finset.Icc 1 ((n - 1) / 2) := Finset.mem_Icc.2 ⟨le_refl 1, by omega⟩
  rw [if_pos heven, Nat.choose_self, Finset.sum_eq_single 1, Finset.sum_eq_single 1]
  · have : (n - 1 - 1) / 2 - 1 = n / 2 - 2 := by omega
    rw [if_pos (by omega), this, Nat.choose_self]
  · intro j hj hne
    rw [Finset.mem_Icc] at hj
    split
    · exact Nat.choose_eq_zero_of_lt (by omega)
    · rfl
  · intro h
    exact absurd hmem h
  · intro i hi hne
    rw [Finset.mem_Icc] at hi
    apply Finset.sum_eq_zero
    intro j hj
    rw [Finset.mem_Icc] at hj
    split
    · exact Nat.choose_eq_zero_of_lt (by omega)
    · rfl
  · intro h
    exact absurd hmem h

theorem numerator_self (n : Nat) (hn : 3 ≤ n) (hlt : n < 2147483648) :
    numerator n n = .ok (4 * (n : Int)) := by
  have hnum := numerator_eq n n hn (le_refl n) (by omega) (by omega)
  refine Eq.trans hnum ?_
  apply congrArg
  have hT : divisorSum n n (Nat.gcd n n) = 2 * (n : Int) := by
    rw [Nat.gcd_self]
    exact divisorSum_self n (by omega) hlt
  have hsecond : ((Nat.choose (n / 2) (n - 1) : Nat) : Int) = 0 := by
    rw [Nat.choose_eq_zero_of_lt (by omega)]
    rfl
  have hthird : (if n % 2 = 1 then ((oddSum n n : Nat) : Int) * (n : Int) * 2
      else ((evenSum n n : Nat) : Int) * (n : Int)) = 2 * (n : Int) := by
    by_cases hodd : n % 2 = 1
    · rw [if_pos hodd, oddSum_self n hn hodd]
      push_cast
      ring
    · rw [if_neg hodd, evenSum_self n (by omega) (by omega)]
      push_cast
      ring
  rw [hT, hsecond, hthird]
  ring

/-! ## The formula without the word arithmetic -/

theorem divisorSum_clean (m n : Nat) (hm : 1 ≤ m) (hm2 : m < 2147483648) :
    divisorSum m n (Nat.gcd m n)
      = ((2 * ∑ d in Nat.divisors (Nat.gcd m n),
          Nat.totient d * Nat.choose (n / d - 1) (m / d - 1) : Nat) : Int) := by
  unfold divisorSum
  have hterm : ∀ d ∈ Finset.Icc 1 (Nat.gcd m n), (if Nat.gcd m n % d ≠ 0 then (0 : Int) else
      ((wrap (2 * Nat.totient d) : Nat) : Int)
        * ((Nat.choose (n / d - 1) (m / d - 1) : Nat) : Int))
      = if d ∣ Nat.gcd m n then
          ((2 * (Nat.totient d * Nat.choose (n / d - 1) (m / d - 1)) : Nat) : Int) else 0 := by
    intro d hd
    rw [Finset.mem_Icc] at hd
    by_cases hdvd : d ∣ Nat.gcd m n
    · have h0 : Nat.gcd m n % d = 0 := Nat.mod_eq_zero_of_dvd hdvd
      have hdm : d ∣ m := dvd_trans hdvd (Nat.gcd_dvd_left m n)
      have hphi : Nat.totient d ≤ d := Nat.totient_le d
      have hdle : d ≤ m := Nat.le_of_dvd (by omega) hdm
      rw [if_neg (by simp [h0]), if_pos hdvd, wrap_of_lt _ (by omega)]
      push_cast
      ring
    · have h0 : Nat.gcd m n % d ≠ 0 := fun h => hdvd (Nat.dvd_of_mod_eq_zero h)
      rw [if_pos h0, if_neg hdvd]
  rw [Finset.sum_congr rfl hterm, ← Finset.sum_filter]
  have hg : 0 < Nat.gcd m n := Nat.gcd_pos_of_pos_left n (by omega)
  have hdiv : Finset.filter (fun d => d ∣ Nat.gcd m n) (Finset.Icc 1 (Nat.gcd m n))
      = Nat.divisors (Nat.gcd m n) := by
    ext d
    simp only [Finset.mem_filter, Finset.mem_Icc, Nat.mem_divisors]
    constructor
    · rintro ⟨_, h⟩
      exact ⟨h, by omega⟩
    · rintro ⟨h, h0⟩
      exact ⟨⟨Nat.pos_of_dvd_of_pos h hg, Nat.le_of_dvd hg h⟩, h⟩
  rw [hdiv, ← Nat.cast_sum, ← Finset.mul_sum]

/-! ## The sanity check -/

theorem compute_mgon_of_numerator_multiple (m n : Nat) (q : Int) (h0 : 0 < m)
    (h4 : 4 * m < 4294967296) (hnum : numerator m n = .ok (4 * (m : Int) * q)) :
    compute_mgon m n = .ok q := by
  rw [compute_mgon_eq m n _ hnum, wrap_of_lt _ h4, if_neg (by omega)]
  have hcast : ((4 * m : Nat) : Int) = 4 * (m : Int) := by push_cast; ring
  have hpos : (4 * (m : Int)) ≠ 0 := by
    have : (0 : Int) < (m : Int) := by exact_mod_cast h0
    omega
  rw [hcast, Int.mul_tmod_right, if_neg (by simp), Int.mul_tdiv_cancel_left _ hpos]

/-! ## Counting polygons by Burnside's lemma -/

theorem mem_comps {ι : Type} [Fintype ι] [DecidableEq ι] (s : Nat) (v : ι → Nat) :
    v ∈ comps ι s ↔ (∀ i, 1 ≤ v i) ∧ ∑ i, v i = s := by
  unfold comps
  rw [Finset.mem_filter, Fintype.mem_piFinset]
  constructor
  · rintro ⟨h1, h2⟩
    exact ⟨fun i => (Finset.mem_Icc.1 (h1 i)).1, h2⟩
  · rintro ⟨h1, h2⟩
    refine ⟨fun i => Finset.mem_Icc.2 ⟨h1 i, ?_⟩, h2⟩
    rw [← h2]
    exact Finset.single_le_sum (f := v) (fun _ _ => Nat.zero_le _) (Finset.mem_univ i)

theorem sum_range_choose_col (c : Nat) : ∀ t : Nat,
    ∑ b in Finset.range t, Nat.choose b c = Nat.choose t (c + 1) := by
  intro t
  induction t with
  | zero => simp
  | succ t ih => rw [Finset.sum_range_succ, ih, Nat.choose_succ_succ, add_comm]

theorem comps_zero_eq_empty {ι : Type} [Fintype ι] [DecidableEq ι] [Nonempty ι] :
    comps ι 0 = ∅ := by
  unfold comps
  simp

theorem card_comps_fin_one (s : Nat) : (comps (Fin 1) (s + 1)).card = 1 := by
  rw [Finset.card_eq_one]
  refine ⟨fun _ => s + 1, ?_⟩
  ext v
  rw [mem_comps, Finset.mem_singleton]
  constructor
  · rintro ⟨_, h2⟩
    funext i
    rw [Fin.sum_univ_one] at h2
    rw [Subsingleton.elim i 0, h2]
  · rintro rfl
    exact ⟨fun _ => Nat.le_add_left 1 s, by simp⟩

theorem card_comps_fiber (c s a : Nat) :
    ((comps (Fin (c + 1)) s).filter (fun v => v 0 = a)).card
      = if 1 ≤ a ∧ a ≤ s then (comps (Fin c) (s - a)).card else 0 := by
  by_cases ha : 1 ≤ a ∧ a ≤ s
  · rw [if_pos ha]
    apply Finset.card_bij (fun v _ => Fin.tail v)
    · intro v hv
      rw [Finset.mem_filter, mem_comps] at hv
      rw [mem_comps]
      refine ⟨fun i => hv.1.1 _, ?_⟩
      have := hv.1.2
      rw [Fin.sum_univ_succ, hv.2] at this
      simp only [Fin.tail]
      omega
    · intro v hv w hw hvw
      rw [Finset.mem_filter] at hv hw
      funext i
      refine Fin.cases ?_ (fun j => ?_) i
      · rw [hv.2, hw.2]
      · exact congrFun hvw j
    · intro u hu
      rw [mem_comps] at hu
      refine ⟨Fin.cons a u, ?_, by simp⟩
      rw [Finset.mem_filter, mem_comps]
      refine ⟨⟨?_, ?_⟩, by simp⟩
      · intro i
        refine Fin.cases ?_ (fun j => ?_) i
        · simpa using ha.1
        · simpa using hu.1 j
      · rw [Fin.sum_univ_succ]
        simp only [Fin.cons_zero, Fin.cons_succ, hu.2]
        omega
  · rw [if_neg ha]
    rw [Finset.card_eq_zero, Finset.filter_eq_empty_iff]
    intro v hv hva
    rw [mem_comps] at hv
    apply ha
    refine ⟨hva ▸ hv.1 0, ?_⟩
    rw [← hva, ← hv.2]
    exact Finset.single_le_sum (f := v) (fun _ _ => Nat.zero_le _) (Finset.mem_univ 0)

theorem card_comps_fin_succ (c s : Nat) :
    (comps (Fin (c + 1)) s).card = ∑ j in Finset.range s, (comps (Fin c) j).card := by
  have hmaps : ∀ v ∈ comps (Fin (c + 1)) s, v 0 ∈ Finset.Icc 0 s := by
    intro v hv
    rw [mem_comps] at hv
    rw [Finset.mem_Icc]
    refine ⟨Nat.zero_le _, ?_⟩
    rw [← hv.2]
    exact Finset.single_le_sum (f := v) (fun _ _ => Nat.zero_le _) (Finset.mem_univ 0)
  rw [Finset.card_eq_sum_card_fiberwise hmaps]
  simp only [card_comps_fiber]
  have hrange : Finset.Icc 0 s = Finset.range (s + 1) := by
    ext x; simp [Nat.lt_succ_iff]
  rw [hrange, Finset.sum_range_succ']
  simp only [Nat.le_zero_eq, one_ne_zero, false_and, if_false, add_zero]
  rw [← Finset.sum_range_reflect]
  apply Finset.sum_congr rfl
  intro j hj
  rw [Finset.mem_range] at hj
  rw [if_pos ⟨by omega, by omega⟩]
  congr 2
  omega

theorem card_comps_fin (c : Nat) : ∀ s : Nat,
    (comps (Fin (c + 1)) (s + 1)).card = Nat.choose s c := by
  induction c with
  | zero => intro s; rw [card_comps_fin_one, Nat.choose_zero_right]
  | succ c ih =>
    intro s
    rw [card_comps_fin_succ, Finset.sum_range_succ', comps_zero_eq_empty, Finset.card_empty,
      add_zero]
    simp only [ih]
    exact sum_range_choose_col c s

theorem card_comps_congr {ι κ : Type} [Fintype ι] [DecidableEq ι] [Fintype κ] [DecidableEq κ]
    (e : ι ≃ κ) (s : Nat) : (comps ι s).card = (comps κ s).card := by
  apply Finset.card_bij (fun v _ => v ∘ e.symm)
  · intro v hv
    rw [mem_comps] at hv ⊢
    refine ⟨fun i => hv.1 _, ?_⟩
    rw [← hv.2]
    exact Equiv.sum_comp e.symm v
  · intro v _ w _ hvw
    funext i
    have := congrFun hvw (e i)
    simpa using this
  · intro u hu
    rw [mem_comps] at hu
    refine ⟨u ∘ e, ?_, ?_⟩
    · rw [mem_comps]
      refine ⟨fun i => hu.1 _, ?_⟩
      rw [← hu.2]
      exact Equiv.sum_comp e u
    · funext i
      simp

theorem card_comps {ι : Type} [Fintype ι] [DecidableEq ι] (s : Nat) (hs : 1 ≤ s)
    (hc : 1 ≤ Fintype.card ι) :
    (comps ι s).card = Nat.choose (s - 1) (Fintype.card ι - 1) := by
  obtain ⟨c, hc'⟩ : ∃ c, Fintype.card ι = c + 1 := ⟨Fintype.card ι - 1, by omega⟩
  obtain ⟨t, ht⟩ : ∃ t, s = t + 1 := ⟨s - 1, by omega⟩
  have e : ι ≃ Fin (c + 1) := hc' ▸ Fintype.equivFin ι
  rw [card_comps_congr e, hc', ht, card_comps_fin]
  simp

theorem sum_erase_eq {m : Nat} (t : Fin m → Nat) (i : Fin m) :
    ∑ j in Finset.univ.erase i, t j = (∑ j, t j) - t i := by
  rw [← Finset.add_sum_erase Finset.univ t (Finset.mem_univ i)]
  omega

theorem mem_polygons (m n : Nat) (t : Fin m → Nat) :
    t ∈ polygons m n ↔ (∀ i, 1 ≤ t i) ∧ ∑ i, t i = n ∧ ∀ i, 2 * t i < n := by
  unfold polygons
  rw [Finset.mem_filter, Fintype.mem_piFinset]
  constructor
  · rintro ⟨h1, h2, h3⟩
    refine ⟨fun i => (Finset.mem_Icc.1 (h1 i)).1, h2, fun i => ?_⟩
    have := h3 i
    rw [sum_erase_eq, h2] at this
    omega
  · rintro ⟨h1, h2, h3⟩
    refine ⟨fun i => Finset.mem_Icc.2 ⟨h1 i, ?_⟩, h2, fun i => ?_⟩
    · have := h3 i
      omega
    · rw [sum_erase_eq, h2]
      have := h3 i
      omega

theorem mem_weighted {J : Type} [Fintype J] [DecidableEq J] (w : J → Nat) (s n : Nat)
    (g : J → Nat) :
    g ∈ weighted J w s n ↔ (∀ j, 1 ≤ g j) ∧ ∑ j, w j * g j = s ∧ ∀ j, 2 * g j < n := by
  unfold weighted
  rw [Finset.mem_filter, Fintype.mem_piFinset]
  constructor
  · rintro ⟨h1, h2, h3⟩
    exact ⟨fun i => (Finset.mem_Icc.1 (h1 i)).1, h2, h3⟩
  · rintro ⟨h1, h2, h3⟩
    refine ⟨fun i => Finset.mem_Icc.2 ⟨h1 i, ?_⟩, h2, h3⟩
    have := h3 i
    omega

theorem card_invariant_polygons {m n : Nat} {J : Type} [Fintype J] [DecidableEq J]
    (π : Fin m → J) (hπ : Function.Surjective π) (w : J → Nat)
    (hsum : ∀ g : J → Nat, ∑ i, g (π i) = ∑ j, w j * g j)
    (p : (Fin m → Nat) → Prop) [DecidablePred p]
    (hp : ∀ t, p t ↔ ∃ g : J → Nat, t = g ∘ π) :
    ((polygons m n).filter p).card = (weighted J w n n).card := by
  symm
  apply Finset.card_bij (fun g _ => g ∘ π)
  · intro g hg
    rw [mem_weighted] at hg
    rw [Finset.mem_filter, mem_polygons]
    refine ⟨⟨fun i => hg.1 _, ?_, fun i => hg.2.2 _⟩, (hp _).2 ⟨g, rfl⟩⟩
    rw [← hg.2.1, ← hsum]
    rfl
  · intro g _ g' _ h
    funext j
    obtain ⟨i, rfl⟩ := hπ j
    exact congrFun h i
  · intro t ht
    rw [Finset.mem_filter, mem_polygons] at ht
    obtain ⟨⟨h1, h2, h3⟩, hpt⟩ := ht
    obtain ⟨g, rfl⟩ := (hp t).1 hpt
    refine ⟨g, ?_, rfl⟩
    rw [mem_weighted]
    refine ⟨fun j => ?_, ?_, fun j => ?_⟩
    · obtain ⟨i, rfl⟩ := hπ j
      exact h1 i
    · rw [← hsum]
      exact h2
    · obtain ⟨i, rfl⟩ := hπ j
      exact h3 i

theorem sum_update_fin {m : Nat} (t : Fin m → Nat) (i : Fin m) (b : Nat) :
    (∑ j, Function.update t i b j) + t i = (∑ j, t j) + b := by
  rw [← Finset.add_sum_erase Finset.univ t (Finset.mem_univ i),
    ← Finset.add_sum_erase Finset.univ (Function.update t i b) (Finset.mem_univ i)]
  have : ∑ j in Finset.univ.erase i, Function.update t i b j = ∑ j in Finset.univ.erase i, t j := by
    apply Finset.sum_congr rfl
    intro j hj
    rw [Function.update_noteq (Finset.ne_of_mem_erase hj)]
  rw [this, Function.update_same]
  omega

theorem card_long_side (m n : Nat) (hm : 1 ≤ m) (hn : 1 ≤ n) (i : Fin m) :
    ((comps (Fin m) n).filter (fun t => n ≤ 2 * t i)).card = Nat.choose (n / 2) (m - 1) := by
  have hcard := card_comps (ι := Fin m) (n / 2 + 1) (by omega) (by simpa using hm)
  rw [Fintype.card_fin] at hcard
  rw [Nat.add_sub_cancel] at hcard
  rw [← hcard]
  apply Finset.card_bij (fun t _ => Function.update t i (t i - ((n + 1) / 2 - 1)))
  · intro t ht
    rw [Finset.mem_filter, mem_comps] at ht
    obtain ⟨⟨h1, h2⟩, h3⟩ := ht
    rw [mem_comps]
    have hs := sum_update_fin t i (t i - ((n + 1) / 2 - 1))
    have hle : t i ≤ ∑ j, t j :=
      Finset.single_le_sum (f := t) (fun _ _ => Nat.zero_le _) (Finset.mem_univ i)
    have h1i := h1 i
    refine ⟨fun j => ?_, by omega⟩
    by_cases hj : j = i
    · subst hj
      rw [Function.update_same]
      omega
    · rw [Function.update_noteq hj]
      exact h1 j
  · intro t ht t' ht' h
    rw [Finset.mem_filter, mem_comps] at ht ht'
    funext j
    by_cases hj : j = i
    · subst hj
      have := congrFun h j
      rw [Function.update_same, Function.update_same] at this
      have h3 := ht.2
      have h3' := ht'.2
      omega
    · have := congrFun h j
      rwa [Function.update_noteq hj, Function.update_noteq hj] at this
  · intro u hu
    rw [mem_comps] at hu
    refine ⟨Function.update u i (u i + ((n + 1) / 2 - 1)), ?_, ?_⟩
    · rw [Finset.mem_filter, mem_comps]
      have hs := sum_update_fin u i (u i + ((n + 1) / 2 - 1))
      have hle : u i ≤ ∑ j, u j :=
        Finset.single_le_sum (f := u) (fun _ _ => Nat.zero_le _) (Finset.mem_univ i)
      have h1i := hu.1 i
      have h2 := hu.2
      refine ⟨⟨fun j => ?_, by omega⟩, ?_⟩
      · by_cases hj : j = i
        · subst hj
          rw [Function.update_same]
          omega
        · rw [Function.update_noteq hj]
          exact hu.1 j
      · rw [Function.update_same]
        omega
    · funext j
      by_cases hj : j = i
      · subst hj
        simp only [Function.update_same]
        omega
      · rw [Function.update_noteq hj, Function.update_noteq hj]

theorem long_side_unique (m n : Nat) (hm : 3 ≤ m) (t : Fin m → Nat) (ht : t ∈ comps (Fin m) n)
    (i j : Fin m) (hi : n ≤ 2 * t i) (hj : n ≤ 2 * t j) : i = j := by
  by_contra hne
  rw [mem_comps] at ht
  obtain ⟨l, hl⟩ : ∃ l, l ∉ ({i, j} : Finset (Fin m)) := by
    by_contra hcon
    push_neg at hcon
    have hle := Finset.card_le_card (fun l (_ : l ∈ (Finset.univ : Finset (Fin m))) => hcon l)
    rw [Finset.card_univ, Fintype.card_fin, Finset.card_pair hne] at hle
    omega
  have hli : l ≠ i := fun h => hl (by simp [h])
  have hlj : l ≠ j := fun h => hl (by simp [h])
  have hsub : ({i, j, l} : Finset (Fin m)) ⊆ Finset.univ := Finset.subset_univ _
  have hsum := Finset.sum_le_sum_of_subset (f := t) hsub
  rw [Finset.sum_insert (by simp [hne, Ne.symm hli]), Finset.sum_insert (by simp [Ne.symm hlj]),
    Finset.sum_singleton, ht.2] at hsum
  have := ht.1 l
  omega

theorem card_polygons (m n : Nat) (hm : 3 ≤ m) (hn : 1 ≤ n) :
    (polygons m n).card + m * Nat.choose (n / 2) (m - 1) = (comps (Fin m) n).card := by
  have hsplit : polygons m n = (comps (Fin m) n).filter (fun t => ¬ ∃ i, n ≤ 2 * t i) := by
    ext t
    rw [mem_polygons, Finset.mem_filter, mem_comps]
    constructor
    · rintro ⟨h1, h2, h3⟩
      refine ⟨⟨h1, h2⟩, ?_⟩
      rintro ⟨i, hi⟩
      have := h3 i
      omega
    · rintro ⟨⟨h1, h2⟩, h3⟩
      refine ⟨h1, h2, fun i => ?_⟩
      by_contra hcon
      exact h3 ⟨i, by omega⟩
  have hbad : (comps (Fin m) n).filter (fun t => ∃ i, n ≤ 2 * t i)
      = Finset.univ.biUnion (fun i => (comps (Fin m) n).filter (fun t => n ≤ 2 * t i)) := by
    ext t
    simp only [Finset.mem_filter, Finset.mem_biUnion, Finset.mem_univ, true_and]
    constructor
    · rintro ⟨h, i, hi⟩
      exact ⟨i, h, hi⟩
    · rintro ⟨i, h, hi⟩
      exact ⟨h, i, hi⟩
  have hcardbad : ((comps (Fin m) n).filter (fun t => ∃ i, n ≤ 2 * t i)).card
      = m * Nat.choose (n / 2) (m - 1) := by
    rw [hbad, Finset.card_biUnion]
    · simp only [card_long_side m n (by omega) hn]
      rw [Finset.sum_const, Finset.card_univ, Fintype.card_fin, smul_eq_mul]
    · intro i _ j _ hij
      rw [Finset.disjoint_left]
      intro t hti htj
      rw [Finset.mem_filter] at hti htj
      exact hij (long_side_unique m n hm t hti.1 i j hti.2 htj.2)
  rw [hsplit, ← hcardbad, add_comm]
  exact Finset.filter_card_add_filter_neg_card_eq_card _

theorem dperm_one (M : Nat) (i : Fin (M + 1)) : dperm M 1 i = i := by
  show dperm M (DihedralGroup.r 0) i = i
  simp [dperm]

theorem dperm_mul (M : Nat) (g h : DihedralGroup (M + 1)) (i : Fin (M + 1)) :
    dperm M (g * h) i = dperm M h (dperm M g i) := by
  cases g with
  | r j =>
    cases h with
    | r k =>
      let j' : Fin (M + 1) := j
      let k' : Fin (M + 1) := k
      show i + (j' + k') = (i + j') + k'
      abel
    | sr k =>
      let j' : Fin (M + 1) := j
      let k' : Fin (M + 1) := k
      show (k' - j') - i = k' - (i + j')
      abel
  | sr j =>
    cases h with
    | r k =>
      let j' : Fin (M + 1) := j
      let k' : Fin (M + 1) := k
      show (j' + k') - i = (j' - i) + k'
      abel
    | sr k =>
      let j' : Fin (M + 1) := j
      let k' : Fin (M + 1) := k
      show i + (k' - j') = k' - (j' - i)
      abel

theorem comp_dperm_mem_polygons (M n : Nat) (g : DihedralGroup (M + 1)) (t : Fin (M + 1) → Nat)
    (ht : t ∈ polygons (M + 1) n) : t ∘ dperm M g ∈ polygons (M + 1) n := by
  rw [mem_polygons] at ht ⊢
  refine ⟨fun i => ht.1 _, ?_, fun i => ht.2.2 _⟩
  rw [← ht.2.1]
  exact Equiv.sum_comp (dperm M g) t

theorem smul_val (M n : Nat) (g : DihedralGroup (M + 1))
    (t : {t : Fin (M + 1) → Nat // t ∈ polygons (M + 1) n}) :
    (g • t).1 = t.1 ∘ dperm M g := rfl

theorem sum_dihedral (M : Nat) (F : DihedralGroup (M + 1) → Nat) :
    ∑ g, F g = ∑ k : Fin (M + 1), F (DihedralGroup.r k) + ∑ k : Fin (M + 1), F (DihedralGroup.sr k) := by
  let e : Fin (M + 1) ⊕ Fin (M + 1) ≃ DihedralGroup (M + 1) :=
    { toFun := fun x => match x with
        | Sum.inl j => DihedralGroup.r j
        | Sum.inr j => DihedralGroup.sr j
      invFun := fun g => match g with
        | DihedralGroup.r j => Sum.inl j
        | DihedralGroup.sr j => Sum.inr j
      left_inv := by rintro (x | x) <;> rfl
      right_inv := by rintro (x | x) <;> rfl }
  rw [← Equiv.sum_comp e F, Fintype.sum_sum_type]
  rfl

theorem card_fixedBy_eq (M n : Nat) (g : DihedralGroup (M + 1))
    [Fintype (MulAction.fixedBy {t : Fin (M + 1) → Nat // t ∈ polygons (M + 1) n} g)] :
    Fintype.card (MulAction.fixedBy {t : Fin (M + 1) → Nat // t ∈ polygons (M + 1) n} g)
      = ((polygons (M + 1) n).filter (fun t => t ∘ dperm M g = t)).card := by
  rw [← Fintype.card_coe]
  apply Fintype.card_congr
  exact
    { toFun := fun x => ⟨x.1.1, Finset.mem_filter.2 ⟨x.1.2, congrArg Subtype.val x.2⟩⟩
      invFun := fun y => ⟨⟨y.1, (Finset.mem_filter.1 y.2).1⟩,
        Subtype.ext (Finset.mem_filter.1 y.2).2⟩
      left_inv := fun x => rfl
      right_inv := fun y => rfl }

theorem orbit_count_mul (M n : Nat)
    [Fintype (Quotient (MulAction.orbitRel (DihedralGroup (M + 1))
      {t : Fin (M + 1) → Nat // t ∈ polygons (M + 1) n}))] :
    Fintype.card (Quotient (MulAction.orbitRel (DihedralGroup (M + 1))
      {t : Fin (M + 1) → Nat // t ∈ polygons (M + 1) n})) * (2 * (M + 1))
    = ∑ k : Fin (M + 1),
        ((polygons (M + 1) n).filter (fun t => t ∘ dperm M (DihedralGroup.r k) = t)).card
      + ∑ k : Fin (M + 1),
        ((polygons (M + 1) n).filter (fun t => t ∘ dperm M (DihedralGroup.sr k) = t)).card := by
  classical
  have hB := MulAction.sum_card_fixedBy_eq_card_orbits_mul_card_group (DihedralGroup (M + 1))
    {t : Fin (M + 1) → Nat // t ∈ polygons (M + 1) n}
  rw [DihedralGroup.card] at hB
  rw [← hB, sum_dihedral]
  simp only [card_fixedBy_eq]

theorem rotate_eq (M : Nat) (k : Nat) (t : Fin (M + 1) → Nat) :
    rotate k t = t ∘ dperm M (DihedralGroup.r ((k : Fin (M + 1)))) := by
  funext i
  show t _ = t (i + (k : Fin (M + 1)))
  congr 1
  apply Fin.ext
  rw [Fin.val_add, Fin.val_natCast, Nat.add_mod_mod]

theorem rotate_reverse_eq (M : Nat) (k : Nat) (t : Fin (M + 1) → Nat) :
    rotate k (reverse t)
      = t ∘ dperm M (DihedralGroup.sr ((Fin.last M - (k : Fin (M + 1)) : Fin (M + 1)))) := by
  rw [rotate_eq]
  funext i
  show t (Fin.rev (i + (k : Fin (M + 1)))) = t ((Fin.last M - (k : Fin (M + 1))) - i)
  rw [← Fin.last_sub]
  congr 1
  abel

theorem same_polygon_iff (M : Nat) (t t' : Fin (M + 1) → Nat) :
    same_polygon t t' ↔ ∃ g : DihedralGroup (M + 1), t' = t ∘ dperm M g := by
  constructor
  · rintro ⟨k, _, h | h⟩
    · exact ⟨_, h.trans (rotate_eq M k t)⟩
    · exact ⟨_, h.trans (rotate_reverse_eq M k t)⟩
  · rintro ⟨g, rfl⟩
    cases g with
    | r c =>
      let c' : Fin (M + 1) := c
      refine ⟨c'.val, Finset.mem_range.2 c'.isLt, Or.inl ?_⟩
      rw [rotate_eq, Fin.cast_val_eq_self]
    | sr c =>
      let c' : Fin (M + 1) := c
      refine ⟨(Fin.last M - c').val, Finset.mem_range.2 (Fin.last M - c').isLt, Or.inr ?_⟩
      rw [rotate_reverse_eq, Fin.cast_val_eq_self]
      have : Fin.last M - (Fin.last M - c') = c' := by abel
      rw [this]

theorem card_image_eq_card_quotient {α β : Type} [Fintype α] [DecidableEq β] (s : Setoid α)
    [Fintype (Quotient s)] (F : α → β) (hF : ∀ x y, F x = F y ↔ s.r x y) :
    (Finset.univ.image F).card = Fintype.card (Quotient s) := by
  classical
  let L : Quotient s → β := Quotient.lift F (fun a b h => (hF a b).2 h)
  have hinj : Function.Injective L := by
    intro p q
    refine Quotient.inductionOn₂ p q ?_
    intro a b h
    exact Quotient.sound ((hF a b).1 h)
  have himg : Finset.univ.image F = Finset.univ.image L := by
    ext b
    simp only [Finset.mem_image, Finset.mem_univ, true_and]
    constructor
    · rintro ⟨a, rfl⟩
      exact ⟨Quotient.mk s a, rfl⟩
    · rintro ⟨q, rfl⟩
      refine Quotient.inductionOn q ?_
      intro a
      exact ⟨a, rfl⟩
  rw [himg, Finset.card_image_of_injective _ hinj, Finset.card_univ]

theorem polygon_count_eq_orbits (M n : Nat)
    [Fintype (Quotient (MulAction.orbitRel (DihedralGroup (M + 1))
      {t : Fin (M + 1) → Nat // t ∈ polygons (M + 1) n}))] :
    polygon_count (M + 1) n = Fintype.card (Quotient (MulAction.orbitRel (DihedralGroup (M + 1))
      {t : Fin (M + 1) → Nat // t ∈ polygons (M + 1) n})) := by
  classical
  let X := {t : Fin (M + 1) → Nat // t ∈ polygons (M + 1) n}
  let F : X → Finset (Fin (M + 1) → Nat) :=
    fun x => (polygons (M + 1) n).filter (fun t' => same_polygon x.1 t')
  have hrel : ∀ x y : X, same_polygon x.1 y.1 ↔ (MulAction.orbitRel (DihedralGroup (M + 1)) X).r y x := by
    intro x y
    rw [same_polygon_iff]
    show _ ↔ y ∈ MulAction.orbit (DihedralGroup (M + 1)) x
    rw [MulAction.mem_orbit_iff]
    constructor
    · rintro ⟨g, hg⟩
      exact ⟨g, Subtype.ext hg.symm⟩
    · rintro ⟨g, hg⟩
      exact ⟨g, (congrArg Subtype.val hg).symm⟩
  have hF : ∀ x y : X, F x = F y ↔ (MulAction.orbitRel (DihedralGroup (M + 1)) X).r x y := by
    intro x y
    constructor
    · intro h
      have hx : x.1 ∈ F x := by
        show x.1 ∈ (polygons (M + 1) n).filter (fun t' => same_polygon x.1 t')
        rw [Finset.mem_filter]
        exact ⟨x.2, (hrel x x).2 ((MulAction.orbitRel (DihedralGroup (M + 1)) X).iseqv.refl x)⟩
      rw [h] at hx
      have hx' : x.1 ∈ (polygons (M + 1) n).filter (fun t' => same_polygon y.1 t') := hx
      rw [Finset.mem_filter] at hx'
      exact (hrel y x).1 hx'.2
    · intro h
      show (polygons (M + 1) n).filter (fun t' => same_polygon x.1 t')
        = (polygons (M + 1) n).filter (fun t' => same_polygon y.1 t')
      ext z
      simp only [Finset.mem_filter]
      constructor
      · rintro ⟨hz, hxz⟩
        refine ⟨hz, ?_⟩
        have h1 := (hrel x ⟨z, hz⟩).1 hxz
        exact (hrel y ⟨z, hz⟩).2 ((MulAction.orbitRel (DihedralGroup (M + 1)) X).iseqv.trans h1 h)
      · rintro ⟨hz, hyz⟩
        refine ⟨hz, ?_⟩
        have h1 := (hrel y ⟨z, hz⟩).1 hyz
        exact (hrel x ⟨z, hz⟩).2 ((MulAction.orbitRel (DihedralGroup (M + 1)) X).iseqv.trans h1 ((MulAction.orbitRel (DihedralGroup (M + 1)) X).iseqv.symm h))
  rw [← card_image_eq_card_quotient _ F hF]
  unfold polygon_count
  congr 1
  ext c
  simp only [Finset.mem_image, Finset.mem_univ, true_and]
  constructor
  · rintro ⟨t, ht, rfl⟩
    exact ⟨⟨t, ht⟩, rfl⟩
  · rintro ⟨x, rfl⟩
    exact ⟨x.1, x.2, rfl⟩

theorem shift_nsmul_invariant (M : Nat) (t : Fin (M + 1) → Nat) (c : Fin (M + 1))
    (h : ∀ i, t (i + c) = t i) (a : Nat) : ∀ i, t (i + a • c) = t i := by
  induction a with
  | zero => intro i; simp
  | succ a ih =>
    intro i
    rw [succ_nsmul, ← add_assoc, h, ih]

theorem gcd_cast_eq_mul (M : Nat) (k : Fin (M + 1)) :
    ∃ a : Nat, ((Nat.gcd k.val (M + 1) : Nat) : Fin (M + 1)) = a • k := by
  let kz : ZMod (M + 1) := k
  have hb := Nat.gcd_eq_gcd_ab k.val (M + 1)
  have hcast := congrArg (fun z : Int => (z : ZMod (M + 1))) hb
  simp only [Int.cast_add, Int.cast_mul, Int.cast_natCast] at hcast
  have hzero : ((M + 1 : Nat) : ZMod (M + 1)) = 0 := ZMod.natCast_self (M + 1)
  have hk : ((k.val : Nat) : ZMod (M + 1)) = kz := Fin.cast_val_eq_self k
  rw [hzero, zero_mul, add_zero, hk] at hcast
  have hx : ((((Nat.gcdA k.val (M + 1) : Int) : ZMod (M + 1)).val : Nat) : ZMod (M + 1))
      = ((Nat.gcdA k.val (M + 1) : Int) : ZMod (M + 1)) := ZMod.natCast_zmod_val _
  have key : ((Nat.gcd k.val (M + 1) : Nat) : ZMod (M + 1))
      = ((Nat.gcdA k.val (M + 1) : Int) : ZMod (M + 1)).val • kz := by
    rw [nsmul_eq_mul, hx, hcast, mul_comm]
  exact ⟨_, key⟩

theorem rotation_fixed_iff (M : Nat) (k : Fin (M + 1)) (t : Fin (M + 1) → Nat) :
    t ∘ dperm M (DihedralGroup.r k) = t ↔
      ∃ g : Fin (Nat.gcd k.val (M + 1)) → Nat,
        t = g ∘ modPos M (Nat.gcd k.val (M + 1)) (Nat.gcd_pos_of_pos_right _ (Nat.succ_pos M)) := by
  have he : 0 < Nat.gcd k.val (M + 1) := Nat.gcd_pos_of_pos_right _ (Nat.succ_pos M)
  have hem : Nat.gcd k.val (M + 1) ∣ M + 1 := Nat.gcd_dvd_right _ _
  have hek : Nat.gcd k.val (M + 1) ∣ k.val := Nat.gcd_dvd_left _ _
  have hle : Nat.gcd k.val (M + 1) ≤ M + 1 := Nat.le_of_dvd (Nat.succ_pos M) hem
  constructor
  · intro h
    have hk : ∀ i, t (i + k) = t i := fun i => congrFun h i
    obtain ⟨a, ha⟩ := gcd_cast_eq_mul M k
    have hE : ∀ i, t (i + ((Nat.gcd k.val (M + 1) : Nat) : Fin (M + 1))) = t i := by
      intro i
      rw [ha]
      exact shift_nsmul_invariant M t k hk a i
    refine ⟨fun j => t ((j.val : Nat) : Fin (M + 1)), ?_⟩
    funext i
    show t i = t (((i.val % Nat.gcd k.val (M + 1) : Nat) : Fin (M + 1)))
    have hi : i = ((i.val % Nat.gcd k.val (M + 1) : Nat) : Fin (M + 1))
        + (i.val / Nat.gcd k.val (M + 1)) • ((Nat.gcd k.val (M + 1) : Nat) : Fin (M + 1)) := by
      rw [nsmul_eq_mul, ← Nat.cast_mul, ← Nat.cast_add, mul_comm, Nat.mod_add_div]
      exact (Fin.cast_val_eq_self i).symm
    conv_lhs => rw [hi]
    exact shift_nsmul_invariant M t _ hE _ _
  · rintro ⟨g, rfl⟩
    funext i
    show g (modPos M _ he (i + k)) = g (modPos M _ he i)
    congr 1
    apply Fin.ext
    show (i + k).val % _ = i.val % _
    rw [Fin.val_add, Nat.mod_mod_of_dvd _ hem, Nat.add_mod, Nat.mod_eq_zero_of_dvd hek,
      Nat.add_zero, Nat.mod_mod]

theorem modPos_surjective (M e : Nat) (he : 0 < e) (hle : e ≤ M + 1) :
    Function.Surjective (modPos M e he) := by
  intro j
  refine ⟨⟨j.val, by omega⟩, ?_⟩
  apply Fin.ext
  show j.val % e = j.val
  exact Nat.mod_eq_of_lt j.isLt

theorem sum_range_mul_mod (e : Nat) (f : Nat → Nat) (hf : ∀ x, f (x % e) = f x) (d : Nat) :
    ∑ x in Finset.range (e * d), f x = d * ∑ x in Finset.range e, f x := by
  induction d with
  | zero => simp
  | succ d ih =>
    rw [Nat.mul_succ, Finset.sum_range_add, ih]
    have : ∑ x in Finset.range e, f (e * d + x) = ∑ x in Finset.range e, f x := by
      apply Finset.sum_congr rfl
      intro x _
      rw [← hf (e * d + x), Nat.mul_add_mod, hf]
    rw [this]
    ring

theorem sum_modPos (M e d : Nat) (he : 0 < e) (hed : e * d = M + 1) (g : Fin e → Nat) :
    ∑ i, g (modPos M e he i) = ∑ j, d * g j := by
  let f : Nat → Nat := fun x => g ⟨x % e, Nat.mod_lt _ he⟩
  have hf : ∀ x, f (x % e) = f x := by
    intro x
    show g ⟨x % e % e, _⟩ = g ⟨x % e, _⟩
    congr 1
    apply Fin.ext
    exact Nat.mod_mod _ _
  have h1 : ∑ i, g (modPos M e he i) = ∑ x in Finset.range (M + 1), f x :=
    Fin.sum_univ_eq_sum_range f (M + 1)
  have h2 : ∑ j : Fin e, g j = ∑ x in Finset.range e, f x := by
    rw [← Fin.sum_univ_eq_sum_range f e]
    apply Finset.sum_congr rfl
    intro j _
    show g j = g ⟨j.val % e, _⟩
    congr 1
    apply Fin.ext
    exact (Nat.mod_eq_of_lt j.isLt).symm
  rw [h1, ← hed, sum_range_mul_mod e f hf d, ← Finset.mul_sum, h2]

theorem weighted_const_eq (e d n : Nat) (he : 1 ≤ e) (hd : 2 ≤ d) (hed : 3 ≤ e * d)
    (hdn : d ∣ n) (hn : 1 ≤ n) :
    weighted (Fin e) (fun _ => d) n n = comps (Fin e) (n / d) := by
  obtain ⟨q, rfl⟩ := hdn
  have hdpos : 0 < d := by omega
  rw [Nat.mul_div_cancel_left q hdpos]
  ext g
  rw [mem_weighted, mem_comps, ← Finset.mul_sum]
  constructor
  · rintro ⟨h1, h2, _⟩
    exact ⟨h1, Nat.eq_of_mul_eq_mul_left hdpos h2⟩
  · rintro ⟨h1, h2⟩
    refine ⟨h1, by rw [h2], fun j => ?_⟩
    have hle : g j ≤ q := by
      rw [← h2]
      exact Finset.single_le_sum (f := g) (fun _ _ => Nat.zero_le _) (Finset.mem_univ j)
    have hq : 1 ≤ q := le_trans (h1 j) hle
    rcases Nat.lt_or_ge 2 d with h3 | h3
    · calc 2 * g j ≤ 2 * q := Nat.mul_le_mul_left _ hle
        _ < d * q := Nat.mul_lt_mul_of_pos_right h3 hq
    · have hd2 : d = 2 := by omega
      subst hd2
      have he2 : 2 ≤ e := by omega
      let j' : Fin e := if j.val = 0 then ⟨1, by omega⟩ else ⟨0, by omega⟩
      have hne : j' ≠ j := by
        intro h
        have := congrArg Fin.val h
        by_cases h0 : j.val = 0
        · simp only [j', h0, if_true] at this
          omega
        · simp only [j', h0, if_false] at this
          omega
      have hsub : ({j, j'} : Finset (Fin e)) ⊆ Finset.univ := Finset.subset_univ _
      have hsum := Finset.sum_le_sum_of_subset (f := g) hsub
      rw [Finset.sum_pair (Ne.symm hne), h2] at hsum
      have := h1 j'
      omega

theorem weighted_const_empty (e d n : Nat) (hdn : ¬ d ∣ n) :
    weighted (Fin e) (fun _ => d) n n = ∅ := by
  rw [Finset.eq_empty_iff_forall_not_mem]
  intro g hg
  rw [mem_weighted, ← Finset.mul_sum] at hg
  exact hdn ⟨_, hg.2.1.symm⟩

theorem card_rotation_fixed (M n : Nat) (hM : 2 ≤ M) (hn : 1 ≤ n) (k : Fin (M + 1)) :
    ((polygons (M + 1) n).filter (fun t => t ∘ dperm M (DihedralGroup.r k) = t)).card
      = periodCount (M + 1) n (Nat.gcd k.val (M + 1)) := by
  have he : 0 < Nat.gcd k.val (M + 1) := Nat.gcd_pos_of_pos_right _ (Nat.succ_pos M)
  have hem : Nat.gcd k.val (M + 1) ∣ M + 1 := Nat.gcd_dvd_right _ _
  have hek : Nat.gcd k.val (M + 1) ∣ k.val := Nat.gcd_dvd_left _ _
  have hle : Nat.gcd k.val (M + 1) ≤ M + 1 := Nat.le_of_dvd (Nat.succ_pos M) hem
  unfold periodCount
  by_cases hfull : Nat.gcd k.val (M + 1) = M + 1
  · rw [if_pos hfull]
    have hk0 : k.val = 0 := by
      rw [hfull] at hek
      exact Nat.eq_zero_of_dvd_of_lt hek k.isLt
    have hk : k = 0 := Fin.ext hk0
    subst hk
    congr 1
    apply Finset.filter_true_of_mem
    intro t _
    funext i
    exact congrArg t (dperm_one M i)
  · rw [if_neg hfull]
    obtain ⟨d, hd⟩ := hem
    have hdiv : (M + 1) / Nat.gcd k.val (M + 1) = d := Nat.div_eq_of_eq_mul_right he hd
    have hd2 : 2 ≤ d := by
      rcases Nat.lt_or_ge d 2 with h | h
      · interval_cases d
        · omega
        · omega
      · exact h
    rw [hdiv, card_invariant_polygons (modPos M _ he) (modPos_surjective M _ he hle)
      (fun _ => d) (sum_modPos M _ d he hd.symm) _ (rotation_fixed_iff M k)]
    by_cases hdn : d ∣ n
    · rw [if_pos hdn, weighted_const_eq _ d n he hd2 (by omega) hdn hn, card_comps _ _ (by simpa using he)]
      · rw [Fintype.card_fin]
      · obtain ⟨q, rfl⟩ := hdn
        rw [Nat.mul_div_cancel_left q (by omega)]
        rcases Nat.eq_zero_or_pos q with h0 | h0
        · subst h0; omega
        · exact h0
    · rw [if_neg hdn, weighted_const_empty _ d n hdn, Finset.card_empty]

theorem sum_gcd_fiberwise (m : Nat) (hm : 0 < m) (Q : Nat → Nat) :
    ∑ x in Finset.range m, Q (Nat.gcd x m) = ∑ d in Nat.divisors m, Nat.totient d * Q (m / d) := by
  have hmaps : ∀ x ∈ Finset.range m, Nat.gcd x m ∈ Nat.divisors m := by
    intro x _
    exact Nat.mem_divisors.2 ⟨Nat.gcd_dvd_right _ _, by omega⟩
  rw [← Finset.sum_fiberwise_of_maps_to hmaps]
  rw [← Nat.sum_div_divisors m (fun d => Nat.totient d * Q (m / d))]
  apply Finset.sum_congr rfl
  intro e he
  have hem : e ∣ m := (Nat.mem_divisors.1 he).1
  have hepos : 0 < e := Nat.pos_of_dvd_of_pos hem hm
  rw [Nat.div_div_self hem (by omega)]
  rw [Finset.sum_congr rfl (fun x hx => by rw [(Finset.mem_filter.1 hx).2] : ∀ x ∈
    (Finset.range m).filter (fun x => Nat.gcd x m = e), Q (Nat.gcd x m) = Q e)]
  rw [Finset.sum_const, smul_eq_mul, Nat.totient_div_of_dvd hem]
  congr 2
  ext x
  simp only [Finset.mem_filter, Finset.mem_range, Nat.gcd_comm]

theorem periodCount_div (m n d : Nat) (hm : 0 < m) (hd : d ∣ m) :
    periodCount m n (m / d)
      = if d = 1 then (polygons m n).card
        else if d ∣ n then Nat.choose (n / d - 1) (m / d - 1) else 0 := by
  have hdpos : 0 < d := Nat.pos_of_dvd_of_pos hd hm
  unfold periodCount
  rw [Nat.div_div_self hd (by omega)]
  by_cases h1 : d = 1
  · subst h1
    simp
  · have hne : m / d ≠ m := by
      intro h
      obtain ⟨q, rfl⟩ := hd
      rw [Nat.mul_div_cancel_left q hdpos] at h
      have hq : 0 < q := by
        rcases Nat.eq_zero_or_pos q with h0 | h0
        · subst h0; omega
        · exact h0
      have : d * q = 1 * q := by omega
      have := Nat.eq_of_mul_eq_mul_right hq this
      exact h1 this
    rw [if_neg hne, if_neg h1]

theorem rotation_total (M n : Nat) (hM : 2 ≤ M) (hn : M + 1 ≤ n) :
    ∑ k : Fin (M + 1),
        ((polygons (M + 1) n).filter (fun t => t ∘ dperm M (DihedralGroup.r k) = t)).card
      + (M + 1) * Nat.choose (n / 2) M
    = ∑ d in Nat.divisors (Nat.gcd (M + 1) n),
        Nat.totient d * Nat.choose (n / d - 1) ((M + 1) / d - 1) := by
  have hm : 0 < M + 1 := Nat.succ_pos M
  simp only [card_rotation_fixed M n hM (by omega)]
  rw [Fin.sum_univ_eq_sum_range (fun x => periodCount (M + 1) n (Nat.gcd x (M + 1))) (M + 1),
    sum_gcd_fiberwise (M + 1) hm]
  have hdivs : Nat.divisors (Nat.gcd (M + 1) n)
      = (Nat.divisors (M + 1)).filter (fun d => d ∣ n) := by
    ext d
    simp only [Nat.mem_divisors, Finset.mem_filter, Nat.dvd_gcd_iff]
    constructor
    · rintro ⟨⟨h1, h2⟩, _⟩
      exact ⟨⟨h1, by omega⟩, h2⟩
    · rintro ⟨⟨h1, _⟩, h2⟩
      exact ⟨⟨h1, h2⟩, Nat.pos_iff_ne_zero.1 (Nat.gcd_pos_of_pos_left n hm)⟩
  rw [hdivs, Finset.sum_filter]
  have h1mem : 1 ∈ Nat.divisors (M + 1) := Nat.mem_divisors.2 ⟨one_dvd _, by omega⟩
  rw [← Finset.add_sum_erase _ _ h1mem, ← Finset.add_sum_erase _ _ h1mem]
  have hrest : ∑ d in (Nat.divisors (M + 1)).erase 1, Nat.totient d * periodCount (M + 1) n ((M + 1) / d)
      = ∑ d in (Nat.divisors (M + 1)).erase 1,
        if d ∣ n then Nat.totient d * Nat.choose (n / d - 1) ((M + 1) / d - 1) else 0 := by
    apply Finset.sum_congr rfl
    intro d hd
    rw [Finset.mem_erase] at hd
    rw [periodCount_div (M + 1) n d hm (Nat.mem_divisors.1 hd.2).1, if_neg hd.1]
    split <;> simp
  rw [hrest, periodCount_div (M + 1) n 1 hm (one_dvd _), if_pos rfl, if_pos (one_dvd n)]
  have hP := card_polygons (M + 1) n (by omega) (by omega)
  have hC := card_comps (ι := Fin (M + 1)) n (by omega) (by simp)
  rw [Fintype.card_fin] at hC
  simp only [Nat.totient_one, one_mul, Nat.div_one, Nat.add_sub_cancel] at hP hC ⊢
  omega

theorem card_weighted_two {J : Type} [Fintype J] [DecidableEq J] (w : J → Nat)
    (hw : ∀ j, w j = 2) (s n : Nat) (hs : 1 ≤ s) (hsn : s < n ∨ (s ≤ n ∧ 2 ≤ Fintype.card J))
    (hJ : 1 ≤ Fintype.card J) :
    (weighted J w s n).card
      = if s % 2 = 0 then Nat.choose (s / 2 - 1) (Fintype.card J - 1) else 0 := by
  by_cases hpar : s % 2 = 0
  · rw [if_pos hpar, ← card_comps (s / 2) (by omega) hJ]
    congr 1
    ext g
    rw [mem_weighted, mem_comps]
    have hsum : ∑ j, w j * g j = 2 * ∑ j, g j := by
      rw [Finset.mul_sum]
      exact Finset.sum_congr rfl (fun j _ => by rw [hw j])
    rw [hsum]
    constructor
    · rintro ⟨h1, h2, _⟩
      exact ⟨h1, by omega⟩
    · rintro ⟨h1, h2⟩
      refine ⟨h1, by omega, fun j => ?_⟩
      have hle : g j ≤ ∑ j, g j :=
        Finset.single_le_sum (f := g) (fun _ _ => Nat.zero_le _) (Finset.mem_univ j)
      rcases hsn with hlt | ⟨hle', hcard⟩
      · omega
      · obtain ⟨j', hj'⟩ := Fintype.exists_ne_of_one_lt_card (by omega : 1 < Fintype.card J) j
        have hsub : ({j, j'} : Finset J) ⊆ Finset.univ := Finset.subset_univ _
        have hsum2 := Finset.sum_le_sum_of_subset (f := g) hsub
        rw [Finset.sum_pair (Ne.symm hj')] at hsum2
        have := h1 j'
        omega
  · rw [if_neg hpar, Finset.card_eq_zero, Finset.eq_empty_iff_forall_not_mem]
    intro g hg
    rw [mem_weighted] at hg
    have hsum : ∑ j, w j * g j = 2 * ∑ j, g j := by
      rw [Finset.mul_sum]
      exact Finset.sum_congr rfl (fun j _ => by rw [hw j])
    rw [hsum] at hg
    omega

theorem sum_subtype_ne {J : Type} [Fintype J] [DecidableEq J] (j0 : J) (f : J → Nat) :
    ∑ j, f j = f j0 + ∑ j : {j // j ≠ j0}, f j.1 := by
  rw [← Finset.add_sum_erase Finset.univ f (Finset.mem_univ j0)]
  congr 1
  exact Finset.sum_subtype (Finset.univ.erase j0) (by simp) f

theorem card_weighted_fiber {J : Type} [Fintype J] [DecidableEq J] (w : J → Nat) (j0 : J)
    (hw : w j0 = 1) (s n a : Nat) (ha : a ∈ Finset.Icc 1 ((n - 1) / 2)) (has : a ≤ s) :
    ((weighted J w s n).filter (fun g => g j0 = a)).card
      = (weighted {j // j ≠ j0} (fun j => w j.1) (s - a) n).card := by
  rw [Finset.mem_Icc] at ha
  apply Finset.card_bij (fun g _ => fun j : {j // j ≠ j0} => g j.1)
  · intro g hg
    rw [Finset.mem_filter, mem_weighted] at hg
    obtain ⟨⟨h1, h2, h3⟩, h4⟩ := hg
    rw [mem_weighted]
    refine ⟨fun j => h1 _, ?_, fun j => h3 _⟩
    have := sum_subtype_ne j0 (fun j => w j * g j)
    simp only [hw, h4, one_mul] at this
    omega
  · intro g hg g' hg' h
    rw [Finset.mem_filter] at hg hg'
    funext j
    by_cases hj : j = j0
    · rw [hj, hg.2, hg'.2]
    · exact congrFun h ⟨j, hj⟩
  · intro u hu
    rw [mem_weighted] at hu
    obtain ⟨h1, h2, h3⟩ := hu
    refine ⟨fun j => if hj : j = j0 then a else u ⟨j, hj⟩, ?_, ?_⟩
    · rw [Finset.mem_filter, mem_weighted]
      refine ⟨⟨fun j => ?_, ?_, fun j => ?_⟩, by simp⟩
      · by_cases hj : j = j0
        · simp only [hj, dif_pos]; exact ha.1
        · simp only [hj, dif_neg, not_false_eq_true]; exact h1 _
      · rw [sum_subtype_ne j0]
        simp only [hw, dif_pos, one_mul]
        have : ∑ j : {j // j ≠ j0}, w j.1 * (if hj : j.1 = j0 then a else u ⟨j.1, hj⟩)
            = ∑ j : {j // j ≠ j0}, w j.1 * u j := by
          apply Finset.sum_congr rfl
          intro j _
          rw [dif_neg j.2]
        rw [this, h2]
        omega
      · by_cases hj : j = j0
        · simp only [hj, dif_pos]; omega
        · simp only [hj, dif_neg, not_false_eq_true]; exact h3 _
    · funext j
      simp only [dif_neg j.2]

theorem card_weighted_peel {J : Type} [Fintype J] [DecidableEq J] (w : J → Nat) (j0 : J)
    (hw : w j0 = 1) (s n : Nat) (hs : (n - 1) / 2 ≤ s) :
    (weighted J w s n).card
      = ∑ a in Finset.Icc 1 ((n - 1) / 2),
          (weighted {j // j ≠ j0} (fun j => w j.1) (s - a) n).card := by
  have hmaps : ∀ g ∈ weighted J w s n, g j0 ∈ Finset.Icc 1 ((n - 1) / 2) := by
    intro g hg
    rw [mem_weighted] at hg
    rw [Finset.mem_Icc]
    have := hg.1 j0
    have := hg.2.2 j0
    omega
  rw [Finset.card_eq_sum_card_fiberwise hmaps]
  apply Finset.sum_congr rfl
  intro a ha
  exact card_weighted_fiber w j0 hw s n a ha (le_trans (Finset.mem_Icc.1 ha).2 hs)

theorem orbitRep_surjective {m : Nat} (σ : Fin m → Fin m) (hσ : ∀ i, σ (σ i) = i) :
    Function.Surjective (orbitRep σ hσ) := by
  intro j
  refine ⟨j.1, Subtype.ext ?_⟩
  exact min_eq_left j.2

theorem orbitRep_apply_inv {m : Nat} (σ : Fin m → Fin m) (hσ : ∀ i, σ (σ i) = i) (i : Fin m) :
    orbitRep σ hσ (σ i) = orbitRep σ hσ i := by
  apply Subtype.ext
  show min (σ i) (σ (σ i)) = min i (σ i)
  rw [hσ, min_comm]

theorem orbitRep_fiber {m : Nat} (σ : Fin m → Fin m) (hσ : ∀ i, σ (σ i) = i)
    (j : {i : Fin m // i ≤ σ i}) :
    Finset.univ.filter (fun i => orbitRep σ hσ i = j) = {j.1, σ j.1} := by
  ext i
  simp only [Finset.mem_filter, Finset.mem_univ, true_and, Finset.mem_insert,
    Finset.mem_singleton]
  constructor
  · intro h
    have hv : min i (σ i) = j.1 := congrArg Subtype.val h
    rcases le_total i (σ i) with hle | hle
    · rw [min_eq_left hle] at hv
      exact Or.inl hv
    · rw [min_eq_right hle] at hv
      right
      rw [← hv, hσ]
  · rintro (h | h)
    · subst h
      exact Subtype.ext (min_eq_left j.2)
    · subst h
      rw [orbitRep_apply_inv]
      exact Subtype.ext (min_eq_left j.2)

theorem sum_orbitRep {m : Nat} (σ : Fin m → Fin m) (hσ : ∀ i, σ (σ i) = i)
    (g : {i : Fin m // i ≤ σ i} → Nat) :
    ∑ i, g (orbitRep σ hσ i) = ∑ j, orbitWeight σ j * g j := by
  rw [Finset.sum_comp g (orbitRep σ hσ),
    Finset.image_univ_of_surjective (orbitRep_surjective σ hσ)]
  apply Finset.sum_congr rfl
  intro j _
  rw [orbitRep_fiber, smul_eq_mul]
  congr 1
  unfold orbitWeight
  by_cases h : σ j.1 = j.1
  · rw [if_pos h, h]
    simp
  · rw [if_neg h, Finset.card_pair (Ne.symm h)]

theorem involution_fixed_iff {m : Nat} (σ : Fin m → Fin m) (hσ : ∀ i, σ (σ i) = i)
    (t : Fin m → Nat) :
    t ∘ σ = t ↔ ∃ g : {i : Fin m // i ≤ σ i} → Nat, t = g ∘ orbitRep σ hσ := by
  constructor
  · intro h
    refine ⟨fun j => t j.1, ?_⟩
    funext i
    show t i = t (min i (σ i))
    rcases le_total i (σ i) with hle | hle
    · rw [min_eq_left hle]
    · rw [min_eq_right hle]
      exact (congrFun h i).symm
  · rintro ⟨g, rfl⟩
    funext i
    show g (orbitRep σ hσ (σ i)) = g (orbitRep σ hσ i)
    rw [orbitRep_apply_inv]

theorem card_involution_fixed {m n : Nat} (σ : Fin m → Fin m) (hσ : ∀ i, σ (σ i) = i) :
    ((polygons m n).filter (fun t => t ∘ σ = t)).card
      = (weighted {i : Fin m // i ≤ σ i} (orbitWeight σ) n n).card :=
  card_invariant_polygons (orbitRep σ hσ) (orbitRep_surjective σ hσ) (orbitWeight σ)
    (sum_orbitRep σ hσ) _ (involution_fixed_iff σ hσ)

theorem sum_orbitWeight {m : Nat} (σ : Fin m → Fin m) (hσ : ∀ i, σ (σ i) = i) :
    ∑ j, orbitWeight σ j = m := by
  have := sum_orbitRep σ hσ (fun _ => 1)
  simp only [Finset.sum_const, Finset.card_univ, Fintype.card_fin, smul_eq_mul, mul_one] at this
  exact this.symm

theorem card_fixed_no_fixed_point {m n : Nat} (σ : Fin m → Fin m) (hσ : ∀ i, σ (σ i) = i)
    (hfix : ∀ i, σ i ≠ i) (hm : 4 ≤ m) (hn : 1 ≤ n) :
    ((polygons m n).filter (fun t => t ∘ σ = t)).card
      = if n % 2 = 0 then Nat.choose (n / 2 - 1) (m / 2 - 1) else 0 := by
  have hw : ∀ j, orbitWeight σ j = 2 := by
    intro j
    unfold orbitWeight
    rw [if_neg (hfix j.1)]
  have hcard : 2 * Fintype.card {i : Fin m // i ≤ σ i} = m := by
    have := sum_orbitWeight σ hσ
    simp only [hw, Finset.sum_const, Finset.card_univ, smul_eq_mul] at this
    omega
  rw [card_involution_fixed σ hσ,
    card_weighted_two _ hw n n hn (Or.inr ⟨le_refl n, by omega⟩) (by omega)]
  have : Fintype.card {i : Fin m // i ≤ σ i} = m / 2 := by omega
  rw [this]

theorem card_fixed_one_fixed_point {m n : Nat} (σ : Fin m → Fin m) (hσ : ∀ i, σ (σ i) = i)
    (i0 : Fin m) (h0 : σ i0 = i0) (hfix : ∀ i, σ i = i → i = i0) (hm : 3 ≤ m) :
    ((polygons m n).filter (fun t => t ∘ σ = t)).card
      = ∑ a in Finset.Icc 1 ((n - 1) / 2),
          if (n - a) % 2 = 0 then Nat.choose ((n - a) / 2 - 1) ((m - 1) / 2 - 1) else 0 := by
  let j0 : {i : Fin m // i ≤ σ i} := ⟨i0, le_of_eq h0.symm⟩
  have hw0 : orbitWeight σ j0 = 1 := by
    unfold orbitWeight
    rw [if_pos h0]
  have hw : ∀ j : {j // j ≠ j0}, orbitWeight σ j.1 = 2 := by
    intro j
    unfold orbitWeight
    rw [if_neg]
    intro h
    exact j.2 (Subtype.ext (hfix _ h))
  have hcard : 1 + 2 * Fintype.card {j // j ≠ j0} = m := by
    have := sum_orbitWeight σ hσ
    rw [sum_subtype_ne j0, hw0] at this
    simp only [hw, Finset.sum_const, Finset.card_univ, smul_eq_mul] at this
    omega
  rw [card_involution_fixed σ hσ, card_weighted_peel _ j0 hw0 n n (by omega)]
  apply Finset.sum_congr rfl
  intro a ha
  rw [Finset.mem_Icc] at ha
  rw [card_weighted_two _ hw (n - a) n (by omega) (Or.inl (by omega)) (by omega)]
  have : Fintype.card {j // j ≠ j0} = (m - 1) / 2 := by omega
  rw [this]

theorem card_fixed_two_fixed_points {m n : Nat} (σ : Fin m → Fin m) (hσ : ∀ i, σ (σ i) = i)
    (i0 i1 : Fin m) (h0 : σ i0 = i0) (h1 : σ i1 = i1) (hne : i1 ≠ i0)
    (hfix : ∀ i, σ i = i → i = i0 ∨ i = i1) (hm : 4 ≤ m) :
    ((polygons m n).filter (fun t => t ∘ σ = t)).card
      = ∑ a in Finset.Icc 1 ((n - 1) / 2), ∑ b in Finset.Icc 1 ((n - 1) / 2),
          if (n - a - b) % 2 = 0 then Nat.choose ((n - a - b) / 2 - 1) ((m - 2) / 2 - 1)
          else 0 := by
  let j0 : {i : Fin m // i ≤ σ i} := ⟨i0, le_of_eq h0.symm⟩
  let j1 : {j : {i : Fin m // i ≤ σ i} // j ≠ j0} :=
    ⟨⟨i1, le_of_eq h1.symm⟩, fun h => hne (congrArg Subtype.val h)⟩
  have hw0 : orbitWeight σ j0 = 1 := by
    unfold orbitWeight
    rw [if_pos h0]
  have hw1 : orbitWeight σ j1.1 = 1 := by
    unfold orbitWeight
    rw [if_pos h1]
  have hw : ∀ j : {j // j ≠ j1}, orbitWeight σ j.1.1 = 2 := by
    intro j
    unfold orbitWeight
    rw [if_neg]
    intro h
    rcases hfix _ h with h' | h'
    · exact j.1.2 (Subtype.ext h')
    · exact j.2 (Subtype.ext (Subtype.ext h'))
  have hcard : 2 + 2 * Fintype.card {j // j ≠ j1} = m := by
    have := sum_orbitWeight σ hσ
    rw [sum_subtype_ne j0, hw0, sum_subtype_ne j1 (fun j => orbitWeight σ j.1), hw1] at this
    simp only [hw, Finset.sum_const, Finset.card_univ, smul_eq_mul] at this
    omega
  rw [card_involution_fixed σ hσ, card_weighted_peel _ j0 hw0 n n (by omega)]
  apply Finset.sum_congr rfl
  intro a ha
  rw [Finset.mem_Icc] at ha
  rw [card_weighted_peel (fun j : {j // j ≠ j0} => orbitWeight σ j.1) j1 hw1 (n - a) n (by omega)]
  apply Finset.sum_congr rfl
  intro b hb
  rw [Finset.mem_Icc] at hb
  rw [card_weighted_two _ hw (n - a - b) n (by omega) (Or.inl (by omega)) (by omega)]
  have : Fintype.card {j // j ≠ j1} = (m - 2) / 2 := by omega
  rw [this]

theorem double_mod_eq (m x kv : Nat) (hx : x < m) (hk : kv < m) :
    (x + x) % m = kv ↔ x + x = kv ∨ x + x = kv + m := by
  rcases Nat.lt_or_ge (x + x) m with h | h
  · rw [Nat.mod_eq_of_lt h]
    omega
  · rw [Nat.mod_eq_sub_mod h, Nat.mod_eq_of_lt (by omega)]
    omega

theorem reflection_involutive (M : Nat) (k i : Fin (M + 1)) :
    dperm M (DihedralGroup.sr k) (dperm M (DihedralGroup.sr k) i) = i := by
  show k - (k - i) = i
  abel

theorem reflection_fixed_iff (M : Nat) (k i : Fin (M + 1)) :
    dperm M (DihedralGroup.sr k) i = i ↔
      i.val + i.val = k.val ∨ i.val + i.val = k.val + (M + 1) := by
  rw [← double_mod_eq (M + 1) i.val k.val i.isLt k.isLt, ← Fin.val_add]
  show k - i = i ↔ _
  rw [sub_eq_iff_eq_add]
  constructor
  · intro h
    rw [← h]
  · intro h
    exact (Fin.ext h).symm

theorem card_reflection_fixed_odd (M n : Nat) (hM : 2 ≤ M) (hodd : (M + 1) % 2 = 1)
    (k : Fin (M + 1)) :
    ((polygons (M + 1) n).filter (fun t => t ∘ dperm M (DihedralGroup.sr k) = t)).card
      = ∑ a in Finset.Icc 1 ((n - 1) / 2),
          if (n - a) % 2 = 0 then Nat.choose ((n - a) / 2 - 1) ((M + 1) / 2 - 1) else 0 := by
  let i0 : Fin (M + 1) :=
    ⟨if k.val % 2 = 0 then k.val / 2 else (k.val + (M + 1)) / 2, by
      have := k.isLt
      split <;> omega⟩
  have hi0 : i0.val = if k.val % 2 = 0 then k.val / 2 else (k.val + (M + 1)) / 2 := rfl
  have h0 : dperm M (DihedralGroup.sr k) i0 = i0 := by
    rw [reflection_fixed_iff, hi0]
    split <;> omega
  have hfix : ∀ i, dperm M (DihedralGroup.sr k) i = i → i = i0 := by
    intro i hi
    rw [reflection_fixed_iff] at hi
    apply Fin.ext
    rw [hi0]
    split <;> omega
  rw [card_fixed_one_fixed_point _ (reflection_involutive M k) i0 h0 hfix (by omega)]
  have : (M + 1 - 1) / 2 = (M + 1) / 2 := by omega
  rw [this]

theorem card_reflection_fixed_even_even (M n : Nat) (hM : 3 ≤ M) (heven : (M + 1) % 2 = 0)
    (k : Fin (M + 1)) (hk : k.val % 2 = 0) :
    ((polygons (M + 1) n).filter (fun t => t ∘ dperm M (DihedralGroup.sr k) = t)).card
      = ∑ a in Finset.Icc 1 ((n - 1) / 2), ∑ b in Finset.Icc 1 ((n - 1) / 2),
          if (n - a - b) % 2 = 0 then Nat.choose ((n - a - b) / 2 - 1) ((M + 1) / 2 - 2)
          else 0 := by
  have hklt := k.isLt
  let i0 : Fin (M + 1) := ⟨k.val / 2, by omega⟩
  let i1 : Fin (M + 1) := ⟨(k.val + (M + 1)) / 2, by omega⟩
  have hi0 : i0.val = k.val / 2 := rfl
  have hi1 : i1.val = (k.val + (M + 1)) / 2 := rfl
  have h0 : dperm M (DihedralGroup.sr k) i0 = i0 := by
    rw [reflection_fixed_iff, hi0]
    omega
  have h1 : dperm M (DihedralGroup.sr k) i1 = i1 := by
    rw [reflection_fixed_iff, hi1]
    omega
  have hne : i1 ≠ i0 := by
    intro h
    have := congrArg Fin.val h
    rw [hi0, hi1] at this
    omega
  have hfix : ∀ i, dperm M (DihedralGroup.sr k) i = i → i = i0 ∨ i = i1 := by
    intro i hi
    rw [reflection_fixed_iff] at hi
    rcases hi with hi | hi
    · left
      apply Fin.ext
      rw [hi0]
      omega
    · right
      apply Fin.ext
      rw [hi1]
      omega
  rw [card_fixed_two_fixed_points _ (reflection_involutive M k) i0 i1 h0 h1 hne hfix (by omega)]
  have : (M + 1 - 2) / 2 - 1 = (M + 1) / 2 - 2 := by omega
  rw [this]

theorem card_reflection_fixed_even_odd (M n : Nat) (hM : 3 ≤ M) (heven : (M + 1) % 2 = 0)
    (hn : 1 ≤ n) (k : Fin (M + 1)) (hk : k.val % 2 = 1) :
    ((polygons (M + 1) n).filter (fun t => t ∘ dperm M (DihedralGroup.sr k) = t)).card
      = if n % 2 = 0 then Nat.choose (n / 2 - 1) ((M + 1) / 2 - 1) else 0 := by
  have hfix : ∀ i, dperm M (DihedralGroup.sr k) i ≠ i := by
    intro i hi
    rw [reflection_fixed_iff] at hi
    omega
  rw [card_fixed_no_fixed_point _ (reflection_involutive M k) hfix (by omega) hn]

theorem sum_range_parity (B C : Nat) (h : Nat) :
    ∑ x in Finset.range (2 * h), (if x % 2 = 0 then B else C) = h * (B + C) := by
  induction h with
  | zero => simp
  | succ h ih =>
    rw [show 2 * (h + 1) = 2 * h + 1 + 1 by ring, Finset.sum_range_succ, Finset.sum_range_succ, ih,
      if_pos (by omega), if_neg (by omega)]
    ring

theorem reflection_total_odd (M n : Nat) (hM : 2 ≤ M) (hodd : (M + 1) % 2 = 1) :
    ∑ k : Fin (M + 1),
        ((polygons (M + 1) n).filter (fun t => t ∘ dperm M (DihedralGroup.sr k) = t)).card
      = (M + 1) * ∑ a in Finset.Icc 1 ((n - 1) / 2),
          if (n - a) % 2 = 0 then Nat.choose ((n - a) / 2 - 1) ((M + 1) / 2 - 1) else 0 := by
  simp only [card_reflection_fixed_odd M n hM hodd]
  rw [Finset.sum_const, Finset.card_univ, Fintype.card_fin, smul_eq_mul]

theorem reflection_total_even (M n : Nat) (hM : 3 ≤ M) (heven : (M + 1) % 2 = 0) (hn : 1 ≤ n) :
    2 * ∑ k : Fin (M + 1),
        ((polygons (M + 1) n).filter (fun t => t ∘ dperm M (DihedralGroup.sr k) = t)).card
      = (M + 1) * ((if n % 2 = 0 then Nat.choose (n / 2 - 1) ((M + 1) / 2 - 1) else 0)
        + ∑ a in Finset.Icc 1 ((n - 1) / 2), ∑ b in Finset.Icc 1 ((n - 1) / 2),
          if (n - a - b) % 2 = 0 then Nat.choose ((n - a - b) / 2 - 1) ((M + 1) / 2 - 2)
          else 0) := by
  have hterm : ∀ k : Fin (M + 1),
      ((polygons (M + 1) n).filter (fun t => t ∘ dperm M (DihedralGroup.sr k) = t)).card
        = if k.val % 2 = 0 then
            (∑ a in Finset.Icc 1 ((n - 1) / 2), ∑ b in Finset.Icc 1 ((n - 1) / 2),
              if (n - a - b) % 2 = 0 then Nat.choose ((n - a - b) / 2 - 1) ((M + 1) / 2 - 2)
              else 0)
          else (if n % 2 = 0 then Nat.choose (n / 2 - 1) ((M + 1) / 2 - 1) else 0) := by
    intro k
    by_cases hk : k.val % 2 = 0
    · rw [if_pos hk, card_reflection_fixed_even_even M n hM heven k hk]
    · rw [if_neg hk, card_reflection_fixed_even_odd M n hM heven hn k (by omega)]
  simp only [hterm]
  rw [Fin.sum_univ_eq_sum_range (fun x => if x % 2 = 0 then
            (∑ a in Finset.Icc 1 ((n - 1) / 2), ∑ b in Finset.Icc 1 ((n - 1) / 2),
              if (n - a - b) % 2 = 0 then Nat.choose ((n - a - b) / 2 - 1) ((M + 1) / 2 - 2)
              else 0)
          else (if n % 2 = 0 then Nat.choose (n / 2 - 1) ((M + 1) / 2 - 1) else 0)) (M + 1)]
  obtain ⟨h, hh⟩ : ∃ h, M + 1 = 2 * h := ⟨(M + 1) / 2, by omega⟩
  rw [hh, sum_range_parity]
  ring

/-! ## The polygon count -/

theorem burnside_count (M n : Nat) :
    polygon_count (M + 1) n * (2 * (M + 1))
      = ∑ k : Fin (M + 1),
          ((polygons (M + 1) n).filter (fun t => t ∘ dperm M (DihedralGroup.r k) = t)).card
        + ∑ k : Fin (M + 1),
          ((polygons (M + 1) n).filter (fun t => t ∘ dperm M (DihedralGroup.sr k) = t)).card := by
  classical
  rw [polygon_count_eq_orbits M n, orbit_count_mul M n]

theorem numerator_eq_count (m n : Nat) (hm : 3 ≤ m) (hmn : m ≤ n) (hn : n < 4294967296)
    (hm2 : m < 2147483648) :
    numerator m n = .ok (4 * (m : Int) * (polygon_count m n : Int)) := by
  obtain ⟨M, rfl⟩ : ∃ M, m = M + 1 := ⟨m - 1, by omega⟩
  have hB := burnside_count M n
  have hrot := rotation_total M n (by omega) hmn
  refine Eq.trans (numerator_eq (M + 1) n hm hmn hn (by omega)) ?_
  apply congrArg
  rw [divisorSum_clean (M + 1) n (by omega) hm2, wrap_of_lt _ (by omega),
    Nat.add_sub_cancel]
  by_cases hodd : (M + 1) % 2 = 1
  · have hrefl : _ = (M + 1) * oddSum (M + 1) n := reflection_total_odd M n (by omega) hodd
    rw [if_pos hodd]
    zify at hB hrot hrefl ⊢
    rw [hrefl] at hB
    linear_combination (-2) * hrot + (-2) * hB
  · have hrefl : _ = (M + 1) * evenSum (M + 1) n :=
      reflection_total_even M n (by omega) (by omega) (by omega)
    rw [if_neg hodd]
    zify at hB hrot hrefl ⊢
    linear_combination (-2) * hrot + (-2) * hB + (-1) * hrefl

theorem mem_triangles (n : Nat) (p : Nat × Nat × Nat) :
    p ∈ triangles n ↔ 1 ≤ p.1 ∧ p.1 ≤ p.2.1 ∧ p.2.1 ≤ p.2.2 ∧ p.1 + p.2.1 + p.2.2 = n
      ∧ p.2.2 < p.1 + p.2.1 := by
  unfold triangles
  simp only [Finset.mem_filter, Finset.mem_product, Finset.mem_Icc, gt_iff_lt]
  constructor
  · rintro ⟨⟨⟨h1, _⟩, _, _⟩, h2, h3, h4, h5⟩
    exact ⟨h1, h2, h3, h4, h5⟩
  · rintro ⟨h1, h2, h3, h4, h5⟩
    exact ⟨⟨⟨h1, by omega⟩, ⟨by omega, by omega⟩, ⟨by omega, by omega⟩⟩, h2, h3, h4, h5⟩

theorem same_polygon_refl (M : Nat) (t : Fin (M + 1) → Nat) : same_polygon t t := by
  rw [same_polygon_iff]
  exact ⟨1, funext fun i => (congrArg t (dperm_one M i)).symm⟩

theorem same_polygon_symm (M : Nat) (t t' : Fin (M + 1) → Nat) (h : same_polygon t t') :
    same_polygon t' t := by
  rw [same_polygon_iff] at h ⊢
  obtain ⟨g, rfl⟩ := h
  refine ⟨g⁻¹, funext fun i => ?_⟩
  show t i = t (dperm M g (dperm M g⁻¹ i))
  rw [← dperm_mul, inv_mul_cancel, dperm_one]

theorem same_polygon_trans (M : Nat) (t t' t'' : Fin (M + 1) → Nat) (h : same_polygon t t')
    (h' : same_polygon t' t'') : same_polygon t t'' := by
  rw [same_polygon_iff] at h h' ⊢
  obtain ⟨g, rfl⟩ := h
  obtain ⟨g', rfl⟩ := h'
  refine ⟨g' * g, funext fun i => ?_⟩
  show t (dperm M g (dperm M g' i)) = t (dperm M (g' * g) i)
  rw [dperm_mul]

theorem class_eq_iff (M n : Nat) (x y : Fin (M + 1) → Nat) (hy : y ∈ polygons (M + 1) n) :
    (polygons (M + 1) n).filter (fun t => same_polygon x t)
      = (polygons (M + 1) n).filter (fun t => same_polygon y t) ↔ same_polygon x y := by
  constructor
  · intro h
    have hmem : y ∈ (polygons (M + 1) n).filter (fun t => same_polygon y t) :=
      Finset.mem_filter.2 ⟨hy, same_polygon_refl M y⟩
    rw [← h] at hmem
    exact (Finset.mem_filter.1 hmem).2
  · intro h
    ext z
    simp only [Finset.mem_filter]
    constructor
    · rintro ⟨hz, hxz⟩
      exact ⟨hz, same_polygon_trans M y x z (same_polygon_symm M x y h) hxz⟩
    · rintro ⟨hz, hyz⟩
      exact ⟨hz, same_polygon_trans M x y z h hyz⟩

theorem triple_mem_polygons (n a b c : Nat) (h : (a, b, c) ∈ triangles n) :
    ![a, b, c] ∈ polygons 3 n := by
  rw [mem_triangles] at h
  obtain ⟨h1, h2, h3, h4, h5⟩ := h
  simp only at h1 h2 h3 h4 h5
  rw [mem_polygons]
  refine ⟨?_, ?_, ?_⟩
  · intro i
    fin_cases i <;> simp <;> omega
  · rw [Fin.sum_univ_three]
    simp
    omega
  · intro i
    fin_cases i <;> simp <;> omega

theorem sorted_triple_unique (a b c a' b' c' : Nat) (h1 : a ≤ b) (h2 : b ≤ c) (h1' : a' ≤ b')
    (h2' : b' ≤ c') (h : same_polygon ![a, b, c] ![a', b', c']) :
    a = a' ∧ b = b' ∧ c = c' := by
  obtain ⟨k, hk, h | h⟩ := h
  all_goals
    rw [Finset.mem_range] at hk
    have e0 := congrFun h 0
    have e1 := congrFun h 1
    have e2 := congrFun h 2
    interval_cases k <;>
      simp [rotate, reverse, Fin.rev] at e0 e1 e2 <;> omega

theorem rotate_three (k : Nat) (t : Fin 3 → Nat) (i : Fin 3) :
    rotate k t i = t ⟨(i.val + k) % 3, Nat.mod_lt _ (by decide)⟩ := rfl

theorem exists_sorted_triple (n : Nat) (t : Fin 3 → Nat) (ht : t ∈ polygons 3 n) :
    ∃ p ∈ triangles n, same_polygon ![p.1, p.2.1, p.2.2] t := by
  rw [mem_polygons] at ht
  obtain ⟨h1, h2, h3⟩ := ht
  rw [Fin.sum_univ_three] at h2
  have p0 := h1 0
  have p1 := h1 1
  have p2 := h1 2
  have q0 := h3 0
  have q1 := h3 1
  have q2 := h3 2
  have key : ∀ (a b c : Nat) (k : Nat), k < 3 → a ≤ b → b ≤ c →
      a + b + c = n → 1 ≤ a → c < a + b →
      (t = rotate k ![a, b, c] ∨ t = rotate k (reverse ![a, b, c])) →
      ∃ p ∈ triangles n, same_polygon ![p.1, p.2.1, p.2.2] t := by
    intro a b c k hk hab hbc hsum ha hc hrot
    refine ⟨(a, b, c), ?_, k, Finset.mem_range.2 hk, hrot⟩
    rw [mem_triangles]
    exact ⟨ha, hab, hbc, hsum, hc⟩
  rcases le_total (t 0) (t 1) with h01 | h01 <;> rcases le_total (t 1) (t 2) with h12 | h12 <;>
    rcases le_total (t 0) (t 2) with h02 | h02
  · refine key (t 0) (t 1) (t 2) 0 (by omega) h01 h12 (by omega) p0 (by omega) (Or.inl ?_)
    funext i
    fin_cases i <;> rfl
  · refine key (t 0) (t 1) (t 2) 0 (by omega) h01 h12 (by omega) p0 (by omega) (Or.inl ?_)
    funext i
    fin_cases i <;> rfl
  · refine key (t 0) (t 2) (t 1) 2 (by omega) h02 h12 (by omega) p0 (by omega) (Or.inr ?_)
    funext i
    fin_cases i <;> rfl
  · refine key (t 2) (t 0) (t 1) 1 (by omega) h02 h01 (by omega) p2 (by omega) (Or.inl ?_)
    funext i
    fin_cases i <;> rfl
  · refine key (t 1) (t 0) (t 2) 1 (by omega) h01 h02 (by omega) p1 (by omega) (Or.inr ?_)
    funext i
    fin_cases i <;> rfl
  · refine key (t 1) (t 2) (t 0) 2 (by omega) h12 h02 (by omega) p1 (by omega) (Or.inl ?_)
    funext i
    fin_cases i <;> rfl
  · refine key (t 2) (t 1) (t 0) 0 (by omega) h12 h01 (by omega) p2 (by omega) (Or.inr ?_)
    funext i
    fin_cases i <;> rfl
  · refine key (t 2) (t 1) (t 0) 0 (by omega) h12 h01 (by omega) p2 (by omega) (Or.inr ?_)
    funext i
    fin_cases i <;> rfl

theorem polygon_count_three (n : Nat) : polygon_count 3 n = (triangles n).card := by
  symm
  unfold polygon_count
  apply Finset.card_bij
    (fun p _ => (polygons 3 n).filter (fun t => same_polygon ![p.1, p.2.1, p.2.2] t))
  · intro p hp
    exact Finset.mem_image.2 ⟨![p.1, p.2.1, p.2.2], triple_mem_polygons n _ _ _ hp, rfl⟩
  · intro p hp q hq h
    have hq' := triple_mem_polygons n _ _ _ hq
    have hsame := (class_eq_iff 2 n _ _ hq').1 h
    rw [mem_triangles] at hp hq
    obtain ⟨e1, e2, e3⟩ := sorted_triple_unique _ _ _ _ _ _ hp.2.1 hp.2.2.1 hq.2.1 hq.2.2.1 hsame
    exact Prod.ext e1 (Prod.ext e2 e3)
  · intro c hc
    obtain ⟨t, ht, rfl⟩ := Finset.mem_image.1 hc
    obtain ⟨p, hp, hsame⟩ := exists_sorted_triple n t ht
    exact ⟨p, hp, (class_eq_iff 2 n _ _ ht).2 hsame⟩

/-- C4: for every 32-bit `n ≥ 3`, `compute_mgon 3 n` returns the number of triples
`a ≤ b ≤ c` of positive integers with `a + b + c = n` and `a + b > c`; in particular
`compute_mgon 3 3 = 1`, `compute_mgon 3 4 = 0` and `compute_mgon 3 5 = 1`. -/
theorem compute_mgon_three_counts_triangles (n : Nat) (hn : 3 ≤ n) (hlt : n < 4294967296) :
    compute_mgon 3 n = .ok (((triangles n).card : Nat) : Int) ∧
      compute_mgon 3 3 = .ok 1 ∧ compute_mgon 3 4 = .ok 0 ∧ compute_mgon 3 5 = .ok 1 := by
  refine ⟨?_, by decide, by decide, by decide⟩
  rw [← polygon_count_three]
  exact compute_mgon_of_numerator_multiple 3 n _ (by decide) (by decide)
    (numerator_eq_count 3 n (le_refl 3) hn hlt (by decide))

theorem compute_mgon_three_counts_triangles_witness :
    3 ≤ 7 ∧ 7 < 4294967296 ∧
      (compute_mgon 3 7 = .ok (((triangles 7).card : Nat) : Int) ∧
        compute_mgon 3 3 = .ok 1 ∧ compute_mgon 3 4 = .ok 0 ∧ compute_mgon 3 5 = .ok 1) :=
  ⟨by decide, by decide, compute_mgon_three_counts_triangles 7 (by decide) (by decide)⟩

theorem polygon_count_of_compute_mgon (m n r : Nat) (hm : 3 ≤ m) (hmn : m ≤ n)
    (hn : n < 4294967296) (h4 : 4 * m < 4294967296) (h : compute_mgon m n = .ok (r : Int)) :
    polygon_count m n = r := by
  have hc := compute_mgon_of_numerator_multiple m n _ (by omega) h4
    (numerator_eq_count m n hm hmn hn (by omega))
  rw [h] at hc
  have := Except.ok.inj hc
  exact_mod_cast this.symm

/-- C5, as stated, fails at perimeter 5: the sweep's total is not 2. -/
theorem main_sum_five_is_not_two : main_sum 5 ≠ .ok 2 := by decide

/-- C5, amended: the sum of `compute_mgon m n` over `3 ≤ m ≤ n` accumulated by `main` is 1
for `n = 3`, 1 for `n = 4` and 3 for `n = 5` (a triangle, a quadrilateral and a pentagon);
these are the numbers of polygons of the specification for these perimeters. -/
theorem main_sum_small_perimeters :
    main_sum 3 = .ok 1 ∧ main_sum 4 = .ok 1 ∧ main_sum 5 = .ok 3 ∧
      polygon_count 3 3 = 1 ∧
      polygon_count 3 4 + polygon_count 4 4 = 1 ∧
      polygon_count 3 5 + polygon_count 4 5 + polygon_count 5 5 = 3 := by
  have h33 := polygon_count_of_compute_mgon 3 3 1 (by decide) (by decide) (by decide) (by decide)
    (by decide)
  have h34 := polygon_count_of_compute_mgon 3 4 0 (by decide) (by decide) (by decide) (by decide)
    (by decide)
  have h44 := polygon_count_of_compute_mgon 4 4 1 (by decide) (by decide) (by decide) (by decide)
    (by decide)
  have h35 := polygon_count_of_compute_mgon 3 5 1 (by decide) (by decide) (by decide) (by decide)
    (by decide)
  have h45 := polygon_count_of_compute_mgon 4 5 1 (by decide) (by decide) (by decide) (by decide)
    (by decide)
  have h55 := polygon_count_of_compute_mgon 5 5 1 (by decide) (by decide) (by decide) (by decide)
    (by decide)
  refine ⟨by decide, by decide, by decide, h33, ?_, ?_⟩
  · rw [h34, h44]
  · rw [h35, h45, h55]

theorem compute_mgon_exact_nonneg (m n : Nat) (r : Int) (hm : 3 ≤ m) (hmn : m ≤ n)
    (hn : n < 4294967296) (hr : compute_mgon m n = .ok r) : 0 ≤ r := by
  obtain ⟨num, hnum⟩ := compute_mgon_ok_numerator m n r hr
  have hpos := numerator_nonneg m n num hm hmn hn hnum
  rw [compute_mgon_eq m n num hnum] at hr
  by_cases hz : wrap (4 * m) = 0
  · rw [if_pos hz] at hr
    cases hr
  · rw [if_neg hz] at hr
    by_cases hmod : Int.tmod num ((wrap (4 * m) : Nat) : Int) ≠ 0
    · rw [if_pos hmod] at hr
      cases hr
    · rw [if_neg hmod] at hr
      cases hr
      exact Int.tdiv_nonneg hpos (Int.natCast_nonneg _)

/-! ## The loop of `binom`, iteration by iteration -/

theorem for_le_top_error {σ : Type} (body : Nat → σ → Except Failure σ) (hi : Nat)
    (hhi : 4294967295 ≤ hi) (e : Failure)
    (hok : ∀ i s, 1 ≤ i → i < 4294967296 → ∃ s', body i s = .ok s')
    (hzero : ∀ s, body 0 s = .error e) :
    ∀ (fuel i : Nat) (s : σ), 1 ≤ i → i < 4294967296 → 4294967296 < fuel + i →
      for_le body hi fuel i s = .error e := by
  intro fuel
  induction fuel with
  | zero =>
    intro i s _ h2 h3
    omega
  | succ f ih =>
    intro i s h1 h2 h3
    have hle : i ≤ hi := by omega
    obtain ⟨s', hs'⟩ := hok i s h1 h2
    simp only [for_le, if_pos hle, hs']
    rcases Nat.lt_or_ge (i + 1) 4294967296 with hlt | hge
    · rw [wrap_of_lt _ hlt]
      exact ih (i + 1) s' (by omega) hlt (by omega)
    · have hw : wrap (i + 1) = 0 := by
        unfold wrap
        omega
      obtain ⟨f', rfl⟩ : ∃ f', f = f' + 1 := ⟨f - 1, by omega⟩
      rw [hw]
      simp only [for_le, if_pos (Nat.zero_le hi), hzero s']

theorem for_le_split {σ : Type} (body : Nat → σ → Except Failure σ) (hi : Nat) :
    ∀ (k j : Nat) (s st : σ) (f : Nat),
      (List.range' j k).foldlM (fun s i => body i s) s = .ok st →
      j + k ≤ hi + 1 → j + k < 4294967296 →
      for_le body hi (f + k) j s = for_le body hi f (j + k) st := by
  intro k
  induction k with
  | zero =>
    intro j s st f h _ _
    have hs : s = st := by
      simp only [List.range'_zero, List.foldlM_nil, pure, Except.pure] at h
      exact Except.ok.inj h
    rw [hs]
    rfl
  | succ k ih =>
    intro j s st f h h1 h2
    rw [List.range'_succ, List.foldlM_cons] at h
    have hle : j ≤ hi := by omega
    have hw : wrap (j + 1) = j + 1 := wrap_of_lt _ (by omega)
    cases hb : body j s with
    | error e =>
      rw [hb] at h
      cases h
    | ok s' =>
      rw [hb] at h
      have h' : (List.range' (j + 1) k).foldlM (fun s i => body i s) s' = .ok st := h
      have hfuel : f + (k + 1) = (f + k) + 1 := by omega
      rw [hfuel]
      simp only [for_le, if_pos hle, hb, hw]
      rw [ih (j + 1) s' st f h' (by omega) (by omega)]
      congr 1
      omega

theorem binom_step_choose (N j b : Nat) (hb : j ≤ N → b = N - j) :
    binom_step (j + 1) (b, ((Nat.choose N j : Nat) : Int))
      = .ok (usub b 1, ((Nat.choose N (j + 1) : Nat) : Int)) ∧
    ((j + 1 : Nat) : Int) * ((Nat.choose N (j + 1) : Nat) : Int)
      = ((Nat.choose N j : Nat) : Int) * (b : Int) := by
  have hmul : (j + 1) * Nat.choose N (j + 1) = Nat.choose N j * b := by
    rcases Nat.lt_or_ge N j with hlt | hle
    · rw [Nat.choose_eq_zero_of_lt hlt, Nat.choose_eq_zero_of_lt (by omega : N < j + 1)]
      simp
    · rw [hb hle, ← Nat.choose_succ_right_eq]
      ring
  have hstep : Int.tdiv (((Nat.choose N j : Nat) : Int) * (b : Int)) ((j + 1 : Nat) : Int)
      = ((Nat.choose N (j + 1) : Nat) : Int) := by
    rw [← Nat.cast_mul, tdiv_natCast, ← hmul]
    congr 1
    exact Nat.mul_div_cancel_left _ (Nat.succ_pos j)
  refine ⟨?_, by exact_mod_cast hmul⟩
  unfold binom_step
  rw [if_neg (Nat.succ_ne_zero j)]
  exact congrArg (fun z => Except.ok (usub b 1, z)) hstep

theorem binom_fold_state (N : Nat) (hN : N < 4294967296) : ∀ (k j : Nat),
    j + k ≤ 4294967296 →
    (List.range' (j + 1) k).foldlM (fun st i => binom_step i st)
        ((N + 4294967296 - j) % 4294967296, ((Nat.choose N j : Nat) : Int))
      = .ok ((N + 4294967296 - (j + k)) % 4294967296,
          ((Nat.choose N (j + k) : Nat) : Int)) := by
  intro k
  induction k with
  | zero => intro j _; rfl
  | succ k ih =>
    intro j hjk
    have hbody := (binom_step_choose N j ((N + 4294967296 - j) % 4294967296)
      (by intro h; omega)).1
    have hnext : usub ((N + 4294967296 - j) % 4294967296) 1
        = (N + 4294967296 - (j + 1)) % 4294967296 := by
      unfold usub
      omega
    rw [hnext] at hbody
    rw [List.range'_succ, List.foldlM_cons, hbody]
    change List.foldlM _ ((N + 4294967296 - (j + 1)) % 4294967296,
      ((Nat.choose N (j + 1) : Nat) : Int)) _ = _
    rw [ih (j + 1) (by omega), show j + 1 + k = j + (k + 1) by omega]

theorem binom_loop_state (bn bd : Nat) (hbn : bn < 4294967296) (hbd : bd < 4294967295) :
    for_le binom_step bd (bd + 1) 1 (bn, 1)
      = .ok ((bn + 4294967296 - bd) % 4294967296, ((Nat.choose bn bd : Nat) : Int)) := by
  have h := binom_fold_state bn hbn bd 0 (by omega)
  have h0 : (bn + 4294967296 - 0) % 4294967296 = bn := by omega
  rw [h0] at h
  simp only [Nat.choose_zero_right, Nat.cast_one, Nat.zero_add] at h
  rw [for_le_eq_foldlM binom_step bd hbd bd 1 _ (by omega) (bd + 1) (by omega)]
  exact h

theorem binom_top_error (bn bd : Nat) (hbd : 4294967295 ≤ bd) :
    binom bn bd = .error .zero_divisor := by
  have h := for_le_top_error binom_step bd hbd .zero_divisor
    (by
      intro i s h1 _
      refine ⟨(usub s.1 1, Int.tdiv (s.2 * (s.1 : Int)) (i : Int)), ?_⟩
      unfold binom_step
      rw [if_neg (by omega)])
    (by
      intro s
      unfold binom_step
      rw [if_pos rfl])
    (bd + 1) 1 (bn, 1) (le_refl 1) (by omega) (by omega)
  unfold binom
  rw [h]

/-! ## Claims about `binom` -/

/-- C11, as stated, fails at `bn = bd = 2 ^ 32 - 1`: the test `i <= bd` holds for every
`unsigned` value, the counter `i` wraps to 0 and `res /= i` is a quotient by zero, so
`binom` does not return 1, the binomial coefficient. -/
theorem binom_fails_at_largest_word :
    binom 4294967295 4294967295 = .error .zero_divisor ∧
      binom 4294967295 4294967295 ≠ .ok 1 := by
  have h := binom_top_error 4294967295 4294967295 (le_refl _)
  refine ⟨h, ?_⟩
  rw [h]
  intro h'
  cases h'

/-- C11, amended: with exact multiprecision arithmetic, for 32-bit `bn` and `bd` with
`bd ≤ bn` and `bd` below `2 ^ 32 - 1`, `binom bn bd` returns the binomial coefficient
`bn! / (bd! * (bn - bd)!)`; in particular `binom n 0` is 1 for every 32-bit `n` and
`binom n n` is 1 for every `n` below `2 ^ 32 - 1`. -/
theorem binom_is_choose (bn bd : Nat) (hle : bd ≤ bn) (hbn : bn < 4294967296)
    (hbd : bd < 4294967295) :
    binom bn bd = .ok ((Nat.choose bn bd : Nat) : Int) ∧
      binom bn bd
        = .ok ((Nat.factorial bn / (Nat.factorial bd * Nat.factorial (bn - bd)) : Nat) : Int) ∧
      (∀ n, n < 4294967296 → binom n 0 = .ok 1) ∧
      (∀ n, n < 4294967295 → binom n n = .ok 1) := by
  have h := binom_eq_choose bn bd hbn hbd
  refine ⟨h, ?_, ?_, ?_⟩
  · rw [h, Nat.choose_eq_factorial_div_factorial hle]
  · intro n hn
    rw [binom_eq_choose n 0 hn (by omega), Nat.choose_zero_right]
    rfl
  · intro n hn
    rw [binom_eq_choose n n (by omega) hn, Nat.choose_self]
    rfl

theorem binom_is_choose_witness :
    2 ≤ 5 ∧ 5 < 4294967296 ∧ 2 < 4294967295 ∧ binom 5 2 = .ok 10 :=
  ⟨by decide, by decide, by decide,
    (binom_is_choose 5 2 (by decide) (by decide) (by decide)).1⟩

/-- C12, as stated, fails at `bn = 0`, `bd = 2 ^ 32 - 1`: the counter `i` wraps to 0 and
`res /= i` is a quotient by zero, an error and not the value 0. -/
theorem binom_error_at_largest_word :
    binom 0 4294967295 = .error .zero_divisor ∧ binom 0 4294967295 ≠ .ok 0 := by
  have h := binom_top_error 0 4294967295 (le_refl _)
  refine ⟨h, ?_⟩
  rw [h]
  intro h'
  cases h'

/-- C12, amended: for 32-bit `bn < bd` with `bd` below `2 ^ 32 - 1`, `binom bn bd` returns
0 and no error; its loop ends with the product 0 and with the `unsigned` counter `bn`
wrapped below zero, at `bn + 2 ^ 32 - bd`. -/
theorem binom_zero_when_bn_lt_bd (bn bd : Nat) (hlt : bn < bd) (hbd : bd < 4294967295) :
    binom bn bd = .ok 0 ∧
      for_le binom_step bd (bd + 1) 1 (bn, 1) = .ok (bn + 4294967296 - bd, 0) := by
  have hz : ((Nat.choose bn bd : Nat) : Int) = 0 := by
    rw [Nat.choose_eq_zero_of_lt hlt]
    rfl
  have h := binom_eq_choose bn bd (by omega) hbd
  have hs := binom_loop_state bn bd (by omega) hbd
  have hmod : (bn + 4294967296 - bd) % 4294967296 = bn + 4294967296 - bd := by omega
  rw [hz] at h hs
  rw [hmod] at hs
  exact ⟨h, hs⟩

theorem binom_zero_when_bn_lt_bd_witness :
    2 < 4 ∧ 4 < 4294967295 ∧ binom 2 4 = .ok 0 ∧
      for_le binom_step 4 (4 + 1) 1 (2, 1) = .ok (2 + 4294967296 - 4, 0) :=
  ⟨by decide, by decide, binom_zero_when_bn_lt_bd 2 4 (by decide) (by decide)⟩

/-! ## The arguments of the calls of `binom` -/

theorem half_pred_bound (n : Nat) (hn : 3 ≤ n) (hlt : n < 4294967296) :
    usub n 1 / 2 = (n - 1) / 2 ∧ (n - 1) / 2 < n := by
  rw [usub_one n (by omega) hlt]
  exact ⟨rfl, by omega⟩

/-- C14: for `3 ≤ m ≤ n` (32-bit values), every argument of a call of `binom` in
`compute_mgon m n` is computed without wrap-around, that is, the `unsigned` difference
is the difference of the integers (so it is not negative): `n/d - 1` and `m/d - 1` for
the divisors `d` of the gcd, `m - 1`, `n - i`, `(n-i)/2 - 1` and `m/2 - 1` in the odd
case where the parity test passes, `n/2 - 1`, `n - i - j`, `bn/2 - 1` and `m/2 - 2` in
the even case; and each step of the three loops is the call of `binom` with these
differences. -/
theorem binom_arguments_do_not_wrap (m n : Nat) (hm : 3 ≤ m) (hmn : m ≤ n)
    (hn : n < 4294967296) :
    (∀ d, 1 ≤ d → d ≤ Nat.gcd m n → Nat.gcd m n % d = 0 →
      ((usub (n / d) 1 : Nat) : Int) = ((n / d : Nat) : Int) - 1 ∧
      ((usub (m / d) 1 : Nat) : Int) = ((m / d : Nat) : Int) - 1 ∧
      ∀ num, divisor_step m n (Nat.gcd m n) d num
        = (totient d).bind (fun t => (binom (n / d - 1) (m / d - 1)).bind
            (fun b => .ok (num + ((wrap (2 * t) : Nat) : Int) * b)))) ∧
    ((usub m 1 : Nat) : Int) = (m : Int) - 1 ∧
    (m % 2 = 1 → ∀ i, 1 ≤ i → i ≤ usub n 1 / 2 → wrap (n + i) % 2 ≠ 1 →
      ((usub n i : Nat) : Int) = (n : Int) - (i : Int) ∧
      ((usub (usub n i / 2) 1 : Nat) : Int) = (((n - i) / 2 : Nat) : Int) - 1 ∧
      ((usub (m / 2) 1 : Nat) : Int) = ((m / 2 : Nat) : Int) - 1 ∧
      ∀ msum, odd_step m n i msum
        = (binom ((n - i) / 2 - 1) (m / 2 - 1)).bind (fun b => .ok (msum + b))) ∧
    (m % 2 = 0 →
      (n % 2 = 0 →
        ((usub (n / 2) 1 : Nat) : Int) = ((n / 2 : Nat) : Int) - 1 ∧
        ((usub (m / 2) 1 : Nat) : Int) = ((m / 2 : Nat) : Int) - 1 ∧
        even_first m n = (binom (n / 2 - 1) (m / 2 - 1)).bind (fun b => .ok (0 + b))) ∧
      ∀ i j, 1 ≤ i → i ≤ usub n 1 / 2 → 1 ≤ j → j ≤ usub n 1 / 2 →
        ((usub (usub n i) j : Nat) : Int) = (n : Int) - (i : Int) - (j : Int) ∧
        (usub (usub n i) j % 2 ≠ 1 →
          ((usub (usub (usub n i) j / 2) 1 : Nat) : Int)
            = (((n - i - j) / 2 : Nat) : Int) - 1 ∧
          ((usub (m / 2) 2 : Nat) : Int) = ((m / 2 : Nat) : Int) - 2 ∧
          ∀ msum, even_step m n i j msum
            = (binom ((n - i - j) / 2 - 1) (m / 2 - 2)).bind (fun b => .ok (msum + b)))) := by
  obtain ⟨hhalf, hhalf'⟩ := half_pred_bound n (by omega) hn
  refine ⟨?_, ?_, ?_, ?_⟩
  · intro d hd1 _ hmod
    have hdg : d ∣ Nat.gcd m n := Nat.dvd_of_mod_eq_zero hmod
    have hdm : d ∣ m := dvd_trans hdg (Nat.gcd_dvd_left m n)
    have hdle : d ≤ m := Nat.le_of_dvd (by omega) hdm
    have hmd : 0 < m / d := Nat.div_pos hdle (by omega)
    have hnd : 0 < n / d := Nat.div_pos (by omega) (by omega)
    have hmd' : m / d ≤ m := Nat.div_le_self m d
    have hnd' : n / d ≤ n := Nat.div_le_self n d
    have e1 : usub (n / d) 1 = n / d - 1 := usub_one _ hnd (by omega)
    have e2 : usub (m / d) 1 = m / d - 1 := usub_one _ hmd (by omega)
    refine ⟨?_, ?_, ?_⟩
    · rw [e1]
      omega
    · rw [e2]
      omega
    · intro num
      unfold divisor_step
      rw [if_neg (by omega : ¬ d = 0), if_neg (by omega : ¬ Nat.gcd m n % d ≠ 0), e1, e2]
      rfl
  · rw [usub_one m (by omega) (by omega)]
    omega
  · intro _ i hi1 hi2 hpar
    rw [hhalf] at hi2
    rw [wrap_mod_two] at hpar
    have e0 : usub n i = n - i := usub_of_le n i (by omega) hn
    have e1 : usub (usub n i / 2) 1 = (n - i) / 2 - 1 := by
      rw [e0]
      exact usub_one _ (by omega) (by omega)
    have e2 : usub (m / 2) 1 = m / 2 - 1 := usub_one _ (by omega) (by omega)
    refine ⟨?_, ?_, ?_, ?_⟩
    · rw [e0]
      omega
    · rw [e1]
      omega
    · rw [e2]
      omega
    · intro msum
      unfold odd_step
      rw [wrap_mod_two, if_neg hpar, e1, e2]
      rfl
  · intro heven
    have e2 : usub (m / 2) 1 = m / 2 - 1 := usub_one _ (by omega) (by omega)
    have e3 : usub (m / 2) 2 = m / 2 - 2 := usub_of_le _ _ (by omega) (by omega)
    refine ⟨?_, ?_⟩
    · intro hpar
      have e1 : usub (n / 2) 1 = n / 2 - 1 := usub_one _ (by omega) (by omega)
      refine ⟨?_, ?_, ?_⟩
      · rw [e1]
        omega
      · rw [e2]
        omega
      · unfold even_first
        rw [if_pos hpar, e1, e2]
    · intro i j hi1 hi2 hj1 hj2
      rw [hhalf] at hi2 hj2
      have e0 : usub n i = n - i := usub_of_le n i (by omega) hn
      have e1 : usub (usub n i) j = n - i - j := by
        rw [e0]
        exact usub_of_le _ _ (by omega) (by omega)
      refine ⟨?_, ?_⟩
      · rw [e1]
        omega
      · intro hpar
        rw [e1] at hpar
        have e4 : usub (usub (usub n i) j / 2) 1 = (n - i - j) / 2 - 1 := by
          rw [e1]
          exact usub_one _ (by omega) (by omega)
        refine ⟨?_, ?_, ?_⟩
        · rw [e4]
          omega
        · rw [e3]
          omega
        · intro msum
          have e5 : usub ((n - i - j) / 2) 1 = (n - i - j) / 2 - 1 :=
            usub_one _ (by omega) (by omega)
          unfold even_step
          rewrite [e1, if_neg hpar, e5, e3]
          rfl

theorem binom_arguments_do_not_wrap_witness :
    3 ≤ 6 ∧ 6 ≤ 12 ∧ 12 < 4294967296 ∧
      ((usub (12 / 3) 1 : Nat) : Int) = ((12 / 3 : Nat) : Int) - 1 ∧
      ((usub (6 / 3) 1 : Nat) : Int) = ((6 / 3 : Nat) : Int) - 1 :=
  ⟨by decide, by decide, by decide,
    ((binom_arguments_do_not_wrap 6 12 (by decide) (by decide) (by decide)).1 3 (by decide)
      (by decide) (by decide)).1,
    ((binom_arguments_do_not_wrap 6 12 (by decide) (by decide) (by decide)).1 3 (by decide)
      (by decide) (by decide)).2.1⟩

/-! ## Every loop of `compute_mgon` ends -/

theorem error_bind {α β : Type} (e : Failure) (f : α → Except Failure β) :
    (Except.error e >>= f) = Except.error e := rfl

theorem ok_bind_apply {α β : Type} (a : α) (f : α → Except Failure β) :
    (Except.ok a : Except Failure α).bind f = f a := rfl

theorem foldlM_ok {σ : Type} (body : Nat → σ → Except Failure σ) :
    ∀ (l : List Nat), (∀ i ∈ l, ∀ s, ∃ s', body i s = .ok s') →
      ∀ s, ∃ r, l.foldlM (fun s i => body i s) s = .ok r := by
  intro l
  induction l with
  | nil => intro _ s; exact ⟨s, rfl⟩
  | cons x xs ih =>
    intro h s
    obtain ⟨s', hs'⟩ := h x (List.mem_cons_self _ _) s
    obtain ⟨r, hr⟩ := ih (fun i hi => h i (List.mem_cons_of_mem _ hi)) s'
    refine ⟨r, ?_⟩
    rw [List.foldlM_cons, hs']
    exact hr

theorem for_le_ok {σ : Type} (body : Nat → σ → Except Failure σ) (hi : Nat)
    (hhi : hi < 4294967295) (h : ∀ i, 1 ≤ i → i ≤ hi → ∀ s, ∃ s', body i s = .ok s')
    (s : σ) : ∃ r, for_le body hi (hi + 1) 1 s = .ok r := by
  rw [for_le_eq_foldlM body hi hhi hi 1 s (by omega) (hi + 1) (by omega)]
  apply foldlM_ok
  intro i hi' s'
  rw [List.mem_range'_1] at hi'
  exact h i hi'.1 (by omega) s'

theorem binom_ok (bn bd : Nat) (hbn : bn < 4294967296) (hbd : bd < 4294967295) :
    ∃ v, binom bn bd = .ok v :=
  ⟨_, binom_eq_choose bn bd hbn hbd⟩

theorem totient_ok (z : Nat) : ∃ r, totient z = .ok r :=
  ⟨_, totient_eq_count z⟩

theorem divisor_step_ok (m n d : Nat) (hm : 1 ≤ m) (hm' : m < 4294967296) (hd : 1 ≤ d)
    (num : Int) : ∃ num', divisor_step m n (Nat.gcd m n) d num = .ok num' := by
  unfold divisor_step
  rw [if_neg (by omega : ¬ d = 0)]
  by_cases hdvd : Nat.gcd m n % d ≠ 0
  · rw [if_pos hdvd]
    exact ⟨num, rfl⟩
  · have h0 : Nat.gcd m n % d = 0 := not_not.mp hdvd
    have hdm : d ∣ m := dvd_trans (Nat.dvd_of_mod_eq_zero h0) (Nat.gcd_dvd_left m n)
    have hdle : d ≤ m := Nat.le_of_dvd (by omega) hdm
    have hmd : 0 < m / d := Nat.div_pos hdle (by omega)
    have hmd' : m / d ≤ m := Nat.div_le_self m d
    obtain ⟨t, ht⟩ := totient_ok d
    obtain ⟨b, hb⟩ := binom_ok (usub (n / d) 1) (usub (m / d) 1) (usub_lt _ _)
      (by rw [usub_one _ hmd (by omega)]; omega)
    rw [if_neg hdvd]
    simp only [ht, hb, ok_bind]
    exact ⟨_, rfl⟩

theorem divisor_term_ok (m n : Nat) (hm : 1 ≤ m) (hm' : m < 4294967296)
    (hg : Nat.gcd m n < 4294967295) : ∃ num, divisor_term m n (Nat.gcd m n) = .ok num := by
  unfold divisor_term
  exact for_le_ok _ _ hg (fun d hd _ s => divisor_step_ok m n d hm hm' hd s) 0

theorem half_word_lt (n : Nat) : usub n 1 / 2 < 4294967295 := by
  have := usub_lt n 1
  omega

theorem odd_step_ok (m n i : Nat) (hm : 2 ≤ m) (hm' : m < 4294967296) (msum : Int) :
    ∃ msum', odd_step m n i msum = .ok msum' := by
  unfold odd_step
  by_cases hpar : wrap (n + i) % 2 = 1
  · rw [if_pos hpar]
    exact ⟨msum, rfl⟩
  · obtain ⟨b, hb⟩ := binom_ok (usub (usub n i / 2) 1) (usub (m / 2) 1) (usub_lt _ _)
      (by rw [usub_one _ (by omega) (by omega)]; omega)
    rw [if_neg hpar]
    simp only [hb, ok_bind]
    exact ⟨_, rfl⟩

theorem odd_msum_ok (m n : Nat) (hm : 2 ≤ m) (hm' : m < 4294967296) :
    ∃ msum, odd_msum m n = .ok msum := by
  unfold odd_msum
  exact for_le_ok _ _ (half_word_lt n) (fun i _ _ s => odd_step_ok m n i hm hm' s) 0

theorem even_step_ok (m n i j : Nat) (hm : 4 ≤ m) (hm' : m < 4294967296) (msum : Int) :
    ∃ msum', even_step m n i j msum = .ok msum' := by
  unfold even_step
  by_cases hpar : usub (usub n i) j % 2 = 1
  · rw [if_pos hpar]
    exact ⟨msum, rfl⟩
  · obtain ⟨b, hb⟩ := binom_ok (usub (usub (usub n i) j / 2) 1) (usub (m / 2) 2)
      (usub_lt _ _) (by rw [usub_of_le _ _ (by omega) (by omega)]; omega)
    rw [if_neg hpar]
    simp only [hb, ok_bind]
    exact ⟨_, rfl⟩

theorem even_first_ok (m n : Nat) (hm : 2 ≤ m) (hm' : m < 4294967296) :
    ∃ msum, even_first m n = .ok msum := by
  unfold even_first
  by_cases hpar : n % 2 = 0
  · obtain ⟨b, hb⟩ := binom_ok (usub (n / 2) 1) (usub (m / 2) 1) (usub_lt _ _)
      (by rw [usub_one _ (by omega) (by omega)]; omega)
    rw [if_pos hpar, hb]
    exact ⟨_, rfl⟩
  · rw [if_neg hpar]
    exact ⟨0, rfl⟩

theorem even_msum_ok (m n : Nat) (hm : 4 ≤ m) (hm' : m < 4294967296) :
    ∃ msum, even_msum m n = .ok msum := by
  obtain ⟨s0, h0⟩ := even_first_ok m n (by omega) hm'
  obtain ⟨r, hr⟩ := for_le_ok
    (fun i msum => for_le (even_step m n i) (usub n 1 / 2) (usub n 1 / 2 + 1) 1 msum)
    (usub n 1 / 2) (half_word_lt n)
    (fun i _ _ s => for_le_ok _ _ (half_word_lt n)
      (fun j _ _ s' => even_step_ok m n i j hm hm' s') s) s0
  refine ⟨r, ?_⟩
  unfold even_msum
  rewrite [h0, ok_bind_apply]
  exact hr

theorem numerator_ok_of_gcd (m n : Nat) (hm : 3 ≤ m) (hm' : m < 4294967296)
    (hn : n < 4294967296) (hg : Nat.gcd m n < 4294967295) :
    ∃ num, numerator m n = .ok num := by
  have hgcd := compute_gcd_eq m n (by omega)
  obtain ⟨d, hdiv⟩ := divisor_term_ok m n (by omega) hm' hg
  obtain ⟨b, hbin⟩ := binom_ok (n / 2) (usub m 1)
    (by omega) (by rw [usub_one m (by omega) hm']; omega)
  unfold numerator
  by_cases hodd : m % 2 = 1
  · obtain ⟨s, hmsum⟩ := odd_msum_ok m n (by omega) hm'
    simp only [hgcd, hdiv, hbin, hmsum, ok_bind, if_pos hodd]
    exact ⟨_, rfl⟩
  · obtain ⟨s, hmsum⟩ := even_msum_ok m n (by omega) hm'
    simp only [hgcd, hdiv, hbin, hmsum, ok_bind, if_neg hodd]
    exact ⟨_, rfl⟩

theorem divisor_term_top_error (m n : Nat) (hm : 1 ≤ m) (hm' : m < 4294967296)
    (hg : 4294967295 ≤ Nat.gcd m n) :
    divisor_term m n (Nat.gcd m n) = .error .zero_divisor := by
  unfold divisor_term
  exact for_le_top_error (divisor_step m n (Nat.gcd m n)) (Nat.gcd m n) hg .zero_divisor
    (fun d s hd _ => divisor_step_ok m n d hm hm' hd s)
    (by
      intro s
      unfold divisor_step
      rw [if_pos rfl])
    (Nat.gcd m n + 1) 1 0 (le_refl 1) (by omega) (by omega)

theorem numerator_top_error (m n : Nat) (hm : 1 ≤ m) (hm' : m < 4294967296)
    (hg : 4294967295 ≤ Nat.gcd m n) : numerator m n = .error .zero_divisor := by
  have hgcd := compute_gcd_eq m n (by omega)
  have hdiv := divisor_term_top_error m n hm hm' hg
  unfold numerator
  simp only [hgcd, hdiv, ok_bind, error_bind]

theorem compute_mgon_of_numerator_error (m n : Nat) (e : Failure)
    (h : numerator m n = .error e) : compute_mgon m n = .error e := by
  unfold compute_mgon
  rw [h]
  rfl

/-! ## Termination -/

/-- C17, as stated, fails at `m = n = 2 ^ 32 - 1`: `compute_gcd` returns `2 ^ 32 - 1`, the
test `d <= gcd` of the first loop of `compute_mgon` holds for every `unsigned` value,
`d` wraps to 0 and `gcd % d` is a remainder by zero; `compute_mgon` is not total. -/
theorem compute_mgon_remainder_by_zero_at_largest_word :
    compute_gcd 4294967295 4294967295 = .ok 4294967295 ∧
      divisor_term 4294967295 4294967295 4294967295 = .error .zero_divisor ∧
      compute_mgon 4294967295 4294967295 = .error .zero_divisor := by
  have hgg : Nat.gcd 4294967295 4294967295 = 4294967295 := Nat.gcd_self _
  have hg : 4294967295 ≤ Nat.gcd 4294967295 4294967295 := by
    rw [hgg]
  have h1 := compute_gcd_eq 4294967295 4294967295 (by decide)
  have h2 := divisor_term_top_error 4294967295 4294967295 (by decide) (by decide) hg
  have h3 := compute_mgon_of_numerator_error _ _ _
    (numerator_top_error 4294967295 4294967295 (by decide) (by decide) hg)
  rw [hgg] at h1 h2
  exact ⟨h1, h2, h3⟩

/-- C17, amended: for every `a ≥ 1` and every `b`, the loop of `compute_gcd a b` ends with
a value and takes no remainder by zero; in every iteration that does not leave the loop
the new divisor `b % a` is positive and smaller than `a`.  `totient z` calls
`compute_gcd` with first arguments from 2 on and returns a value, for every `z`.  For
32-bit `m ≥ 3` and `n`, `compute_mgon m n` calls `compute_gcd m n`, which returns a value;
when that value is below `2 ^ 32 - 1` every loop of `compute_mgon m n` ends and the
numerator is accumulated, so `compute_mgon m n` can only fail at its final check: with
`bad_fraction`, or by a remainder by `denom` where the `unsigned` product `4 * m` is 0. -/
theorem compute_gcd_terminates (a b z m n : Nat) (ha : 1 ≤ a) (hm : 3 ≤ m)
    (hm' : m < 4294967296) (hn : n < 4294967296) (hg : Nat.gcd m n < 4294967295) :
    (∃ g, compute_gcd a b = .ok g) ∧
      (∀ fuel x y, 0 < x → y % x ≠ 0 →
        compute_gcd_loop (fuel + 1) x y = compute_gcd_loop fuel (y % x) x ∧
          0 < y % x ∧ y % x < x) ∧
      (∀ i ∈ List.range' 2 (z - 2), 0 < i ∧ ∃ g, compute_gcd i z = .ok g) ∧
      (∃ r, totient z = .ok r) ∧
      (∃ g, compute_gcd m n = .ok g) ∧
      (∃ num, numerator m n = .ok num) ∧
      compute_mgon m n ≠ .error .out_of_fuel ∧
      (wrap (4 * m) ≠ 0 → compute_mgon m n ≠ .error .zero_divisor) := by
  obtain ⟨num, hnum⟩ := numerator_ok_of_gcd m n hm hm' hn hg
  refine ⟨⟨_, compute_gcd_eq a b (by omega)⟩, ?_, ?_, totient_ok z,
    ⟨_, compute_gcd_eq m n (by omega)⟩, ⟨num, hnum⟩, ?_, ?_⟩
  · intro fuel x y hx hy
    refine ⟨?_, Nat.pos_of_ne_zero hy, Nat.mod_lt y hx⟩
    simp only [compute_gcd_loop, if_neg (by omega : ¬ x = 0), if_neg hy]
  · intro i hi
    rw [List.mem_range'_1] at hi
    exact ⟨by omega, _, compute_gcd_eq i z (by omega)⟩
  · rw [compute_mgon_eq m n num hnum]
    by_cases hz : wrap (4 * m) = 0
    · rw [if_pos hz]
      intro h
      cases h
    · rw [if_neg hz]
      by_cases hmod : Int.tmod num ((wrap (4 * m) : Nat) : Int) ≠ 0
      · rw [if_pos hmod]
        intro h
        cases h
      · rw [if_neg hmod]
        intro h
        cases h
  · intro hz
    rw [compute_mgon_eq m n num hnum, if_neg hz]
    by_cases hmod : Int.tmod num ((wrap (4 * m) : Nat) : Int) ≠ 0
    · rw [if_pos hmod]
      intro h
      cases h
    · rw [if_neg hmod]
      intro h
      cases h

theorem compute_gcd_terminates_witness :
    1 ≤ 12 ∧ 3 ≤ 4 ∧ 4 < 4294967296 ∧ 2 < 4294967296 ∧ Nat.gcd 4 2 < 4294967295 ∧
      (∃ g, compute_gcd 12 18 = .ok g) ∧ (∃ num, numerator 4 2 = .ok num) :=
  ⟨by decide, by decide, by decide, by decide, by decide,
    (compute_gcd_terminates 12 18 9 4 2 (by decide) (by decide) (by decide) (by decide)
      (by decide)).1,
    (compute_gcd_terminates 12 18 9 4 2 (by decide) (by decide) (by decide) (by decide)
      (by decide)).2.2.2.2.2.1⟩

/-! ## The exact store gives the program back -/

theorem binom_step_with_ok : binom_step_with Except.ok = binom_step := by
  funext i st
  unfold binom_step_with binom_step
  by_cases h : i = 0
  · rw [if_pos h, if_pos h]
  · rw [if_neg h, if_neg h]
    rfl

theorem binom_with_ok : binom_with Except.ok = binom := by
  funext bn bd
  unfold binom_with binom
  rewrite [binom_step_with_ok]
  cases for_le binom_step bd (bd + 1) 1 (bn, 1) with
  | error e => rfl
  | ok st => rfl

theorem divisor_step_with_ok : divisor_step_with Except.ok = divisor_step := by
  funext m n g d num
  unfold divisor_step_with divisor_step
  rw [binom_with_ok]
  rfl

theorem odd_step_with_ok : odd_step_with Except.ok = odd_step := by
  funext m n i msum
  unfold odd_step_with odd_step
  rw [binom_with_ok]
  rfl

theorem even_step_with_ok : even_step_with Except.ok = even_step := by
  funext m n i j msum
  unfold even_step_with even_step
  rw [binom_with_ok]
  rfl

theorem even_first_with_ok : even_first_with Except.ok = even_first := by
  funext m n
  unfold even_first_with even_first
  rw [binom_with_ok]

theorem numerator_with_ok : numerator_with Except.ok = numerator := by
  funext m n
  unfold numerator_with numerator divisor_term_with divisor_term odd_msum_with odd_msum
    even_msum_with even_msum
  rw [binom_with_ok, divisor_step_with_ok, odd_step_with_ok, even_step_with_ok,
    even_first_with_ok]
  rfl

theorem compute_mgon_with_ok (m n : Nat) : compute_mgon_with Except.ok m n = compute_mgon m n := by
  unfold compute_mgon_with compute_mgon
  rw [numerator_with_ok]
  cases numerator m n with
  | error e => rfl
  | ok num =>
    rewrite [ok_bind_apply, ok_bind]
    unfold sanity_check_with
    by_cases h0 : wrap (4 * m) = 0
    · rw [if_pos h0, if_pos h0]
    · rw [if_neg h0, if_neg h0, ok_bind_apply]
      by_cases h1 : Int.tmod num ((wrap (4 * m) : Nat) : Int) ≠ 0
      · rw [if_pos h1, if_pos h1]
      · rw [if_neg h1, if_neg h1]
        rfl

/-! ## The values fit 256 bits -/

theorem choose_le_two_pow_pred : ∀ (n : Nat), 1 ≤ n → ∀ k, Nat.choose n k ≤ 2 ^ (n - 1) := by
  intro n
  induction n with
  | zero => intro h; omega
  | succ n ih =>
    intro _ k
    rcases Nat.eq_zero_or_pos n with h0 | hpos
    · subst h0
      rcases k with _ | _ | k
      · simp
      · simp
      · simp [Nat.choose_eq_zero_of_lt]
    · cases k with
      | zero => simp [Nat.one_le_two_pow]
      | succ k =>
        have h1 := ih hpos k
        have h2 := ih hpos (k + 1)
        have hp : 2 ^ (n + 1 - 1) = 2 ^ (n - 1) + 2 ^ (n - 1) := by
          obtain ⟨t, rfl⟩ : ∃ t, n = t + 1 := ⟨n - 1, by omega⟩
          simp only [Nat.add_sub_cancel]
          rw [pow_succ]
          omega
        rw [Nat.choose_succ_succ', hp]
        omega

theorem choose_zero_le_one (j : Nat) : Nat.choose 0 j ≤ 1 := by
  cases j with
  | zero => simp
  | succ j => simp

theorem succ_mul_choose_lt (N : Nat) (hN : N ≤ 249) (j : Nat) :
    (j + 1) * Nat.choose N (j + 1) < 2 ^ 255 := by
  cases N with
  | zero => simp
  | succ M =>
    have h := Nat.succ_mul_choose_eq M j
    have hswap : (j + 1) * Nat.choose (M + 1) (j + 1) = (M + 1) * Nat.choose M j := by
      rw [Nat.succ_eq_add_one, Nat.succ_eq_add_one] at h
      rw [h, Nat.mul_comm]
    rw [hswap]
    rcases Nat.eq_zero_or_pos M with h0 | hpos
    · subst h0
      have := choose_zero_le_one j
      calc (0 + 1) * Nat.choose 0 j ≤ 1 := by omega
        _ < 2 ^ 255 := by norm_num
    · have h1 := choose_le_two_pow_pred M hpos j
      have h2 : 2 ^ (M - 1) ≤ 2 ^ 247 := Nat.pow_le_pow_right (by norm_num) (by omega)
      calc (M + 1) * Nat.choose M j ≤ 249 * 2 ^ 247 :=
            Nat.mul_le_mul (by omega) (le_trans h1 h2)
        _ < 2 ^ 255 := by norm_num

theorem choose_lt_of_le (N : Nat) (hN : N ≤ 253) (k : Nat) : Nat.choose N k < 2 ^ 255 := by
  rcases Nat.eq_zero_or_pos N with h0 | hpos
  · subst h0
    calc Nat.choose 0 k ≤ 1 := choose_zero_le_one k
      _ < 2 ^ 255 := by norm_num
  · have h1 := choose_le_two_pow_pred N hpos k
    have h2 : 2 ^ (N - 1) ≤ 2 ^ 252 := Nat.pow_le_pow_right (by norm_num) (by omega)
    calc Nat.choose N k ≤ 2 ^ 252 := le_trans h1 h2
      _ < 2 ^ 255 := by norm_num

theorem store_natCast (op : Int → Except Failure Int)
    (hop : ∀ x : Int, x.natAbs < 2 ^ 255 → op x = .ok x) (a : Nat) (ha : a < 2 ^ 255) :
    op ((a : Nat) : Int) = .ok ((a : Nat) : Int) :=
  hop _ (by rw [Int.natAbs_ofNat]; exact ha)

theorem store_nonneg (op : Int → Except Failure Int)
    (hop : ∀ x : Int, x.natAbs < 2 ^ 255 → op x = .ok x) (x : Int) (h0 : 0 ≤ x)
    (h1 : x < 2 ^ 255) : op x = .ok x := by
  obtain ⟨a, rfl⟩ := Int.eq_ofNat_of_zero_le h0
  exact store_natCast op hop a (by exact_mod_cast h1)

theorem binom_step_with_choose (op : Int → Except Failure Int)
    (hop : ∀ x : Int, x.natAbs < 2 ^ 255 → op x = .ok x) (N j b : Nat) (hN : N ≤ 253)
    (hprod : op ((((j + 1) * Nat.choose N (j + 1) : Nat) : Nat) : Int)
      = .ok ((((j + 1) * Nat.choose N (j + 1) : Nat) : Nat) : Int))
    (hb : j ≤ N → b = N - j) :
    binom_step_with op (j + 1) (b, ((Nat.choose N j : Nat) : Int))
      = .ok (usub b 1, ((Nat.choose N (j + 1) : Nat) : Int)) := by
  have hprod' := (binom_step_choose N j b hb).2
  have hp : op (((Nat.choose N j : Nat) : Int) * (b : Int))
      = .ok (((j + 1 : Nat) : Int) * ((Nat.choose N (j + 1) : Nat) : Int)) := by
    rw [← hprod', ← Nat.cast_mul]
    exact hprod
  have hne : ((j + 1 : Nat) : Int) ≠ 0 := by
    exact_mod_cast Nat.succ_ne_zero j
  have hq : op (Int.tdiv (((j + 1 : Nat) : Int) * ((Nat.choose N (j + 1) : Nat) : Int))
      ((j + 1 : Nat) : Int)) = .ok ((Nat.choose N (j + 1) : Nat) : Int) := by
    rw [Int.mul_tdiv_cancel_left _ hne]
    exact store_natCast op hop _ (choose_lt_of_le N hN _)
  unfold binom_step_with
  rw [if_neg (Nat.succ_ne_zero j)]
  simp only [hp, hq, ok_bind]
  rfl

theorem binom_with_fold (op : Int → Except Failure Int)
    (hop : ∀ x : Int, x.natAbs < 2 ^ 255 → op x = .ok x) (N : Nat) (hN : N ≤ 253)
    (hprod : ∀ j, op ((((j + 1) * Nat.choose N (j + 1) : Nat) : Nat) : Int)
      = .ok ((((j + 1) * Nat.choose N (j + 1) : Nat) : Nat) : Int)) :
    ∀ (k j : Nat), j + k ≤ 4294967296 →
    (List.range' (j + 1) k).foldlM (fun st i => binom_step_with op i st)
        ((N + 4294967296 - j) % 4294967296, ((Nat.choose N j : Nat) : Int))
      = .ok ((N + 4294967296 - (j + k)) % 4294967296,
          ((Nat.choose N (j + k) : Nat) : Int)) := by
  intro k
  induction k with
  | zero => intro j _; rfl
  | succ k ih =>
    intro j hjk
    have hbody := binom_step_with_choose op hop N j ((N + 4294967296 - j) % 4294967296) hN
      (hprod j) (by intro h; omega)
    have hnext : usub ((N + 4294967296 - j) % 4294967296) 1
        = (N + 4294967296 - (j + 1)) % 4294967296 := by
      unfold usub
      omega
    rw [hnext] at hbody
    rw [List.range'_succ, List.foldlM_cons, hbody]
    change List.foldlM _ ((N + 4294967296 - (j + 1)) % 4294967296,
      ((Nat.choose N (j + 1) : Nat) : Int)) _ = _
    rw [ih (j + 1) (by omega), show j + 1 + k = j + (k + 1) by omega]

theorem binom_with_eq (op : Int → Except Failure Int)
    (hop : ∀ x : Int, x.natAbs < 2 ^ 255 → op x = .ok x) (bn bd : Nat) (hbn : bn ≤ 253)
    (hprod : ∀ j, op ((((j + 1) * Nat.choose bn (j + 1) : Nat) : Nat) : Int)
      = .ok ((((j + 1) * Nat.choose bn (j + 1) : Nat) : Nat) : Int))
    (hbd : bd < 4294967295) :
    binom_with op bn bd = .ok ((Nat.choose bn bd : Nat) : Int) := by
  have h := binom_with_fold op hop bn hbn hprod bd 0 (by omega)
  have h0 : (bn + 4294967296 - 0) % 4294967296 = bn := by omega
  rw [h0] at h
  simp only [Nat.choose_zero_right, Nat.cast_one, Nat.zero_add] at h
  unfold binom_with
  rw [for_le_eq_foldlM (binom_step_with op) bd hbd bd 1 _ (by omega) (bd + 1) (by omega), h]

theorem foldlM_add_bounded (body : Nat → Int → Except Failure Int) (g : Nat → Int) (B : Int) :
    ∀ (l : List Nat) (init : Int), (∀ i ∈ l, 0 ≤ g i) → 0 ≤ init →
      init + (l.map g).sum < B →
      (∀ i ∈ l, ∀ s, 0 ≤ s → s + g i < B → body i s = .ok (s + g i)) →
      l.foldlM (fun s i => body i s) init = .ok (init + (l.map g).sum) := by
  intro l
  induction l with
  | nil => intro init _ _ _ _; simp [pure, Except.pure]
  | cons x xs ih =>
    intro init hg h0 hB h
    have hx : 0 ≤ g x := hg x (List.mem_cons_self _ _)
    have hxs : 0 ≤ (xs.map g).sum := by
      apply List.sum_nonneg
      intro y hy
      obtain ⟨i, hi, rfl⟩ := List.mem_map.1 hy
      exact hg i (List.mem_cons_of_mem _ hi)
    rw [List.map_cons, List.sum_cons] at hB
    rw [List.foldlM_cons, h x (List.mem_cons_self _ _) init h0 (by omega)]
    change List.foldlM _ (init + g x) xs = _
    rw [ih (init + g x) (fun i hi => hg i (List.mem_cons_of_mem _ hi)) (by omega) (by omega)
      (fun i hi s => h i (List.mem_cons_of_mem _ hi) s), List.map_cons, List.sum_cons,
      add_assoc]

theorem for_le_add_bounded (body : Nat → Int → Except Failure Int) (g : Nat → Int) (hi : Nat)
    (hhi : hi < 4294967295) (B : Int) (hg : ∀ i, 1 ≤ i → i ≤ hi → 0 ≤ g i)
    (h : ∀ i, 1 ≤ i → i ≤ hi → ∀ s, 0 ≤ s → s + g i < B → body i s = .ok (s + g i))
    (init : Int) (h0 : 0 ≤ init) (hB : init + ∑ i in Finset.Icc 1 hi, g i < B) :
    for_le body hi (hi + 1) 1 init = .ok (init + ∑ i in Finset.Icc 1 hi, g i) := by
  rw [← sum_map_range'_Icc] at hB ⊢
  rw [for_le_eq_foldlM body hi hhi hi 1 init (by omega) (hi + 1) (by omega)]
  apply foldlM_add_bounded body g B _ init _ h0 hB
  · intro i hi' s
    rw [List.mem_range'_1] at hi'
    exact h i hi'.1 (by omega) s
  · intro i hi'
    rw [List.mem_range'_1] at hi'
    exact hg i hi'.1 (by omega)

theorem divisor_step_with_eq (op : Int → Except Failure Int)
    (hop : ∀ x : Int, x.natAbs < 2 ^ 255 → op x = .ok x) (m n d : Nat) (hm : 1 ≤ m)
    (hmn : m ≤ n) (hn : n ≤ 254)
    (hprod : ∀ N j, N < n →
      op ((((j + 1) * Nat.choose N (j + 1) : Nat) : Nat) : Int)
        = .ok ((((j + 1) * Nat.choose N (j + 1) : Nat) : Nat) : Int)) (hd : 1 ≤ d) (num : Int) (h0 : 0 ≤ num)
    (hB : num + (if Nat.gcd m n % d ≠ 0 then (0 : Int) else
      ((wrap (2 * Nat.totient d) : Nat) : Int)
        * ((Nat.choose (n / d - 1) (m / d - 1) : Nat) : Int)) < 2 ^ 255) :
    divisor_step_with op m n (Nat.gcd m n) d num
      = .ok (num + if Nat.gcd m n % d ≠ 0 then (0 : Int) else
          ((wrap (2 * Nat.totient d) : Nat) : Int)
            * ((Nat.choose (n / d - 1) (m / d - 1) : Nat) : Int)) := by
  unfold divisor_step_with
  rw [if_neg (by omega : ¬ d = 0)]
  by_cases hdvd : Nat.gcd m n % d ≠ 0
  · rw [if_pos hdvd, if_pos hdvd, add_zero]
  · have hz : Nat.gcd m n % d = 0 := not_not.mp hdvd
    have hdg : d ∣ Nat.gcd m n := Nat.dvd_of_mod_eq_zero hz
    have hdm : d ∣ m := dvd_trans hdg (Nat.gcd_dvd_left m n)
    have hdle : d ≤ m := Nat.le_of_dvd (by omega) hdm
    have hmd : 0 < m / d := Nat.div_pos hdle (by omega)
    have hnd : 0 < n / d := Nat.div_pos (by omega) (by omega)
    have hmd' : m / d ≤ m := Nat.div_le_self m d
    have hnd' : n / d ≤ n := Nat.div_le_self n d
    rw [if_neg hdvd] at hB
    have hpos : (0 : Int) ≤ ((wrap (2 * Nat.totient d) : Nat) : Int)
        * ((Nat.choose (n / d - 1) (m / d - 1) : Nat) : Int) :=
      mul_nonneg (Int.natCast_nonneg _) (Int.natCast_nonneg _)
    have hb := binom_with_eq op hop (n / d - 1) (m / d - 1) (by omega)
      (fun j => hprod _ j (by omega)) (by omega)
    have hp := store_nonneg op hop _ hpos (by omega)
    have hs := store_nonneg op hop _ (add_nonneg h0 hpos) hB
    rw [if_neg hdvd, if_neg hdvd, totient_eq d hd, usub_one _ hnd (by omega),
      usub_one _ hmd (by omega)]
    simp only [hb, hp, hs, ok_bind]

theorem odd_step_with_eq (op : Int → Except Failure Int)
    (hop : ∀ x : Int, x.natAbs < 2 ^ 255 → op x = .ok x) (m n i : Nat) (hm : 3 ≤ m)
    (hmn : m ≤ n) (hn : n ≤ 254)
    (hprod : ∀ N j, N < n →
      op ((((j + 1) * Nat.choose N (j + 1) : Nat) : Nat) : Int)
        = .ok ((((j + 1) * Nat.choose N (j + 1) : Nat) : Nat) : Int)) (h1 : 1 ≤ i) (h2 : i ≤ (n - 1) / 2) (msum : Int)
    (h0 : 0 ≤ msum)
    (hB : msum + (((if (n - i) % 2 = 0 then Nat.choose ((n - i) / 2 - 1) (m / 2 - 1) else 0
          : Nat) : Nat) : Int) < 2 ^ 255) :
    odd_step_with op m n i msum
      = .ok (msum + (((if (n - i) % 2 = 0 then Nat.choose ((n - i) / 2 - 1) (m / 2 - 1) else 0
          : Nat) : Nat) : Int)) := by
  unfold odd_step_with
  rw [wrap_mod_two]
  by_cases hpar : (n + i) % 2 = 1
  · rw [if_pos hpar, if_neg (by omega)]
    simp
  · have e1 : usub (usub n i / 2) 1 = (n - i) / 2 - 1 := by
      unfold usub
      omega
    have e2 : usub (m / 2) 1 = m / 2 - 1 := by
      unfold usub
      omega
    have hev : (n - i) % 2 = 0 := by omega
    rw [if_pos hev] at hB
    have hb := binom_with_eq op hop ((n - i) / 2 - 1) (m / 2 - 1) (by omega)
      (fun j => hprod _ j (by omega)) (by omega)
    have hs := store_nonneg op hop _ (add_nonneg h0 (Int.natCast_nonneg _)) hB
    rw [if_neg hpar, if_pos hev, e1, e2]
    simp only [hb, hs, ok_bind]

theorem even_step_with_eq (op : Int → Except Failure Int)
    (hop : ∀ x : Int, x.natAbs < 2 ^ 255 → op x = .ok x) (m n i j : Nat) (hm : 4 ≤ m)
    (hmn : m ≤ n) (hn : n ≤ 254)
    (hprod : ∀ N j, N < n →
      op ((((j + 1) * Nat.choose N (j + 1) : Nat) : Nat) : Int)
        = .ok ((((j + 1) * Nat.choose N (j + 1) : Nat) : Nat) : Int)) (hi1 : 1 ≤ i) (hi2 : i ≤ (n - 1) / 2) (hj1 : 1 ≤ j)
    (hj2 : j ≤ (n - 1) / 2) (msum : Int) (h0 : 0 ≤ msum)
    (hB : msum + (((if (n - i - j) % 2 = 0 then
          Nat.choose ((n - i - j) / 2 - 1) (m / 2 - 2) else 0 : Nat) : Nat) : Int) < 2 ^ 255) :
    even_step_with op m n i j msum
      = .ok (msum + (((if (n - i - j) % 2 = 0 then
          Nat.choose ((n - i - j) / 2 - 1) (m / 2 - 2) else 0 : Nat) : Nat) : Int)) := by
  unfold even_step_with
  have hbn : usub (usub n i) j = n - i - j := by
    unfold usub
    omega
  rw [hbn]
  by_cases hpar : (n - i - j) % 2 = 1
  · rw [if_pos hpar, if_neg (by omega)]
    simp
  · have e1 : usub ((n - i - j) / 2) 1 = (n - i - j) / 2 - 1 := by
      unfold usub
      omega
    have e2 : usub (m / 2) 2 = m / 2 - 2 := by
      unfold usub
      omega
    have hev : (n - i - j) % 2 = 0 := by omega
    rw [if_pos hev] at hB
    have hb := binom_with_eq op hop ((n - i - j) / 2 - 1) (m / 2 - 2) (by omega)
      (fun j => hprod _ j (by omega)) (by omega)
    have hs := store_nonneg op hop _ (add_nonneg h0 (Int.natCast_nonneg _)) hB
    rw [if_neg hpar, if_pos hev, e1, e2]
    simp only [hb, hs, ok_bind]

theorem even_first_with_eq (op : Int → Except Failure Int)
    (hop : ∀ x : Int, x.natAbs < 2 ^ 255 → op x = .ok x) (m n : Nat) (hm : 4 ≤ m)
    (hmn : m ≤ n) (hn : n ≤ 254)
    (hprod : ∀ N j, N < n →
      op ((((j + 1) * Nat.choose N (j + 1) : Nat) : Nat) : Int)
        = .ok ((((j + 1) * Nat.choose N (j + 1) : Nat) : Nat) : Int)) :
    even_first_with op m n
      = .ok (((if n % 2 = 0 then Nat.choose (n / 2 - 1) (m / 2 - 1) else 0 : Nat) : Nat) : Int) := by
  unfold even_first_with
  have e1 : usub (n / 2) 1 = n / 2 - 1 := by
    unfold usub
    omega
  have e2 : usub (m / 2) 1 = m / 2 - 1 := by
    unfold usub
    omega
  by_cases hpar : n % 2 = 0
  · have hb := binom_with_eq op hop (n / 2 - 1) (m / 2 - 1) (by omega)
      (fun j => hprod _ j (by omega)) (by omega)
    have hs := store_natCast op hop (Nat.choose (n / 2 - 1) (m / 2 - 1))
      (choose_lt_of_le _ (by omega) _)
    rw [if_pos hpar, if_pos hpar, e1, e2, hb, ok_bind_apply, zero_add]
    exact hs
  · rw [if_neg hpar, if_neg hpar]
    rfl

theorem choose_le_pow (x k b : Nat) (hx : x ≤ b) : Nat.choose x k ≤ 2 ^ b := by
  rcases Nat.eq_zero_or_pos x with h0 | hpos
  · subst h0
    exact le_trans (choose_zero_le_one k) Nat.one_le_two_pow
  · exact le_trans (choose_le_two_pow_pred x hpos k)
      (Nat.pow_le_pow_right (by norm_num) (by omega))

theorem sum_Icc_le (f : Nat → Nat) (h c : Nat) (hf : ∀ a, 1 ≤ a → a ≤ h → f a ≤ c) :
    ∑ a in Finset.Icc 1 h, f a ≤ h * c := by
  have := Finset.sum_le_card_nsmul (Finset.Icc 1 h) f c
    (fun a ha => hf a (Finset.mem_Icc.1 ha).1 (Finset.mem_Icc.1 ha).2)
  rw [Nat.card_Icc, smul_eq_mul] at this
  simpa using this

theorem oddSum_le (m n : Nat) (hn : n ≤ 254) : oddSum m n ≤ 127 * 2 ^ 126 := by
  unfold oddSum
  refine le_trans (sum_Icc_le _ _ (2 ^ 126) ?_) (Nat.mul_le_mul_right _ (by omega))
  intro a _ _
  split
  · exact choose_le_pow _ _ _ (by omega)
  · exact Nat.zero_le _

theorem evenSum_inner_le (m n a : Nat) (hn : n ≤ 254) :
    (∑ b in Finset.Icc 1 ((n - 1) / 2),
      if (n - a - b) % 2 = 0 then Nat.choose ((n - a - b) / 2 - 1) (m / 2 - 2) else 0)
      ≤ 127 * 2 ^ 126 := by
  refine le_trans (sum_Icc_le _ _ (2 ^ 126) ?_) (Nat.mul_le_mul_right _ (by omega))
  intro b _ _
  split
  · exact choose_le_pow _ _ _ (by omega)
  · exact Nat.zero_le _

theorem evenSum_le (m n : Nat) (hn : n ≤ 254) :
    evenSum m n ≤ 2 ^ 126 + 127 * (127 * 2 ^ 126) := by
  unfold evenSum
  apply Nat.add_le_add
  · split
    · exact choose_le_pow _ _ _ (by omega)
    · exact Nat.zero_le _
  · exact le_trans (sum_Icc_le _ _ (127 * 2 ^ 126) (fun a _ _ => evenSum_inner_le m n a hn))
      (Nat.mul_le_mul_right _ (by omega))

theorem divisorSum_term_le (m n g d : Nat) (hn3 : 3 ≤ n) (hn : n ≤ 254) (hd1 : 1 ≤ d)
    (hdg : d ≤ g) (hg : g ≤ 254) :
    (if g % d ≠ 0 then (0 : Int) else
      ((wrap (2 * Nat.totient d) : Nat) : Int)
        * ((Nat.choose (n / d - 1) (m / d - 1) : Nat) : Int))
      ≤ (if d = 1 then (2 : Int) ^ 253 else 0) + 508 * 2 ^ 126 := by
  by_cases hdiv : g % d ≠ 0
  · rw [if_pos hdiv]
    split <;> norm_num
  · rw [if_neg hdiv]
    have hw : wrap (2 * Nat.totient d) ≤ 2 * d :=
      le_trans (wrap_le _) (Nat.mul_le_mul_left 2 (Nat.totient_le d))
    by_cases h1 : d = 1
    · subst h1
      rw [if_pos rfl]
      have hc : Nat.choose (n / 1 - 1) (m / 1 - 1) ≤ 2 ^ 252 := by
        rw [Nat.div_one]
        exact le_trans (choose_le_two_pow_pred (n - 1) (by omega) _)
          (Nat.pow_le_pow_right (by norm_num) (by omega))
      have hnat : wrap (2 * Nat.totient 1) * Nat.choose (n / 1 - 1) (m / 1 - 1)
          ≤ 2 * 2 ^ 252 := Nat.mul_le_mul hw hc
      have hint : ((wrap (2 * Nat.totient 1) : Nat) : Int)
          * ((Nat.choose (n / 1 - 1) (m / 1 - 1) : Nat) : Int) ≤ 2 * 2 ^ 252 := by
        exact_mod_cast hnat
      norm_num at hint ⊢
      linarith
    · rw [if_neg h1]
      have hnd : n / d ≤ n / 2 := Nat.div_le_div_left (by omega) (by norm_num)
      have hc : Nat.choose (n / d - 1) (m / d - 1) ≤ 2 ^ 126 :=
        choose_le_pow _ _ _ (by omega)
      have hnat : wrap (2 * Nat.totient d) * Nat.choose (n / d - 1) (m / d - 1)
          ≤ 508 * 2 ^ 126 := Nat.mul_le_mul (by omega) hc
      have hint : ((wrap (2 * Nat.totient d) : Nat) : Int)
          * ((Nat.choose (n / d - 1) (m / d - 1) : Nat) : Int) ≤ 508 * 2 ^ 126 := by
        exact_mod_cast hnat
      linarith

theorem divisorSum_le (m n g : Nat) (hn3 : 3 ≤ n) (hn : n ≤ 254) (hg1 : 1 ≤ g)
    (hg : g ≤ 254) : divisorSum m n g ≤ 2 ^ 253 + 254 * (508 * 2 ^ 126) := by
  unfold divisorSum
  have h1 := Finset.sum_le_sum (s := Finset.Icc 1 g)
    (fun d hd => divisorSum_term_le m n g d hn3 hn (Finset.mem_Icc.1 hd).1
      (Finset.mem_Icc.1 hd).2 hg)
  refine le_trans h1 ?_
  rw [Finset.sum_add_distrib, Finset.sum_ite_eq' (Finset.Icc 1 g) 1 (fun _ => (2 : Int) ^ 253),
    if_pos (Finset.mem_Icc.2 ⟨le_refl 1, hg1⟩), Finset.sum_const, Nat.card_Icc, nsmul_eq_mul]
  have hcast : (((g + 1 - 1 : Nat) : Nat) : Int) ≤ 254 := by
    rw [Nat.add_sub_cancel]
    exact_mod_cast hg
  have hpos : (0 : Int) ≤ 508 * 2 ^ 126 := by norm_num
  have := mul_le_mul_of_nonneg_right hcast hpos
  linarith

theorem subtracted_term_le (m n : Nat) (hm : 3 ≤ m) :
    ((wrap (2 * m) : Nat) : Int) * ((Nat.choose (n / 2) (m - 1) : Nat) : Int)
      ≤ (2 : Int) * ((Nat.choose (n - 1) (m - 1) : Nat) : Int) := by
  have h1 := choose_violating_bound m n hm
  have h2 : wrap (2 * m) ≤ 2 * m := wrap_le _
  have h3 : wrap (2 * m) * Nat.choose (n / 2) (m - 1) ≤ 2 * Nat.choose (n - 1) (m - 1) := by
    calc wrap (2 * m) * Nat.choose (n / 2) (m - 1)
        ≤ 2 * m * Nat.choose (n / 2) (m - 1) := Nat.mul_le_mul_right _ h2
      _ = 2 * (m * Nat.choose (n / 2) (m - 1)) := by ring
      _ ≤ 2 * Nat.choose (n - 1) (m - 1) := Nat.mul_le_mul_left _ h1
  exact_mod_cast h3

theorem divisor_term_with_eq (op : Int → Except Failure Int)
    (hop : ∀ x : Int, x.natAbs < 2 ^ 255 → op x = .ok x) (m n : Nat) (hm : 3 ≤ m)
    (hmn : m ≤ n) (hn : n ≤ 254)
    (hprod : ∀ N j, N < n →
      op ((((j + 1) * Nat.choose N (j + 1) : Nat) : Nat) : Int)
        = .ok ((((j + 1) * Nat.choose N (j + 1) : Nat) : Nat) : Int)) :
    divisor_term_with op m n (Nat.gcd m n) = .ok (divisorSum m n (Nat.gcd m n)) := by
  have hg1 : 1 ≤ Nat.gcd m n := Nat.gcd_pos_of_pos_left n (by omega)
  have hg : Nat.gcd m n ≤ m := Nat.le_of_dvd (by omega) (Nat.gcd_dvd_left m n)
  have hle := divisorSum_le m n (Nat.gcd m n) (by omega) hn hg1 (by omega)
  have hnum : (2 : Int) ^ 253 + 254 * (508 * 2 ^ 126) < 2 ^ 255 := by norm_num
  have hlt : (0 : Int) + divisorSum m n (Nat.gcd m n) < 2 ^ 255 := by linarith
  unfold divisorSum at hlt ⊢
  unfold divisor_term_with
  rw [for_le_add_bounded (divisor_step_with op m n (Nat.gcd m n)) _ (Nat.gcd m n) (by omega)
    (2 ^ 255) (fun d _ _ => divisorSum_term_nonneg m n (Nat.gcd m n) d)
    (fun d hd _ s h0 hB => divisor_step_with_eq op hop m n d (by omega) hmn hn hprod hd s h0 hB)
    0 (le_refl 0) hlt, zero_add]

theorem odd_msum_with_eq (op : Int → Except Failure Int)
    (hop : ∀ x : Int, x.natAbs < 2 ^ 255 → op x = .ok x) (m n : Nat) (hm : 3 ≤ m)
    (hmn : m ≤ n) (hn : n ≤ 254)
    (hprod : ∀ N j, N < n →
      op ((((j + 1) * Nat.choose N (j + 1) : Nat) : Nat) : Int)
        = .ok ((((j + 1) * Nat.choose N (j + 1) : Nat) : Nat) : Int)) :
    odd_msum_with op m n = .ok ((oddSum m n : Nat) : Int) := by
  have hle := oddSum_le m n hn
  have hnum : (127 : Int) * 2 ^ 126 < 2 ^ 255 := by norm_num
  have hlt : (0 : Int) + ((oddSum m n : Nat) : Int) < 2 ^ 255 := by
    have : ((oddSum m n : Nat) : Int) ≤ 127 * 2 ^ 126 := by exact_mod_cast hle
    linarith
  unfold oddSum at hlt ⊢
  rw [Nat.cast_sum] at hlt ⊢
  unfold odd_msum_with
  rw [usub_one n (by omega) (by omega),
    for_le_add_bounded (odd_step_with op m n) _ ((n - 1) / 2) (by omega) (2 ^ 255)
      (fun i _ _ => Int.natCast_nonneg _)
      (fun i h1 h2 s h0 hB => odd_step_with_eq op hop m n i hm hmn hn hprod h1 h2 s h0 hB)
      0 (le_refl 0) hlt, zero_add]

theorem even_msum_with_eq (op : Int → Except Failure Int)
    (hop : ∀ x : Int, x.natAbs < 2 ^ 255 → op x = .ok x) (m n : Nat) (hm : 4 ≤ m)
    (hmn : m ≤ n) (hn : n ≤ 254)
    (hprod : ∀ N j, N < n →
      op ((((j + 1) * Nat.choose N (j + 1) : Nat) : Nat) : Int)
        = .ok ((((j + 1) * Nat.choose N (j + 1) : Nat) : Nat) : Int)) :
    even_msum_with op m n = .ok ((evenSum m n : Nat) : Int) := by
  have hinner : ∀ i, 1 ≤ i → i ≤ (n - 1) / 2 → ∀ s : Int, 0 ≤ s →
      s + ((∑ b in Finset.Icc 1 ((n - 1) / 2),
            if (n - i - b) % 2 = 0 then Nat.choose ((n - i - b) / 2 - 1) (m / 2 - 2) else 0
            : Nat) : Int) < 2 ^ 255 →
      for_le (even_step_with op m n i) ((n - 1) / 2) ((n - 1) / 2 + 1) 1 s
        = .ok (s + ((∑ b in Finset.Icc 1 ((n - 1) / 2),
            if (n - i - b) % 2 = 0 then Nat.choose ((n - i - b) / 2 - 1) (m / 2 - 2) else 0
            : Nat) : Int)) := by
    intro i hi1 hi2 s h0 hB
    rw [Nat.cast_sum] at hB ⊢
    exact for_le_add_bounded (even_step_with op m n i) _ ((n - 1) / 2) (by omega) (2 ^ 255)
      (fun j _ _ => Int.natCast_nonneg _)
      (fun j hj1 hj2 s h0 hB =>
        even_step_with_eq op hop m n i j hm hmn hn hprod hi1 hi2 hj1 hj2 s h0 hB) s h0 hB
  have hle := evenSum_le m n hn
  have hnum : (2 : Int) ^ 126 + 127 * (127 * 2 ^ 126) < 2 ^ 255 := by norm_num
  have hlt : ((evenSum m n : Nat) : Int) < 2 ^ 255 := by
    have : ((evenSum m n : Nat) : Int) ≤ 2 ^ 126 + 127 * (127 * 2 ^ 126) := by
      exact_mod_cast hle
    linarith
  unfold evenSum at hlt ⊢
  rw [Nat.cast_add, Nat.cast_sum] at hlt ⊢
  have houter := for_le_add_bounded
    (fun i msum => for_le (even_step_with op m n i) ((n - 1) / 2) ((n - 1) / 2 + 1) 1 msum)
    _ ((n - 1) / 2) (by omega) (2 ^ 255) (fun i _ _ => Int.natCast_nonneg _) hinner
    (((if n % 2 = 0 then Nat.choose (n / 2 - 1) (m / 2 - 1) else 0 : Nat) : Nat) : Int)
    (Int.natCast_nonneg _) hlt
  unfold even_msum_with
  rewrite [even_first_with_eq op hop m n hm hmn hn hprod, usub_one n (by omega) (by omega),
    ok_bind_apply]
  exact houter

theorem numerator_value_lt (m n : Nat) (hm : 3 ≤ m) (hmn : m ≤ n) (hn : n ≤ 254) :
    divisorSum m n (Nat.gcd m n)
      - ((wrap (2 * m) : Nat) : Int) * ((Nat.choose (n / 2) (m - 1) : Nat) : Int)
      + (if m % 2 = 1 then ((oddSum m n : Nat) : Int) * (m : Int) * 2
          else ((evenSum m n : Nat) : Int) * (m : Int)) < 2 ^ 254 := by
  have hg1 : 1 ≤ Nat.gcd m n := Nat.gcd_pos_of_pos_left n (by omega)
  have hg : Nat.gcd m n ≤ m := Nat.le_of_dvd (by omega) (Nat.gcd_dvd_left m n)
  have hD := divisorSum_le m n (Nat.gcd m n) (by omega) hn hg1 (by omega)
  have hS0 : (0 : Int) ≤ ((wrap (2 * m) : Nat) : Int)
      * ((Nat.choose (n / 2) (m - 1) : Nat) : Int) :=
    mul_nonneg (Int.natCast_nonneg _) (Int.natCast_nonneg _)
  have hR : (if m % 2 = 1 then ((oddSum m n : Nat) : Int) * (m : Int) * 2
      else ((evenSum m n : Nat) : Int) * (m : Int)) ≤ 2 ^ 150 := by
    split
    · have h := Nat.mul_le_mul (Nat.mul_le_mul (oddSum_le m n hn) (le_trans hmn hn))
        (le_refl 2)
      have h' : ((oddSum m n : Nat) : Int) * (m : Int) * 2 ≤ 127 * 2 ^ 126 * 254 * 2 := by
        exact_mod_cast h
      have hnum : (127 : Int) * 2 ^ 126 * 254 * 2 ≤ 2 ^ 150 := by norm_num
      linarith
    · have h := Nat.mul_le_mul (evenSum_le m n hn) (le_trans hmn hn)
      have h' : ((evenSum m n : Nat) : Int) * (m : Int)
          ≤ (2 ^ 126 + 127 * (127 * 2 ^ 126)) * 254 := by
        exact_mod_cast h
      have hnum : ((2 : Int) ^ 126 + 127 * (127 * 2 ^ 126)) * 254 ≤ 2 ^ 150 := by norm_num
      linarith
  have hnum : (2 : Int) ^ 253 + 254 * (508 * 2 ^ 126) + 2 ^ 150 < 2 ^ 254 := by norm_num
  linarith

theorem numerator_with_eq (op : Int → Except Failure Int)
    (hop : ∀ x : Int, x.natAbs < 2 ^ 255 → op x = .ok x) (m n : Nat) (hm : 3 ≤ m)
    (hmn : m ≤ n) (hn : n ≤ 254)
    (hprod : ∀ N j, N < n →
      op ((((j + 1) * Nat.choose N (j + 1) : Nat) : Nat) : Int)
        = .ok ((((j + 1) * Nat.choose N (j + 1) : Nat) : Nat) : Int)) :
    numerator_with op m n = numerator m n := by
  have hg1 : 1 ≤ Nat.gcd m n := Nat.gcd_pos_of_pos_left n (by omega)
  have hg : Nat.gcd m n ≤ m := Nat.le_of_dvd (by omega) (Nat.gcd_dvd_left m n)
  have hD := divisorSum_le m n (Nat.gcd m n) (by omega) hn hg1 (by omega)
  have hD0 := divisorSum_lower m n (Nat.gcd m n) hg1
  have hS := subtracted_term_le m n hm
  have hS0 : (0 : Int) ≤ ((wrap (2 * m) : Nat) : Int)
      * ((Nat.choose (n / 2) (m - 1) : Nat) : Int) :=
    mul_nonneg (Int.natCast_nonneg _) (Int.natCast_nonneg _)
  have hV := numerator_value_lt m n hm hmn hn
  have hnum1 : (2 : Int) ^ 253 + 254 * (508 * 2 ^ 126) < 2 ^ 255 := by norm_num
  have hnum2 : (2 : Int) ^ 254 < 2 ^ 255 := by norm_num
  have hgcd := compute_gcd_eq m n (by omega)
  have hdiv := divisor_term_with_eq op hop m n hm hmn hn hprod
  have hsub : usub m 1 = m - 1 := usub_one m (by omega) (by omega)
  have hbin : binom_with op (n / 2) (usub m 1)
      = .ok ((Nat.choose (n / 2) (m - 1) : Nat) : Int) := by
    rewrite [hsub]
    exact binom_with_eq op hop (n / 2) (m - 1) (by omega) (fun j => hprod _ j (by omega))
      (by omega)
  have hp := store_nonneg op hop _ hS0 (by linarith)
  have hdiff := store_nonneg op hop (divisorSum m n (Nat.gcd m n)
    - ((wrap (2 * m) : Nat) : Int) * ((Nat.choose (n / 2) (m - 1) : Nat) : Int))
    (by linarith) (by linarith)
  have hm0 : (0 : Int) ≤ (m : Int) := Int.natCast_nonneg _
  rw [numerator_eq m n hm hmn (by omega) (by omega)]
  unfold numerator_with
  by_cases hodd : m % 2 = 1
  · rw [if_pos hodd] at hV
    have hmsum := odd_msum_with_eq op hop m n hm hmn hn hprod
    have hX : (0 : Int) ≤ ((oddSum m n : Nat) : Int) * (m : Int) :=
      mul_nonneg (Int.natCast_nonneg _) hm0
    have hp1 := store_nonneg op hop (((oddSum m n : Nat) : Int) * (m : Int)) hX
      (by linarith)
    have hp2 := store_nonneg op hop (((oddSum m n : Nat) : Int) * (m : Int) * 2)
      (by linarith) (by linarith)
    have hfin := store_nonneg op hop (divisorSum m n (Nat.gcd m n)
      - ((wrap (2 * m) : Nat) : Int) * ((Nat.choose (n / 2) (m - 1) : Nat) : Int)
      + ((oddSum m n : Nat) : Int) * (m : Int) * 2) (by linarith) (by linarith)
    simp only [hgcd, hdiv, hbin, hp, hdiff, hmsum, hp1, hp2, hfin, ok_bind, if_pos hodd]
  · rw [if_neg hodd] at hV
    have hmsum := even_msum_with_eq op hop m n (by omega) hmn hn hprod
    have hX : (0 : Int) ≤ ((evenSum m n : Nat) : Int) * (m : Int) :=
      mul_nonneg (Int.natCast_nonneg _) hm0
    have hp1 := store_nonneg op hop (((evenSum m n : Nat) : Int) * (m : Int)) hX
      (by linarith)
    have hfin := store_nonneg op hop (divisorSum m n (Nat.gcd m n)
      - ((wrap (2 * m) : Nat) : Int) * ((Nat.choose (n / 2) (m - 1) : Nat) : Int)
      + ((evenSum m n : Nat) : Int) * (m : Int)) (by linarith) (by linarith)
    simp only [hgcd, hdiv, hbin, hp, hdiff, hmsum, hp1, hfin, ok_bind, if_neg hodd]

theorem compute_mgon_with_eq (op : Int → Except Failure Int)
    (hop : ∀ x : Int, x.natAbs < 2 ^ 255 → op x = .ok x) (m n : Nat) (hm : 3 ≤ m)
    (hmn : m ≤ n) (hn : n ≤ 254)
    (hprod : ∀ N j, N < n →
      op ((((j + 1) * Nat.choose N (j + 1) : Nat) : Nat) : Int)
        = .ok ((((j + 1) * Nat.choose N (j + 1) : Nat) : Nat) : Int)) :
    compute_mgon_with op m n = .ok ((polygon_count m n : Nat) : Int) ∧
      compute_mgon m n = .ok ((polygon_count m n : Nat) : Int) := by
  have hcount := numerator_eq_count m n hm hmn (by omega) (by omega)
  have hc := compute_mgon_of_numerator_multiple m n _ (by omega) (by omega) hcount
  refine ⟨?_, hc⟩
  have hV := numerator_value_lt m n hm hmn hn
  have hE := numerator_eq m n hm hmn (by omega) (by omega)
  rw [hcount] at hE
  rw [← Except.ok.inj hE] at hV
  have hm1 : (1 : Int) ≤ (m : Int) := by exact_mod_cast (by omega : 1 ≤ m)
  have hc0 : (0 : Int) ≤ ((polygon_count m n : Nat) : Int) := Int.natCast_nonneg _
  have hcle : ((polygon_count m n : Nat) : Int)
      ≤ 4 * (m : Int) * ((polygon_count m n : Nat) : Int) := by nlinarith
  have hnum2 : (2 : Int) ^ 254 < 2 ^ 255 := by norm_num
  have hw : wrap (4 * m) = 4 * m := wrap_of_lt _ (by omega)
  have hcast : ((4 * m : Nat) : Int) = 4 * (m : Int) := by push_cast; ring
  have hne : (4 * (m : Int)) ≠ 0 := by omega
  have hzero : op 0 = .ok 0 := hop 0 (by norm_num)
  have hq := store_nonneg op hop _ hc0 (by linarith)
  unfold compute_mgon_with
  rewrite [numerator_with_eq op hop m n hm hmn hn hprod, hcount, ok_bind_apply]
  unfold sanity_check_with
  rewrite [hw, if_neg (by omega : ¬ 4 * m = 0), hcast, Int.mul_tmod_right, hzero, ok_bind_apply,
    if_neg (by simp), Int.mul_tdiv_cancel_left _ hne]
  exact hq

theorem stores_products_of_le_250 (op : Int → Except Failure Int)
    (hop : ∀ x : Int, x.natAbs < 2 ^ 255 → op x = .ok x) (n : Nat) (hn : n ≤ 250) :
    ∀ N j, N < n →
      op ((((j + 1) * Nat.choose N (j + 1) : Nat) : Nat) : Int)
        = .ok ((((j + 1) * Nat.choose N (j + 1) : Nat) : Nat) : Int) :=
  fun N j hN => store_natCast op hop _ (succ_mul_choose_lt N (by omega) j)

/-- C15: for `3 ≤ m ≤ n ≤ 250`, `compute_mgon m n` run over a type that raises `overflow` for
every product, quotient, remainder, sum or difference of absolute value `2 ^ 255` or more
(inside `binom` and for the numerator and the sums `msum`) raises nothing and returns what
`compute_mgon m n` returns with exact integers, a value; so does the run over any
fixed-width type that holds the values of absolute value below `2 ^ 255` unchanged. -/
theorem compute_mgon_fits_256_bits (m n : Nat) (hm : 3 ≤ m) (hmn : m ≤ n) (hn : n ≤ 250) :
    compute_mgon_with (checked 255) m n = compute_mgon m n ∧
      (∃ r, compute_mgon m n = .ok r) ∧
      ∀ norm : Int → Int, (∀ x : Int, x.natAbs < 2 ^ 255 → norm x = x) →
        compute_mgon_with (fun x => .ok (norm x)) m n = compute_mgon m n := by
  have hchk : ∀ x : Int, x.natAbs < 2 ^ 255 → checked 255 x = .ok x := by
    intro x hx
    unfold checked
    rw [if_pos hx]
  refine ⟨?_, ⟨_, (compute_mgon_with_eq (checked 255) hchk m n hm hmn (by omega)
      (stores_products_of_le_250 _ hchk n hn)).2⟩, ?_⟩
  · rw [(compute_mgon_with_eq (checked 255) hchk m n hm hmn (by omega)
      (stores_products_of_le_250 _ hchk n hn)).1,
      (compute_mgon_with_eq (checked 255) hchk m n hm hmn (by omega)
      (stores_products_of_le_250 _ hchk n hn)).2]
  · intro norm hnorm
    have hop : ∀ x : Int, x.natAbs < 2 ^ 255 →
        (fun x => (Except.ok (norm x) : Except Failure Int)) x = .ok x := by
      intro x hx
      show (Except.ok (norm x) : Except Failure Int) = Except.ok x
      rw [hnorm x hx]
    rw [(compute_mgon_with_eq _ hop m n hm hmn (by omega)
      (stores_products_of_le_250 _ hop n hn)).1,
      (compute_mgon_with_eq _ hop m n hm hmn (by omega)
      (stores_products_of_le_250 _ hop n hn)).2]

theorem compute_mgon_fits_256_bits_witness :
    3 ≤ 4 ∧ 4 ≤ 9 ∧ 9 ≤ 250 ∧ compute_mgon_with (checked 255) 4 9 = compute_mgon 4 9 :=
  ⟨by decide, by decide, by decide,
    (compute_mgon_fits_256_bits 4 9 (by decide) (by decide) (by decide)).1⟩

/-! ## The 256-bit type of the source -/

theorem store256_of_lt (x : Int) (h : x.natAbs < 2 ^ 256) : store256 x = .ok x := by
  unfold store256
  rw [Nat.mod_eq_of_lt h]
  by_cases hx : x < 0
  · rw [if_pos hx]
    congr 1
    omega
  · rw [if_neg hx]
    congr 1
    omega

theorem store256_range (x y : Int) (h : store256 x = .ok y) : y.natAbs < 2 ^ 256 := by
  unfold store256 at h
  have hy := Except.ok.inj h
  have hlt : x.natAbs % 2 ^ 256 < 2 ^ 256 := Nat.mod_lt _ (by norm_num)
  rw [← hy]
  by_cases hx : x < 0
  · rw [if_pos hx, Int.natAbs_neg, Int.natAbs_ofNat]
    exact hlt
  · rw [if_neg hx, Int.natAbs_ofNat]
    exact hlt

theorem store256_total (x : Int) : ∃ y, store256 x = .ok y := ⟨_, rfl⟩

set_option maxRecDepth 100000 in
theorem binom_252_126 :
    binom 252 126 = .ok 363385715856739898597174879118845755433251497432024467186246395557048813504 := by
  decide!

theorem choose_252_126 : Nat.choose 252 126 = 363385715856739898597174879118845755433251497432024467186246395557048813504 := by
  have h := binom_eq_choose 252 126 (by norm_num) (by norm_num)
  rw [binom_252_126] at h
  have h' := Except.ok.inj h
  exact_mod_cast h'.symm

theorem succ_mul_choose_lt_256 (N : Nat) (hN : N ≤ 253) (j : Nat) :
    (j + 1) * Nat.choose N (j + 1) < 2 ^ 256 := by
  cases N with
  | zero => simp
  | succ M =>
    have h := Nat.succ_mul_choose_eq M j
    have hswap : (j + 1) * Nat.choose (M + 1) (j + 1) = (M + 1) * Nat.choose M j := by
      rw [Nat.succ_eq_add_one, Nat.succ_eq_add_one] at h
      rw [h, Nat.mul_comm]
    rw [hswap]
    have h1 : Nat.choose M j ≤ Nat.choose 252 j := Nat.choose_le_choose j (by omega)
    have h2 : Nat.choose 252 j ≤ Nat.choose 252 126 := Nat.choose_le_middle j 252
    rw [choose_252_126] at h2
    calc (M + 1) * Nat.choose M j ≤ 253 * 363385715856739898597174879118845755433251497432024467186246395557048813504 :=
          Nat.mul_le_mul (by omega) (le_trans h1 h2)
      _ < 2 ^ 256 := by norm_num

theorem stores_products_of_le_254 (op : Int → Except Failure Int)
    (hop : ∀ x : Int, x.natAbs < 2 ^ 256 → op x = .ok x) (n : Nat) (hn : n ≤ 254) :
    ∀ N j, N < n →
      op ((((j + 1) * Nat.choose N (j + 1) : Nat) : Nat) : Int)
        = .ok ((((j + 1) * Nat.choose N (j + 1) : Nat) : Nat) : Int) :=
  fun N j hN => hop _ (by rw [Int.natAbs_ofNat]; exact succ_mul_choose_lt_256 N (by omega) j)

theorem store_weaken (op : Int → Except Failure Int)
    (hop : ∀ x : Int, x.natAbs < 2 ^ 256 → op x = .ok x) :
    ∀ x : Int, x.natAbs < 2 ^ 255 → op x = .ok x :=
  fun x hx => hop x (lt_trans hx (by norm_num))

/-! ## A run in which every result fits is the run of every 256-bit store

The store `checked 256` raises `overflow` for a result that a sign and 256 bits of
magnitude cannot hold.  A run over it that does not raise `overflow` is, step by step, the
run over every store that keeps such results unchanged: over `store256`, and over
`Except.ok`, the exact integers. -/

theorem bind_fits {α β : Type} (x y : Except Failure α) (f g : α → Except Failure β)
    (hxy : x ≠ .error .overflow → y = x)
    (hfg : ∀ a, f a ≠ .error .overflow → g a = f a)
    (h : (x >>= f) ≠ .error .overflow) : (y >>= g) = (x >>= f) := by
  cases x with
  | error e =>
    rw [error_bind] at h
    have he : e ≠ .overflow := fun hh => h (by rw [hh])
    have hy : y = .error e := hxy (fun hh => he (Except.error.inj hh))
    rw [hy]
    rfl
  | ok a =>
    have hy : y = .ok a := hxy (by intro h'; cases h')
    rw [ok_bind] at h
    rw [hy, ok_bind]
    exact hfg a h

theorem for_le_fits {σ : Type} (b1 b2 : Nat → σ → Except Failure σ) (hi : Nat)
    (hb : ∀ i s, b1 i s ≠ .error .overflow → b2 i s = b1 i s) :
    ∀ (fuel i : Nat) (s : σ), for_le b1 hi fuel i s ≠ .error .overflow →
      for_le b2 hi fuel i s = for_le b1 hi fuel i s := by
  intro fuel
  induction fuel with
  | zero => intro i s _; rfl
  | succ f ih =>
    intro i s h
    by_cases hle : i ≤ hi
    · simp only [for_le, if_pos hle] at h ⊢
      cases hb1 : b1 i s with
      | error e =>
        rw [hb1] at h
        have hb2 : b2 i s = .error e := by
          rw [← hb1]
          exact hb i s (by rw [hb1]; exact h)
        rw [hb2]
      | ok s' =>
        rw [hb1] at h
        have hb2 : b2 i s = .ok s' := by
          rw [← hb1]
          exact hb i s (by rw [hb1]; intro h'; cases h')
        rw [hb2]
        exact ih (wrap (i + 1)) s' h
    · simp only [for_le, if_neg hle]

theorem checked_fits (op : Int → Except Failure Int)
    (hop : ∀ x : Int, x.natAbs < 2 ^ 256 → op x = .ok x) (x : Int)
    (h : checked 256 x ≠ .error .overflow) : op x = checked 256 x := by
  unfold checked at h ⊢
  by_cases hx : x.natAbs < 2 ^ 256
  · rw [if_pos hx]
    exact hop x hx
  · rw [if_neg hx] at h
    exact absurd rfl h

theorem binom_step_with_fits (op : Int → Except Failure Int)
    (hop : ∀ x : Int, x.natAbs < 2 ^ 256 → op x = .ok x) (i : Nat) (st : Nat × Int)
    (h : binom_step_with (checked 256) i st ≠ .error .overflow) :
    binom_step_with op i st = binom_step_with (checked 256) i st := by
  unfold binom_step_with at h ⊢
  by_cases h0 : i = 0
  · rw [if_pos h0, if_pos h0]
  · rw [if_neg h0] at h
    rw [if_neg h0, if_neg h0]
    exact bind_fits _ _ _ _ (checked_fits op hop _)
      (fun p => bind_fits _ _ _ _ (checked_fits op hop _) (fun q _ => rfl)) h

theorem binom_with_fits (op : Int → Except Failure Int)
    (hop : ∀ x : Int, x.natAbs < 2 ^ 256 → op x = .ok x) (bn bd : Nat)
    (h : binom_with (checked 256) bn bd ≠ .error .overflow) :
    binom_with op bn bd = binom_with (checked 256) bn bd := by
  have hf := for_le_fits (binom_step_with (checked 256)) (binom_step_with op) bd
    (fun i s => binom_step_with_fits op hop i s) (bd + 1) 1 (bn, 1)
  unfold binom_with at h ⊢
  cases hc : for_le (binom_step_with (checked 256)) bd (bd + 1) 1 (bn, 1) with
  | error e =>
    rw [hc] at h hf
    dsimp only at h
    have he : e ≠ .overflow := fun hh => h (by rw [hh])
    rw [hf (fun hh => he (Except.error.inj hh))]
  | ok st =>
    rw [hc] at hf
    rw [hf (by intro h'; cases h')]

theorem divisor_step_with_fits (op : Int → Except Failure Int)
    (hop : ∀ x : Int, x.natAbs < 2 ^ 256 → op x = .ok x) (m n g d : Nat) (num : Int)
    (h : divisor_step_with (checked 256) m n g d num ≠ .error .overflow) :
    divisor_step_with op m n g d num = divisor_step_with (checked 256) m n g d num := by
  unfold divisor_step_with at h ⊢
  by_cases h0 : d = 0
  · rw [if_pos h0, if_pos h0]
  · rw [if_neg h0] at h
    rw [if_neg h0, if_neg h0]
    by_cases h1 : g % d ≠ 0
    · rw [if_pos h1, if_pos h1]
    · rw [if_neg h1] at h
      rw [if_neg h1, if_neg h1]
      exact bind_fits _ _ _ _ (fun _ => rfl)
        (fun t => bind_fits _ _ _ _ (binom_with_fits op hop _ _)
          (fun b => bind_fits _ _ _ _ (checked_fits op hop _)
            (fun p => checked_fits op hop _))) h

theorem odd_step_with_fits (op : Int → Except Failure Int)
    (hop : ∀ x : Int, x.natAbs < 2 ^ 256 → op x = .ok x) (m n i : Nat) (msum : Int)
    (h : odd_step_with (checked 256) m n i msum ≠ .error .overflow) :
    odd_step_with op m n i msum = odd_step_with (checked 256) m n i msum := by
  unfold odd_step_with at h ⊢
  by_cases h0 : wrap (n + i) % 2 = 1
  · rw [if_pos h0, if_pos h0]
  · rw [if_neg h0] at h
    rw [if_neg h0, if_neg h0]
    exact bind_fits _ _ _ _ (binom_with_fits op hop _ _)
      (fun b => checked_fits op hop _) h

theorem even_step_with_fits (op : Int → Except Failure Int)
    (hop : ∀ x : Int, x.natAbs < 2 ^ 256 → op x = .ok x) (m n i j : Nat) (msum : Int)
    (h : even_step_with (checked 256) m n i j msum ≠ .error .overflow) :
    even_step_with op m n i j msum = even_step_with (checked 256) m n i j msum := by
  unfold even_step_with at h ⊢
  by_cases h0 : usub (usub n i) j % 2 = 1
  · rw [if_pos h0, if_pos h0]
  · rw [if_neg h0] at h
    rw [if_neg h0, if_neg h0]
    exact bind_fits _ _ _ _ (binom_with_fits op hop _ _)
      (fun b => checked_fits op hop _) h

theorem even_first_with_fits (op : Int → Except Failure Int)
    (hop : ∀ x : Int, x.natAbs < 2 ^ 256 → op x = .ok x) (m n : Nat)
    (h : even_first_with (checked 256) m n ≠ .error .overflow) :
    even_first_with op m n = even_first_with (checked 256) m n := by
  unfold even_first_with at h ⊢
  by_cases h0 : n % 2 = 0
  · rw [if_pos h0] at h
    rw [if_pos h0, if_pos h0]
    exact bind_fits _ _ _ _ (binom_with_fits op hop _ _)
      (fun b => checked_fits op hop _) h
  · rw [if_neg h0, if_neg h0]

theorem even_msum_with_fits (op : Int → Except Failure Int)
    (hop : ∀ x : Int, x.natAbs < 2 ^ 256 → op x = .ok x) (m n : Nat)
    (h : even_msum_with (checked 256) m n ≠ .error .overflow) :
    even_msum_with op m n = even_msum_with (checked 256) m n := by
  unfold even_msum_with at h ⊢
  exact bind_fits _ _ _ _ (even_first_with_fits op hop m n)
    (fun msum => for_le_fits _ _ _
      (fun i s => for_le_fits _ _ _ (fun j s' => even_step_with_fits op hop m n i j s') _ _ s)
      _ _ msum) h

theorem numerator_with_fits (op : Int → Except Failure Int)
    (hop : ∀ x : Int, x.natAbs < 2 ^ 256 → op x = .ok x) (m n : Nat)
    (h : numerator_with (checked 256) m n ≠ .error .overflow) :
    numerator_with op m n = numerator_with (checked 256) m n := by
  unfold numerator_with divisor_term_with odd_msum_with at h ⊢
  by_cases hodd : m % 2 = 1
  · simp only [if_pos hodd] at h ⊢
    exact bind_fits _ _ _ _ (fun _ => rfl)
      (fun g => bind_fits _ _ _ _
        (for_le_fits _ _ _ (fun d s => divisor_step_with_fits op hop m n g d s) _ _ _)
        (fun num => bind_fits _ _ _ _ (binom_with_fits op hop _ _)
          (fun b => bind_fits _ _ _ _ (checked_fits op hop _)
            (fun p => bind_fits _ _ _ _ (checked_fits op hop _)
              (fun num' => bind_fits _ _ _ _
                (for_le_fits _ _ _ (fun i s => odd_step_with_fits op hop m n i s) _ _ _)
                (fun msum => bind_fits _ _ _ _ (checked_fits op hop _)
                  (fun p1 => bind_fits _ _ _ _ (checked_fits op hop _)
                    (fun p2 => checked_fits op hop _)))))))) h
  · simp only [if_neg hodd] at h ⊢
    exact bind_fits _ _ _ _ (fun _ => rfl)
      (fun g => bind_fits _ _ _ _
        (for_le_fits _ _ _ (fun d s => divisor_step_with_fits op hop m n g d s) _ _ _)
        (fun num => bind_fits _ _ _ _ (binom_with_fits op hop _ _)
          (fun b => bind_fits _ _ _ _ (checked_fits op hop _)
            (fun p => bind_fits _ _ _ _ (checked_fits op hop _)
              (fun num' => bind_fits _ _ _ _ (even_msum_with_fits op hop m n)
                (fun msum => bind_fits _ _ _ _ (checked_fits op hop _)
                  (fun p1 => checked_fits op hop _))))))) h

theorem sanity_check_with_fits (op : Int → Except Failure Int)
    (hop : ∀ x : Int, x.natAbs < 2 ^ 256 → op x = .ok x) (denom : Nat) (num : Int)
    (h : sanity_check_with (checked 256) denom num ≠ .error .overflow) :
    sanity_check_with op denom num = sanity_check_with (checked 256) denom num := by
  unfold sanity_check_with at h ⊢
  by_cases h0 : denom = 0
  · rw [if_pos h0, if_pos h0]
  · rw [if_neg h0] at h
    rw [if_neg h0, if_neg h0]
    refine bind_fits _ _ _ _ (checked_fits op hop _) (fun r hr => ?_) h
    by_cases h1 : r ≠ 0
    · rw [if_pos h1, if_pos h1]
    · rw [if_neg h1] at hr
      rw [if_neg h1, if_neg h1]
      exact checked_fits op hop _ hr

theorem compute_mgon_with_of_fits (op : Int → Except Failure Int)
    (hop : ∀ x : Int, x.natAbs < 2 ^ 256 → op x = .ok x) (m n : Nat)
    (h : compute_mgon_with (checked 256) m n ≠ .error .overflow) :
    compute_mgon_with op m n = compute_mgon_with (checked 256) m n := by
  unfold compute_mgon_with at h ⊢
  exact bind_fits _ _ _ _ (numerator_with_fits op hop m n)
    (fun num => sanity_check_with_fits op hop _ num) h

theorem compute_mgon_of_fits (m n : Nat)
    (h : compute_mgon_with (checked 256) m n ≠ .error .overflow) :
    compute_mgon m n = compute_mgon_with (checked 256) m n := by
  rw [← compute_mgon_with_ok]
  exact compute_mgon_with_of_fits Except.ok (fun _ _ => rfl) m n h

/-! ## Every loop ends over a store that always stores -/

theorem binom_step_with_total (op : Int → Except Failure Int) (htot : ∀ x, ∃ y, op x = .ok y)
    (i : Nat) (hi : 1 ≤ i) (st : Nat × Int) : ∃ st', binom_step_with op i st = .ok st' := by
  obtain ⟨p, hp⟩ := htot (st.2 * (st.1 : Int))
  obtain ⟨q, hq⟩ := htot (Int.tdiv p (i : Int))
  unfold binom_step_with
  rw [if_neg (by omega : ¬ i = 0)]
  simp only [hp, hq, ok_bind]
  exact ⟨_, rfl⟩

theorem binom_with_total (op : Int → Except Failure Int) (htot : ∀ x, ∃ y, op x = .ok y)
    (bn bd : Nat) (hbd : bd < 4294967295) : ∃ v, binom_with op bn bd = .ok v := by
  obtain ⟨st, hst⟩ := for_le_ok (binom_step_with op) bd hbd
    (fun i hi _ s => binom_step_with_total op htot i hi s) (bn, 1)
  unfold binom_with
  rw [hst]
  exact ⟨_, rfl⟩

theorem divisor_step_with_total (op : Int → Except Failure Int)
    (htot : ∀ x, ∃ y, op x = .ok y) (m n d : Nat) (hm : 1 ≤ m) (hm' : m < 4294967296)
    (hd : 1 ≤ d) (num : Int) :
    ∃ num', divisor_step_with op m n (Nat.gcd m n) d num = .ok num' := by
  unfold divisor_step_with
  rw [if_neg (by omega : ¬ d = 0)]
  by_cases hdvd : Nat.gcd m n % d ≠ 0
  · rw [if_pos hdvd]
    exact ⟨num, rfl⟩
  · have h0 : Nat.gcd m n % d = 0 := not_not.mp hdvd
    have hdm : d ∣ m := dvd_trans (Nat.dvd_of_mod_eq_zero h0) (Nat.gcd_dvd_left m n)
    have hdle : d ≤ m := Nat.le_of_dvd (by omega) hdm
    have hmd : 0 < m / d := Nat.div_pos hdle (by omega)
    have hmd' : m / d ≤ m := Nat.div_le_self m d
    obtain ⟨t, ht⟩ := totient_ok d
    obtain ⟨b, hb⟩ := binom_with_total op htot (usub (n / d) 1) (usub (m / d) 1)
      (by rw [usub_one _ hmd (by omega)]; omega)
    obtain ⟨p, hp⟩ := htot (((wrap (2 * t) : Nat) : Int) * b)
    obtain ⟨s, hs⟩ := htot (num + p)
    rw [if_neg hdvd]
    simp only [ht, hb, hp, hs, ok_bind]
    exact ⟨_, rfl⟩

theorem divisor_term_with_total (op : Int → Except Failure Int)
    (htot : ∀ x, ∃ y, op x = .ok y) (m n : Nat) (hm : 1 ≤ m) (hm' : m < 4294967296)
    (hg : Nat.gcd m n < 4294967295) :
    ∃ num, divisor_term_with op m n (Nat.gcd m n) = .ok num := by
  unfold divisor_term_with
  exact for_le_ok _ _ hg (fun d hd _ s => divisor_step_with_total op htot m n d hm hm' hd s) 0

theorem odd_step_with_total (op : Int → Except Failure Int) (htot : ∀ x, ∃ y, op x = .ok y)
    (m n i : Nat) (hm : 2 ≤ m) (hm' : m < 4294967296) (msum : Int) :
    ∃ msum', odd_step_with op m n i msum = .ok msum' := by
  unfold odd_step_with
  by_cases hpar : wrap (n + i) % 2 = 1
  · rw [if_pos hpar]
    exact ⟨msum, rfl⟩
  · obtain ⟨b, hb⟩ := binom_with_total op htot (usub (usub n i / 2) 1) (usub (m / 2) 1)
      (by rw [usub_one _ (by omega) (by omega)]; omega)
    obtain ⟨s, hs⟩ := htot (msum + b)
    rw [if_neg hpar]
    simp only [hb, hs, ok_bind]
    exact ⟨_, rfl⟩

theorem odd_msum_with_total (op : Int → Except Failure Int) (htot : ∀ x, ∃ y, op x = .ok y)
    (m n : Nat) (hm : 2 ≤ m) (hm' : m < 4294967296) :
    ∃ msum, odd_msum_with op m n = .ok msum := by
  unfold odd_msum_with
  exact for_le_ok _ _ (half_word_lt n) (fun i _ _ s => odd_step_with_total op htot m n i hm hm' s) 0

theorem even_step_with_total (op : Int → Except Failure Int) (htot : ∀ x, ∃ y, op x = .ok y)
    (m n i j : Nat) (hm : 4 ≤ m) (hm' : m < 4294967296) (msum : Int) :
    ∃ msum', even_step_with op m n i j msum = .ok msum' := by
  unfold even_step_with
  by_cases hpar : usub (usub n i) j % 2 = 1
  · rw [if_pos hpar]
    exact ⟨msum, rfl⟩
  · obtain ⟨b, hb⟩ := binom_with_total op htot (usub (usub (usub n i) j / 2) 1) (usub (m / 2) 2)
      (by rw [usub_of_le _ _ (by omega) (by omega)]; omega)
    obtain ⟨s, hs⟩ := htot (msum + b)
    rw [if_neg hpar]
    simp only [hb, hs, ok_bind]
    exact ⟨_, rfl⟩

theorem even_first_with_total (op : Int → Except Failure Int) (htot : ∀ x, ∃ y, op x = .ok y)
    (m n : Nat) (hm : 2 ≤ m) (hm' : m < 4294967296) :
    ∃ msum, even_first_with op m n = .ok msum := by
  unfold even_first_with
  by_cases hpar : n % 2 = 0
  · obtain ⟨b, hb⟩ := binom_with_total op htot (usub (n / 2) 1) (usub (m / 2) 1)
      (by rw [usub_one _ (by omega) (by omega)]; omega)
    obtain ⟨s, hs⟩ := htot (0 + b)
    rw [if_pos hpar, hb, ok_bind_apply, hs]
    exact ⟨_, rfl⟩
  · rw [if_neg hpar]
    exact ⟨0, rfl⟩

theorem even_msum_with_total (op : Int → Except Failure Int) (htot : ∀ x, ∃ y, op x = .ok y)
    (m n : Nat) (hm : 4 ≤ m) (hm' : m < 4294967296) :
    ∃ msum, even_msum_with op m n = .ok msum := by
  obtain ⟨s0, h0⟩ := even_first_with_total op htot m n (by omega) hm'
  obtain ⟨r, hr⟩ := for_le_ok
    (fun i msum => for_le (even_step_with op m n i) (usub n 1 / 2) (usub n 1 / 2 + 1) 1 msum)
    (usub n 1 / 2) (half_word_lt n)
    (fun i _ _ s => for_le_ok _ _ (half_word_lt n)
      (fun j _ _ s' => even_step_with_total op htot m n i j hm hm' s') s) s0
  refine ⟨r, ?_⟩
  unfold even_msum_with
  rewrite [h0, ok_bind_apply]
  exact hr

theorem numerator_with_ok_stored (op : Int → Except Failure Int)
    (htot : ∀ x, ∃ y, op x = .ok y) (m n : Nat) (hm : 3 ≤ m) (hm' : m < 4294967296)
    (hn : n < 4294967296) (hg : Nat.gcd m n < 4294967295) :
    ∃ num x, numerator_with op m n = .ok num ∧ op x = .ok num := by
  have hgcd := compute_gcd_eq m n (by omega)
  obtain ⟨d, hdiv⟩ := divisor_term_with_total op htot m n (by omega) hm' hg
  obtain ⟨b, hbin⟩ := binom_with_total op htot (n / 2) (usub m 1)
    (by rw [usub_one m (by omega) hm']; omega)
  obtain ⟨p, hp⟩ := htot (((wrap (2 * m) : Nat) : Int) * b)
  obtain ⟨num', hdiff⟩ := htot (d - p)
  unfold numerator_with
  by_cases hodd : m % 2 = 1
  · obtain ⟨s, hmsum⟩ := odd_msum_with_total op htot m n (by omega) hm'
    obtain ⟨p1, hp1⟩ := htot (s * (m : Int))
    obtain ⟨p2, hp2⟩ := htot (p1 * 2)
    obtain ⟨r, hr⟩ := htot (num' + p2)
    simp only [hgcd, hdiv, hbin, hp, hdiff, hmsum, hp1, hp2, ok_bind, if_pos hodd]
    exact ⟨r, _, hr, hr⟩
  · obtain ⟨s, hmsum⟩ := even_msum_with_total op htot m n (by omega) hm'
    obtain ⟨p1, hp1⟩ := htot (s * (m : Int))
    obtain ⟨r, hr⟩ := htot (num' + p1)
    simp only [hgcd, hdiv, hbin, hp, hdiff, hmsum, hp1, ok_bind, if_neg hodd]
    exact ⟨r, _, hr, hr⟩

theorem natAbs_tmod_lt (a : Int) (d : Nat) (hd : 0 < d) : (Int.tmod a (d : Int)).natAbs < d := by
  have h1 : (Int.tmod a (d : Int)).natAbs = a.natAbs % d := by
    cases a with
    | ofNat k =>
      show (Int.tmod (Int.ofNat k) (Int.ofNat d)).natAbs = _
      rfl
    | negSucc k =>
      show (Int.tmod (Int.negSucc k) (Int.ofNat d)).natAbs = _
      simp only [Int.tmod, Int.natAbs_neg, Int.natAbs_negSucc, Nat.succ_eq_add_one]
      exact Int.natAbs_ofNat _
  rw [h1]
  exact Nat.mod_lt _ hd

theorem natAbs_tdiv_le (a : Int) (d : Nat) : (Int.tdiv a (d : Int)).natAbs ≤ a.natAbs := by
  have h1 : (Int.tdiv a (d : Int)).natAbs = a.natAbs / d := by
    cases a with
    | ofNat k =>
      show (Int.tdiv (Int.ofNat k) (Int.ofNat d)).natAbs = _
      rfl
    | negSucc k =>
      show (Int.tdiv (Int.negSucc k) (Int.ofNat d)).natAbs = _
      simp only [Int.tdiv, Int.natAbs_neg, Int.natAbs_negSucc, Nat.succ_eq_add_one]
      exact Int.natAbs_ofNat _
  rw [h1]
  exact Nat.div_le_self _ _

/-! ## Runs of the source's functions where 256 bits are not enough -/

set_option maxRecDepth 1000000 in
theorem numerator_with_store256_255_255 : numerator_with store256 255 255 = .ok 1018 := by
  decide!

set_option maxRecDepth 1000000 in
theorem divisor_term_with_store256_255 : divisor_term_with store256 255 255 255 = .ok 508 := by
  decide!

set_option maxRecDepth 1000000 in
theorem numerator_with_store256_121_255 :
    numerator_with store256 121 255
      = .ok 41447731604476233581072896595657324735513874221349160521326156106482016754 := by
  decide!

set_option maxRecDepth 1000000 in
theorem compute_mgon_with_store256_255_261 :
    compute_mgon_with store256 255 261 = .ok 5147516 := by
  decide!

set_option maxRecDepth 1000000 in
theorem compute_mgon_255_261 : compute_mgon 255 261 = .ok 793964857 := by
  decide!

set_option maxRecDepth 1000000 in
theorem compute_mgon_with_checked_3_300 :
    compute_mgon_with (checked 256) 3 300 = .ok 1875 := by
  decide!

set_option maxRecDepth 1000000 in
theorem binom_254_119 :
    binom 254 119
      = .ok 876140393582109403247669324477239608838948411178363170295475602009653290600 := by
  decide!

set_option maxRecDepth 1000000 in
theorem binom_254_120 :
    binom 254 120
      = .ok 985657942779873078653627990036894559943816962575658566582410052260859951925 := by
  decide!

set_option maxRecDepth 1000000 in
theorem binom_with_store256_254_120 :
    binom_with store256 254 120
      = .ok 20723865802238116790536448297828661166567090361987199586930185528250538258 := by
  decide!

theorem choose_254_119 : ((Nat.choose 254 119 : Nat) : Int)
    = 876140393582109403247669324477239608838948411178363170295475602009653290600 := by
  have h := binom_eq_choose 254 119 (by norm_num) (by norm_num)
  rw [binom_254_119] at h
  exact (Except.ok.inj h).symm

theorem choose_254_120 : ((Nat.choose 254 120 : Nat) : Int)
    = 985657942779873078653627990036894559943816962575658566582410052260859951925 := by
  have h := binom_eq_choose 254 120 (by norm_num) (by norm_num)
  rw [binom_254_120] at h
  exact (Except.ok.inj h).symm

set_option maxRecDepth 1000000 in
theorem compute_mgon_with_store256_91_520 :
    compute_mgon_with store256 91 520
      = .ok (-6357793680506728642740523846434696353402276424605436085067264362597653) := by
  decide!

set_option maxRecDepth 1000000 in
theorem binom_with_store256_254_iteration_120 :
    for_le (binom_step_with store256) 119 120 1 (254, 1)
      = .ok (135,
        876140393582109403247669324477239608838948411178363170295475602009653290600) := by
  decide!

theorem compute_mgon_with_of_numerator (op : Int → Except Failure Int) (m n : Nat) (num : Int)
    (h : numerator_with op m n = .ok num) :
    compute_mgon_with op m n = sanity_check_with op (wrap (4 * m)) num := by
  unfold compute_mgon_with
  rw [h, ok_bind_apply]

theorem compute_mgon_with_of_numerator_error (op : Int → Except Failure Int) (m n : Nat)
    (e : Failure) (h : numerator_with op m n = .error e) :
    compute_mgon_with op m n = .error e := by
  unfold compute_mgon_with
  rw [h]
  rfl

theorem compute_mgon_with_store256_255_255 :
    compute_mgon_with store256 255 255 = .error .bad_fraction := by
  rw [compute_mgon_with_of_numerator _ _ _ _ numerator_with_store256_255_255]
  decide

theorem compute_mgon_with_store256_121_255 :
    compute_mgon_with store256 121 255 = .error .bad_fraction := by
  rw [compute_mgon_with_of_numerator _ _ _ _ numerator_with_store256_121_255]
  decide

theorem numerator_with_top_error (op : Int → Except Failure Int)
    (htot : ∀ x, ∃ y, op x = .ok y) (m n : Nat) (hm : 1 ≤ m) (hm' : m < 4294967296)
    (hg : 4294967295 ≤ Nat.gcd m n) : numerator_with op m n = .error .zero_divisor := by
  have hgcd := compute_gcd_eq m n (by omega)
  have hdiv : divisor_term_with op m n (Nat.gcd m n) = .error .zero_divisor := by
    unfold divisor_term_with
    exact for_le_top_error (divisor_step_with op m n (Nat.gcd m n)) (Nat.gcd m n) hg
      .zero_divisor (fun d s hd _ => divisor_step_with_total op htot m n d hm hm' hd s)
      (by
        intro s
        unfold divisor_step_with
        rw [if_pos rfl])
      (Nat.gcd m n + 1) 1 0 (le_refl 1) (by omega) (by omega)
  unfold numerator_with
  simp only [hgcd, hdiv, ok_bind, error_bind]

theorem sanity_check_with_store256 (denom : Nat) (num : Int) (hd : denom ≠ 0)
    (hd' : denom < 4294967296) (hnum : num.natAbs < 2 ^ 256) :
    sanity_check_with store256 denom num
      = if Int.tmod num (denom : Int) ≠ 0 then .error .bad_fraction
        else .ok (Int.tdiv num (denom : Int)) := by
  have h1 : store256 (Int.tmod num (denom : Int)) = .ok (Int.tmod num (denom : Int)) := by
    apply store256_of_lt
    have := natAbs_tmod_lt num denom (by omega)
    have h2 : (4294967296 : Nat) < 2 ^ 256 := by norm_num
    omega
  have h2 : store256 (Int.tdiv num (denom : Int)) = .ok (Int.tdiv num (denom : Int)) :=
    store256_of_lt _ (lt_of_le_of_lt (natAbs_tdiv_le num denom) hnum)
  unfold sanity_check_with
  rw [if_neg hd, h1, ok_bind_apply, h2]

/-! ## The source's functions where 256 bits are enough -/

theorem store256_weak : ∀ x : Int, x.natAbs < 2 ^ 255 → store256 x = .ok x :=
  store_weaken store256 store256_of_lt

theorem store256_products (n : Nat) (hn : n ≤ 254) : ∀ N j, N < n →
    store256 ((((j + 1) * Nat.choose N (j + 1) : Nat) : Nat) : Int)
      = .ok ((((j + 1) * Nat.choose N (j + 1) : Nat) : Nat) : Int) :=
  stores_products_of_le_254 store256 store256_of_lt n hn

theorem checked_of_lt (x : Int) (h : x.natAbs < 2 ^ 256) : checked 256 x = .ok x := by
  unfold checked
  rw [if_pos h]

theorem binom_with_store256_prefix (bn j : Nat) (hbn : bn ≤ 253) (hj : j < 4294967296) :
    (List.range' 1 j).foldlM (fun st i => binom_step_with store256 i st) (bn, 1)
      = .ok ((bn + 4294967296 - j) % 4294967296, ((Nat.choose bn j : Nat) : Int)) := by
  have h := binom_with_fold store256 store256_weak bn hbn
    (fun j => store256_products (bn + 1) (by omega) bn j (by omega)) j 0 (by omega)
  have h0 : (bn + 4294967296 - 0) % 4294967296 = bn := by omega
  rw [h0] at h
  simp only [Nat.choose_zero_right, Nat.cast_one, Nat.zero_add] at h
  exact h

theorem binom_with_store256_loop (bn j : Nat) (hbn : bn ≤ 253) (hj : j < 4294967295) :
    for_le (binom_step_with store256) j (j + 1) 1 (bn, 1)
      = .ok ((bn + 4294967296 - j) % 4294967296, ((Nat.choose bn j : Nat) : Int)) := by
  rw [for_le_eq_foldlM (binom_step_with store256) j hj j 1 _ (by omega) (j + 1) (by omega)]
  exact binom_with_store256_prefix bn j hbn (by omega)

theorem binom_with_store256 (bn bd : Nat) (hbn : bn ≤ 253) (hbd : bd < 4294967295) :
    binom_with store256 bn bd = .ok ((Nat.choose bn bd : Nat) : Int) :=
  binom_with_eq store256 store256_weak bn bd hbn
    (fun j => store256_products (bn + 1) (by omega) bn j (by omega)) hbd

theorem numerator_with_store256 (m n : Nat) (hm : 3 ≤ m) (hmn : m ≤ n) (hn : n ≤ 254) :
    numerator_with store256 m n = numerator m n :=
  numerator_with_eq store256 store256_weak m n hm hmn hn (store256_products n hn)

theorem numerator_with_store256_count (m n : Nat) (hm : 3 ≤ m) (hmn : m ≤ n)
    (hn : n ≤ 254) :
    numerator_with store256 m n = .ok (4 * (m : Int) * (polygon_count m n : Int)) := by
  rw [numerator_with_store256 m n hm hmn hn]
  exact numerator_eq_count m n hm hmn (by omega) (by omega)

theorem compute_mgon_with_store256 (m n : Nat) (hm : 3 ≤ m) (hmn : m ≤ n) (hn : n ≤ 254) :
    compute_mgon_with store256 m n = .ok ((polygon_count m n : Nat) : Int) :=
  (compute_mgon_with_eq store256 store256_weak m n hm hmn hn (store256_products n hn)).1

theorem compute_mgon_with_checked (m n : Nat) (hm : 3 ≤ m) (hmn : m ≤ n) (hn : n ≤ 254) :
    compute_mgon_with (checked 256) m n = .ok ((polygon_count m n : Nat) : Int) :=
  (compute_mgon_with_eq (checked 256) (store_weaken (checked 256) checked_of_lt) m n hm hmn hn
    (stores_products_of_le_254 (checked 256) checked_of_lt n hn)).1

theorem numerator_fits_nonneg (m n : Nat) (num : Int) (hm : 3 ≤ m) (hmn : m ≤ n)
    (hn : n < 4294967296) (h : numerator_with (checked 256) m n = .ok num) :
    numerator_with store256 m n = .ok num ∧ 0 ≤ num := by
  have hne : numerator_with (checked 256) m n ≠ .error .overflow := by
    rw [h]
    intro hh
    cases hh
  have h1 := numerator_with_fits store256 store256_of_lt m n hne
  have h2 := numerator_with_fits Except.ok (fun _ _ => rfl) m n hne
  rw [numerator_with_ok] at h2
  exact ⟨h1.trans h, numerator_nonneg m n num hm hmn hn (h2.trans h)⟩

theorem compute_mgon_fits_nonneg (m n : Nat) (r : Int) (hm : 3 ≤ m) (hmn : m ≤ n)
    (hn : n < 4294967296) (h : compute_mgon_with (checked 256) m n = .ok r) :
    compute_mgon_with store256 m n = .ok r ∧ 0 ≤ r := by
  have hne : compute_mgon_with (checked 256) m n ≠ .error .overflow := by
    rw [h]
    intro hh
    cases hh
  have h1 := compute_mgon_with_of_fits store256 store256_of_lt m n hne
  have h2 := compute_mgon_of_fits m n hne
  exact ⟨h1.trans h, compute_mgon_exact_nonneg m n r hm hmn hn (h2.trans h)⟩

theorem sanity_check_with_store256_cases (denom : Nat) (num : Int) (hd : denom ≠ 0)
    (hd' : denom < 4294967296) (hnum : num.natAbs < 2 ^ 256) :
    (sanity_check_with store256 denom num = .error .bad_fraction
        ↔ ¬ ((denom : Int) ∣ num)) ∧
      (∀ r, sanity_check_with store256 denom num = .ok r → (denom : Int) * r = num) ∧
      (sanity_check_with store256 denom num = .error .bad_fraction
        ∨ ∃ r, sanity_check_with store256 denom num = .ok r) := by
  rw [sanity_check_with_store256 denom num hd hd' hnum]
  by_cases hmod : Int.tmod num (denom : Int) ≠ 0
  · rw [if_pos hmod]
    refine ⟨⟨fun _ hdvd => hmod (Int.tmod_eq_zero_of_dvd hdvd), fun _ => rfl⟩, ?_, Or.inl rfl⟩
    intro r hr
    cases hr
  · rw [if_neg hmod]
    have hz : Int.tmod num (denom : Int) = 0 := not_not.mp hmod
    refine ⟨⟨fun h => (by cases h), fun h => absurd (Int.dvd_of_tmod_eq_zero hz) h⟩, ?_,
      Or.inr ⟨_, rfl⟩⟩
    intro r hr
    cases hr
    exact Int.mul_tdiv_cancel_of_tmod_eq_zero hz

theorem numerator_with_store256_stored (m n : Nat) (hm : 3 ≤ m) (hn : n < 4294967296)
    (hmax : m < 4294967295) :
    ∃ num, numerator_with store256 m n = .ok num ∧ num.natAbs < 2 ^ 256 := by
  have hg : Nat.gcd m n < 4294967295 :=
    lt_of_le_of_lt (Nat.le_of_dvd (by omega) (Nat.gcd_dvd_left m n)) hmax
  obtain ⟨num, x, hnum, hx⟩ :=
    numerator_with_ok_stored store256 store256_total m n hm (by omega) hn hg
  exact ⟨num, hnum, store256_range x num hx⟩

theorem compute_mgon_with_store256_zero_denom (m n : Nat) (hm : 3 ≤ m) (hn : n < 4294967296)
    (hmax : m < 4294967295) (hd : wrap (4 * m) = 0) :
    compute_mgon_with store256 m n = .error .zero_divisor := by
  obtain ⟨num, hnum, _⟩ := numerator_with_store256_stored m n hm hn hmax
  rw [compute_mgon_with_of_numerator _ _ _ _ hnum, hd]
  unfold sanity_check_with
  rw [if_pos rfl]

theorem self_polygon_count (n : Nat) (hn : 3 ≤ n) (hlt : n < 1073741824) :
    polygon_count n n = 1 := by
  have h := compute_mgon_of_numerator_multiple n n 1 (by omega) (by omega)
    (by rw [mul_one]; exact numerator_self n hn (by omega))
  exact polygon_count_of_compute_mgon n n 1 hn (le_refl n) (by omega) (by omega) h

theorem divisor_term_with_store256_self (n : Nat) (hn : 3 ≤ n) (h254 : n ≤ 254) :
    divisor_term_with store256 n n n = .ok (2 * (n : Int)) := by
  have h := divisor_term_with_eq store256 store256_weak n n hn (le_refl n) h254
    (store256_products n h254)
  rw [Nat.gcd_self, divisorSum_self n (by omega) (by omega)] at h
  exact h

theorem odd_msum_with_store256_self (n : Nat) (hn : 3 ≤ n) (h254 : n ≤ 254)
    (hodd : n % 2 = 1) : odd_msum_with store256 n n = .ok 1 := by
  rw [odd_msum_with_eq store256 store256_weak n n hn (le_refl n) h254
    (store256_products n h254), oddSum_self n hn hodd]
  rfl

theorem even_msum_with_store256_self (n : Nat) (hn : 3 ≤ n) (h254 : n ≤ 254)
    (heven : n % 2 = 0) : even_msum_with store256 n n = .ok 2 := by
  rw [even_msum_with_eq store256 store256_weak n n (by omega) (le_refl n) h254
    (store256_products n h254), evenSum_self n (by omega) heven]
  rfl

theorem binom_with_store256_self (n : Nat) (hn : 3 ≤ n) (h254 : n ≤ 254) :
    binom_with store256 (n / 2) (usub n 1) = .ok 0 := by
  rw [binom_with_store256 _ _ (by omega) (by rw [usub_one n (by omega) (by omega)]; omega),
    usub_one n (by omega) (by omega), Nat.choose_eq_zero_of_lt (by omega)]
  rfl

/-! ## The contract of `compute_mgon` over the 256-bit type -/

/-- C1, as stated, fails at `m = 255`, `n = 261`: a product in `binom` does not fit the 256
bits of `multiprecision`, and `compute_mgon` returns 5147516 while there are 793964857
polygons.  The smallest perimeter with a failure is 255: `compute_mgon 121 255` takes the
`bad_fraction` branch. -/
theorem compute_mgon_miscounts_at_perimeter_261 :
    compute_mgon_with store256 255 261 = .ok 5147516 ∧
      polygon_count 255 261 = 793964857 ∧
      compute_mgon_with store256 255 261 ≠ .ok ((polygon_count 255 261 : Nat) : Int) ∧
      compute_mgon_with store256 121 255 = .error .bad_fraction := by
  have hcount : polygon_count 255 261 = 793964857 :=
    polygon_count_of_compute_mgon 255 261 793964857 (by decide) (by decide) (by decide)
      (by decide) (by rw [compute_mgon_255_261]; rfl)
  refine ⟨compute_mgon_with_store256_255_261, hcount, ?_, compute_mgon_with_store256_121_255⟩
  rw [compute_mgon_with_store256_255_261, hcount]
  decide

/-- C1, amended: for `3 ≤ m ≤ n ≤ 254`, `compute_mgon m n`, run with the 256-bit type of
the source, returns the number of classes, under cyclic rotation and reversal, of the
`m`-tuples of positive integers with sum `n` in which every entry is smaller than the sum
of the others. -/
theorem compute_mgon_counts_polygons (m n : Nat) (hm : 3 ≤ m) (hmn : m ≤ n) (hn : n ≤ 254) :
    compute_mgon_with store256 m n = .ok ((polygon_count m n : Nat) : Int) :=
  compute_mgon_with_store256 m n hm hmn hn

theorem compute_mgon_counts_polygons_witness :
    3 ≤ 127 ∧ 127 ≤ 254 ∧ 254 ≤ 254 ∧
      compute_mgon_with store256 127 254 = .ok ((polygon_count 127 254 : Nat) : Int) :=
  ⟨by decide, by decide, by decide,
    compute_mgon_counts_polygons 127 254 (by decide) (by decide) (by decide)⟩

/-- C2, as stated, fails at `m = 121`, `n = 255`: the numerator accumulated in the 256-bit
type is not a multiple of `denom = 484` (the remainder is 402), and the `bad_fraction`
branch is taken. -/
theorem bad_fraction_taken_at_perimeter_255 :
    numerator_with store256 121 255
        = .ok 41447731604476233581072896595657324735513874221349160521326156106482016754 ∧
      wrap (4 * 121) = 484 ∧
      Int.tmod 41447731604476233581072896595657324735513874221349160521326156106482016754
        ((484 : Nat) : Int) = 402 ∧
      ¬ (((484 : Nat) : Int)
        ∣ 41447731604476233581072896595657324735513874221349160521326156106482016754) ∧
      compute_mgon_with store256 121 255 = .error .bad_fraction :=
  ⟨numerator_with_store256_121_255, by decide, by decide, by decide,
    compute_mgon_with_store256_121_255⟩

/-- C2, amended: for `3 ≤ m ≤ n ≤ 254`, the `unsigned` value `denom` is `4 * m`, the
numerator accumulated by `compute_mgon m n` in the 256-bit type of the source is a multiple
of it, and the `bad_fraction` branch is not taken. -/
theorem numerator_divisible_by_denom (m n : Nat) (hm : 3 ≤ m) (hmn : m ≤ n) (hn : n ≤ 254) :
    wrap (4 * m) = 4 * m ∧
      ∃ num, numerator_with store256 m n = .ok num ∧ ((wrap (4 * m) : Nat) : Int) ∣ num ∧
        compute_mgon_with store256 m n ≠ .error .bad_fraction := by
  have hw : wrap (4 * m) = 4 * m := wrap_of_lt _ (by omega)
  refine ⟨hw, _, numerator_with_store256_count m n hm hmn hn, ?_, ?_⟩
  · rw [hw]
    exact ⟨(polygon_count m n : Int), by push_cast; ring⟩
  · rw [compute_mgon_with_store256 m n hm hmn hn]
    intro h
    cases h

theorem numerator_divisible_by_denom_witness :
    3 ≤ 5 ∧ 5 ≤ 12 ∧ 12 ≤ 254 ∧
      (wrap (4 * 5) = 4 * 5 ∧
        ∃ num, numerator_with store256 5 12 = .ok num ∧ ((wrap (4 * 5) : Nat) : Int) ∣ num ∧
          compute_mgon_with store256 5 12 ≠ .error .bad_fraction) :=
  ⟨by decide, by decide, by decide,
    numerator_divisible_by_denom 5 12 (by decide) (by decide) (by decide)⟩

/-- C3, as stated, fails at `m = n = 2 ^ 30` and at `m = n = 2 ^ 32 - 1`.  At `2 ^ 30` the
`unsigned` product `denom = 4 * m` wraps to 0: the numerator is accumulated, and the
sanity check fails on the remainder by zero, not with `bad_fraction`, and returns no
value.  At `2 ^ 32 - 1` the counter of the loop over the divisors wraps to 0 and
`gcd % d` fails before a numerator is accumulated. -/
theorem compute_mgon_fails_without_bad_fraction :
    wrap (4 * 1073741824) = 0 ∧
      (∃ num, numerator_with store256 1073741824 1073741824 = .ok num) ∧
      compute_mgon_with store256 1073741824 1073741824 = .error .zero_divisor ∧
      compute_mgon_with store256 1073741824 1073741824 ≠ .error .bad_fraction ∧
      (¬ ∃ r, compute_mgon_with store256 1073741824 1073741824 = .ok r) ∧
      numerator_with store256 4294967295 4294967295 = .error .zero_divisor ∧
      compute_mgon_with store256 4294967295 4294967295 = .error .zero_divisor := by
  have hz := compute_mgon_with_store256_zero_denom 1073741824 1073741824 (by decide)
    (by decide) (by decide) (by decide)
  obtain ⟨num, hnum, _⟩ := numerator_with_store256_stored 1073741824 1073741824 (by decide)
    (by decide) (by decide)
  have htop := numerator_with_top_error store256 store256_total 4294967295 4294967295
    (by decide) (by decide) (by rw [Nat.gcd_self])
  refine ⟨by decide, ⟨num, hnum⟩, hz, ?_, ?_, htop,
    compute_mgon_with_of_numerator_error _ _ _ _ htop⟩
  · rw [hz]
    intro h
    cases h
  · rintro ⟨r, hr⟩
    rw [hz] at hr
    cases hr

/-- C3, amended: for 32-bit `3 ≤ m ≤ n` with `m` below `2 ^ 32 - 1` and the `unsigned`
product `denom = 4 * m` not 0, `compute_mgon m n`, run with the 256-bit type of the
source, accumulates a numerator; it fails with `bad_fraction` exactly when the numerator
is not a multiple of `denom`; a returned value `r` satisfies `denom * r = numerator`; one
of the two happens; and `denom` is `4 * m` when that is below `2 ^ 32`. -/
theorem sanity_check_round_trip (m n : Nat) (hm : 3 ≤ m) (hmn : m ≤ n)
    (hn : n < 4294967296) (hmax : m < 4294967295) (hd : wrap (4 * m) ≠ 0) :
    ∃ num, numerator_with store256 m n = .ok num ∧
      (compute_mgon_with store256 m n = .error .bad_fraction
        ↔ ¬ (((wrap (4 * m) : Nat) : Int) ∣ num)) ∧
      (∀ r, compute_mgon_with store256 m n = .ok r
        → ((wrap (4 * m) : Nat) : Int) * r = num) ∧
      (compute_mgon_with store256 m n = .error .bad_fraction
        ∨ ∃ r, compute_mgon_with store256 m n = .ok r) ∧
      (4 * m < 4294967296 → wrap (4 * m) = 4 * m) := by
  obtain ⟨num, hnum, hlt⟩ := numerator_with_store256_stored m n hm hn hmax
  have hc := sanity_check_with_store256_cases (wrap (4 * m)) num hd
    (by unfold wrap; omega) hlt
  refine ⟨num, hnum, ?_⟩
  rw [compute_mgon_with_of_numerator _ _ _ _ hnum]
  exact ⟨hc.1, hc.2.1, hc.2.2, fun h => wrap_of_lt _ h⟩

theorem sanity_check_round_trip_witness :
    3 ≤ 255 ∧ 255 ≤ 255 ∧ 255 < 4294967296 ∧ 255 < 4294967295 ∧ wrap (4 * 255) ≠ 0 ∧
      compute_mgon_with store256 255 255 = .error .bad_fraction ∧
      ∃ num, numerator_with store256 255 255 = .ok num ∧
        (compute_mgon_with store256 255 255 = .error .bad_fraction
          ↔ ¬ (((wrap (4 * 255) : Nat) : Int) ∣ num)) ∧
        (∀ r, compute_mgon_with store256 255 255 = .ok r
          → ((wrap (4 * 255) : Nat) : Int) * r = num) ∧
        (compute_mgon_with store256 255 255 = .error .bad_fraction
          ∨ ∃ r, compute_mgon_with store256 255 255 = .ok r) ∧
        (4 * 255 < 4294967296 → wrap (4 * 255) = 4 * 255) :=
  ⟨by decide, by decide, by decide, by decide, by decide, compute_mgon_with_store256_255_255,
    sanity_check_round_trip 255 255 (by decide) (by decide) (by decide) (by decide)
      (by decide)⟩

/-- C6, as stated, fails at `m = 91`, `n = 520`: the results do not fit the 256 bits of
`multiprecision`, the sanity check passes, and `compute_mgon` returns a negative value. -/
theorem compute_mgon_negative_at_perimeter_520 :
    compute_mgon_with store256 91 520
        = .ok (-6357793680506728642740523846434696353402276424605436085067264362597653) ∧
      (-6357793680506728642740523846434696353402276424605436085067264362597653 : Int) < 0 :=
  ⟨compute_mgon_with_store256_91_520, by decide⟩

/-- C6, amended: for 32-bit `3 ≤ m ≤ n`, whenever the numerator of `compute_mgon m n` is
accumulated with no multiprecision result reaching `2 ^ 256` in absolute value, it is the
numerator of the 256-bit type of the source and is non-negative although a term is
subtracted from it; whenever `compute_mgon m n` returns a value with no multiprecision
result reaching `2 ^ 256`, it is the value returned with the 256-bit type of the source
and is non-negative; and for `n ≤ 254` this is the case: a non-negative numerator is
accumulated and a non-negative value is returned. -/
theorem compute_mgon_nonneg (m n : Nat) (hm : 3 ≤ m) (hmn : m ≤ n) (hn : n < 4294967296) :
    (∀ num, numerator_with (checked 256) m n = .ok num →
        numerator_with store256 m n = .ok num ∧ 0 ≤ num) ∧
      (∀ r, compute_mgon_with (checked 256) m n = .ok r →
        compute_mgon_with store256 m n = .ok r ∧ 0 ≤ r) ∧
      (n ≤ 254 →
        ∃ num r, numerator_with store256 m n = .ok num ∧
          compute_mgon_with store256 m n = .ok r ∧
          compute_mgon_with (checked 256) m n = .ok r ∧ 0 ≤ num ∧ 0 ≤ r) := by
  refine ⟨fun num h => numerator_fits_nonneg m n num hm hmn hn h,
    fun r h => compute_mgon_fits_nonneg m n r hm hmn hn h, ?_⟩
  intro h254
  have hnum := numerator_with_store256_count m n hm hmn h254
  have hm0 : (0 : Int) ≤ (m : Int) := Int.natCast_nonneg m
  have hc0 : (0 : Int) ≤ (polygon_count m n : Int) := Int.natCast_nonneg _
  exact ⟨_, _, hnum, compute_mgon_with_store256 m n hm hmn h254,
    compute_mgon_with_checked m n hm hmn h254,
    mul_nonneg (mul_nonneg (by norm_num) hm0) hc0, Int.natCast_nonneg _⟩

theorem compute_mgon_nonneg_witness :
    3 ≤ 3 ∧ 3 ≤ 300 ∧ 300 < 4294967296 ∧
      compute_mgon_with (checked 256) 3 300 = .ok 1875 ∧
      compute_mgon_with store256 3 300 = .ok 1875 ∧ (0 : Int) ≤ 1875 :=
  ⟨by decide, by decide, by decide, compute_mgon_with_checked_3_300,
    (compute_mgon_nonneg 3 300 (by decide) (by decide) (by decide)).2.1 1875
      compute_mgon_with_checked_3_300⟩

/-! ## The loop of `binom` over the 256-bit type -/

/-- C13, as stated, fails at `bn = 254`, iteration `i = 120`: the loop reaches the
iteration holding `C(254, 119)`, the product with the factor `254 - 120 + 1 = 135` does
not fit the 256 bits, the product that is kept has the remainder 104 by 120, the quotient
is truncated, and the value held after the iteration, which `binom 254 120` returns, is
not `C(254, 120)`. -/
theorem binom_division_truncates_at_254 :
    for_le (binom_step_with store256) 119 120 1 (254, 1)
        = .ok (135, ((Nat.choose 254 119 : Nat) : Int)) ∧
      store256 (((Nat.choose 254 119 : Nat) : Int) * ((135 : Nat) : Int))
        = .ok 2486863896268574014864373795739439339988050843438463950431622263390064591064 ∧
      Int.tmod 2486863896268574014864373795739439339988050843438463950431622263390064591064
        ((120 : Nat) : Int) = 104 ∧
      binom_step_with store256 120 (135, ((Nat.choose 254 119 : Nat) : Int))
        = .ok (134,
          20723865802238116790536448297828661166567090361987199586930185528250538258) ∧
      binom_with store256 254 120
        = .ok 20723865802238116790536448297828661166567090361987199586930185528250538258 ∧
      ((Nat.choose 254 120 : Nat) : Int)
        = 985657942779873078653627990036894559943816962575658566582410052260859951925 ∧
      binom_with store256 254 120 ≠ .ok ((Nat.choose 254 120 : Nat) : Int) := by
  rw [choose_254_119, choose_254_120, binom_with_store256_254_120]
  exact ⟨binom_with_store256_254_iteration_120, by decide, by decide, by decide, rfl, rfl,
    by decide⟩

/-- C13, amended: in `binom bn bd` with `bn ≤ 253` and a 32-bit `bd`, run with the 256-bit
type of the source, for every iteration `i` with `1 ≤ i ≤ bd`: the first `i - 1`
iterations leave the state `(b, C(bn, i - 1))`, and the loop continues from it, where `b`
is the value of the `unsigned` counter `bn` after `i - 1` decrements (it is `bn - i + 1`
as long as that is not negative); the product `C(bn, i - 1) * b` is kept as it is, it is
a multiple of `i`, the quotient is exact, and the value held after the iteration is
`C(bn, i)`, which is 0 for `i > bn`; and for `bd` below `2 ^ 32 - 1` the call returns
`C(bn, bd)`. -/
theorem binom_divisions_exact (bn bd i : Nat) (hbn : bn ≤ 253) (hbd : bd < 4294967296)
    (h1 : 1 ≤ i) (h2 : i ≤ bd) :
    ∃ b : Nat,
      for_le (binom_step_with store256) (i - 1) i 1 (bn, 1)
        = .ok (b, ((Nat.choose bn (i - 1) : Nat) : Int)) ∧
      for_le (binom_step_with store256) bd (bd + 1) 1 (bn, 1)
        = for_le (binom_step_with store256) bd (bd + 2 - i) i
            (b, ((Nat.choose bn (i - 1) : Nat) : Int)) ∧
      b = (bn + 4294967296 - (i - 1)) % 4294967296 ∧
      (i ≤ bn + 1 → b = bn + 1 - i) ∧
      store256 (((Nat.choose bn (i - 1) : Nat) : Int) * (b : Int))
        = .ok (((Nat.choose bn (i - 1) : Nat) : Int) * (b : Int)) ∧
      (i : Int) ∣ ((Nat.choose bn (i - 1) : Nat) : Int) * (b : Int) ∧
      Int.tmod (((Nat.choose bn (i - 1) : Nat) : Int) * (b : Int)) (i : Int) = 0 ∧
      (i : Int) * ((Nat.choose bn i : Nat) : Int)
        = ((Nat.choose bn (i - 1) : Nat) : Int) * (b : Int) ∧
      binom_step_with store256 i (b, ((Nat.choose bn (i - 1) : Nat) : Int))
        = .ok (usub b 1, ((Nat.choose bn i : Nat) : Int)) ∧
      (bn < i → Nat.choose bn i = 0) ∧
      (bd < 4294967295 → binom_with store256 bn bd = .ok ((Nat.choose bn bd : Nat) : Int)) := by
  obtain ⟨j, rfl⟩ : ∃ j, i = j + 1 := ⟨i - 1, by omega⟩
  rw [Nat.add_sub_cancel]
  have hprod := store256_products (bn + 1) (by omega) bn j (by omega)
  have hstep := binom_step_choose bn j ((bn + 4294967296 - j) % 4294967296)
    (by intro h; omega)
  have hbody := binom_step_with_choose store256 store256_weak bn j
    ((bn + 4294967296 - j) % 4294967296) hbn hprod (by intro h; omega)
  have hfold := binom_with_store256_prefix bn j hbn (by omega)
  have hsplit := for_le_split (binom_step_with store256) bd j 1 (bn, 1) _
    (bd + 2 - (j + 1)) hfold (by omega) (by omega)
  have e1 : bd + 2 - (j + 1) + j = bd + 1 := by omega
  have e2 : 1 + j = j + 1 := by omega
  rw [e1, e2] at hsplit
  have hdvd : ((j + 1 : Nat) : Int) ∣ ((Nat.choose bn j : Nat) : Int)
      * (((bn + 4294967296 - j) % 4294967296 : Nat) : Int) := Dvd.intro _ hstep.2
  have hkept : store256 (((Nat.choose bn j : Nat) : Int)
      * (((bn + 4294967296 - j) % 4294967296 : Nat) : Int))
      = .ok (((Nat.choose bn j : Nat) : Int)
        * (((bn + 4294967296 - j) % 4294967296 : Nat) : Int)) := by
    rw [← hstep.2, ← Nat.cast_mul]
    exact hprod
  refine ⟨_, binom_with_store256_loop bn j hbn (by omega), hsplit, rfl, ?_, hkept, hdvd,
    Int.tmod_eq_zero_of_dvd hdvd, hstep.2, hbody, ?_, ?_⟩
  · intro h
    omega
  · intro h
    exact Nat.choose_eq_zero_of_lt h
  · intro h
    exact binom_with_store256 bn bd hbn h

theorem binom_divisions_exact_witness :
    253 ≤ 253 ∧ 130 < 4294967296 ∧ 1 ≤ 127 ∧ 127 ≤ 130 ∧
      ∃ b : Nat,
        for_le (binom_step_with store256) (127 - 1) 127 1 (253, 1)
          = .ok (b, ((Nat.choose 253 (127 - 1) : Nat) : Int)) ∧
        for_le (binom_step_with store256) 130 (130 + 1) 1 (253, 1)
          = for_le (binom_step_with store256) 130 (130 + 2 - 127) 127
              (b, ((Nat.choose 253 (127 - 1) : Nat) : Int)) ∧
        b = (253 + 4294967296 - (127 - 1)) % 4294967296 ∧
        (127 ≤ 253 + 1 → b = 253 + 1 - 127) ∧
        store256 (((Nat.choose 253 (127 - 1) : Nat) : Int) * (b : Int))
          = .ok (((Nat.choose 253 (127 - 1) : Nat) : Int) * (b : Int)) ∧
        ((127 : Nat) : Int) ∣ ((Nat.choose 253 (127 - 1) : Nat) : Int) * (b : Int) ∧
        Int.tmod (((Nat.choose 253 (127 - 1) : Nat) : Int) * (b : Int)) ((127 : Nat) : Int)
          = 0 ∧
        ((127 : Nat) : Int) * ((Nat.choose 253 127 : Nat) : Int)
          = ((Nat.choose 253 (127 - 1) : Nat) : Int) * (b : Int) ∧
        binom_step_with store256 127 (b, ((Nat.choose 253 (127 - 1) : Nat) : Int))
          = .ok (usub b 1, ((Nat.choose 253 127 : Nat) : Int)) ∧
        (253 < 127 → Nat.choose 253 127 = 0) ∧
        (130 < 4294967295
          → binom_with store256 253 130 = .ok ((Nat.choose 253 130 : Nat) : Int)) :=
  ⟨by decide, by decide, by decide, by decide,
    binom_divisions_exact 253 130 127 (by decide) (by decide) (by decide) (by decide)⟩

/-! ## The polygon with all sides 1 over the 256-bit type -/

/-- C16, as stated, fails at `n = 255`: in the 256-bit type the loop over the divisors
contributes 508, not `2 * 255 = 510`, the numerator is 1018, not `4 * 255 = 1020`, and
`compute_mgon 255 255` takes the `bad_fraction` branch and does not return 1. -/
theorem compute_mgon_self_fails_at_255 :
    compute_mgon_with store256 255 255 = .error .bad_fraction ∧
      compute_mgon_with store256 255 255 ≠ .ok 1 ∧
      divisor_term_with store256 255 255 255 = .ok 508 ∧
      numerator_with store256 255 255 = .ok 1018 := by
  refine ⟨compute_mgon_with_store256_255_255, ?_, divisor_term_with_store256_255,
    numerator_with_store256_255_255⟩
  rw [compute_mgon_with_store256_255_255]
  intro h
  cases h

/-- C16, amended: for `3 ≤ n ≤ 254`, `compute_mgon n n`, run with the 256-bit type of the
source, returns 1: the gcd is `n`, the loop over the divisors contributes `2 * n`, the
subtracted term is a multiple of `binom (n/2) (n-1) = 0`, the sum `msum` is 1 for an odd
`n` (multiplied by `n * 2`) and 2 for an even `n` (multiplied by `n`), and the numerator
is `4 * n`. -/
theorem compute_mgon_self (n : Nat) (hn : 3 ≤ n) (h254 : n ≤ 254) :
    compute_mgon_with store256 n n = .ok 1 ∧
      compute_gcd n n = .ok n ∧
      divisor_term_with store256 n n n = .ok (2 * (n : Int)) ∧
      binom_with store256 (n / 2) (usub n 1) = .ok 0 ∧
      (n % 2 = 1 → odd_msum_with store256 n n = .ok 1) ∧
      (n % 2 = 0 → even_msum_with store256 n n = .ok 2) ∧
      numerator_with store256 n n = .ok (4 * (n : Int)) := by
  have hg : compute_gcd n n = .ok n := by
    rw [compute_gcd_eq n n (by omega), Nat.gcd_self]
  refine ⟨?_, hg, divisor_term_with_store256_self n hn h254,
    binom_with_store256_self n hn h254, odd_msum_with_store256_self n hn h254,
    even_msum_with_store256_self n hn h254, ?_⟩
  · rw [compute_mgon_with_store256 n n hn (le_refl n) h254,
      self_polygon_count n hn (by omega)]
    rfl
  · rw [numerator_with_store256 n n hn (le_refl n) h254]
    exact numerator_self n hn (by omega)

theorem compute_mgon_self_witness :
    3 ≤ 254 ∧ 254 ≤ 254 ∧ compute_mgon_with store256 254 254 = .ok 1 :=
  ⟨by decide, by decide, (compute_mgon_self 254 (by decide) (by decide)).1⟩

end Mgons
